import Mathlib

/-
Verification of the storage core of a parity-db style key/value store.

The development shallowly embeds the two source files of the repository:

* table.rs   -- value tables: slab allocator over fixed-size slots, free list
               threaded through tombstones, multipart chains, refcounts.
* column.rs  -- column coordinator: tier selection, plan enactment routing,
               rebalance driver and trigger.

Slot contents are modelled as lists of bytes (Nat values < 256 by
construction).  The write-ahead-log overlay and the enacted file agree byte
for byte on every read path exercised here (enact_plan writes exactly the
planned bytes of a slot, and every reader consults the overlay first), so
both are collapsed into a single slot map inside the table state.  Loops of
the source that follow on-disk next pointers are embedded with an explicit
fuel parameter; the wrappers pass a fuel that is proved sufficient under the
well-formedness invariants.
-/

namespace ParityDb

/-! ## Byte-level primitives (table.rs constants and entry encoding) -/

def SIZE_SIZE : Nat := 2
def INDEX_SIZE : Nat := 8
def REFS_SIZE : Nat := 4
def PARTIAL_SIZE : Nat := 26
def MAX_ENTRY_SIZE : Nat := 0x7ff8
def MIN_ENTRY_SIZE : Nat := 32
def LOCKED_REF : Nat := 0xffffffff
def COMPRESSED_MASK : Nat := 0x8000

/-- Bytes of the tombstone discriminant 0xffff (little endian on disk). -/
def TOMBSTONE : List Nat := [0xff, 0xff]

/-- Bytes of the current multipart-continuation discriminant (0xfffe LE). -/
def MULTIPART : List Nat := [0xfe, 0xff]

/-- Bytes of the current multipart-head discriminant (0xfffd LE). -/
def MULTIHEAD : List Nat := [0xfd, 0xff]

/-- Bytes of the v4 multipart discriminant. -/
def MULTIPART_V4 : List Nat := [0xff, 0xfe]

/-- Bytes of the v4 multipart-head discriminant. -/
def MULTIHEAD_V4 : List Nat := [0xff, 0xfd]

/-- Little-endian encoding of a value into a fixed number of bytes. -/
def leBytes : Nat → Nat → List Nat
  | 0, _ => []
  | n + 1, v => v % 256 :: leBytes n (v / 256)

def le16 (v : Nat) : List Nat := leBytes 2 v
def le32 (v : Nat) : List Nat := leBytes 4 v
def le64 (v : Nat) : List Nat := leBytes 8 v

/-- Little-endian decoding of a byte list. -/
def rdLE : List Nat → Nat
  | [] => 0
  | b :: bs => b % 256 + 256 * rdLE bs

/-- Reads the sub-slice of a byte buffer starting at a given offset. -/
def sliceL (bs : List Nat) (start len : Nat) : List Nat := (bs.drop start).take len

/-! ## Column-level model (column.rs) -/

def START_BITS : Nat := 16
def MAX_REBALANCE_BATCH : Nat := 65536

/-- Result of routing a log action inside Column::enact_plan. -/
inductive EnactResult where
  | ok
  | corruption
  deriving DecidableEq, Repr

/-- Routing of an InsertIndex record in Column::enact_plan (column.rs lines
197-221).  The first component records whether the plan was enacted on the
primary index (the first plain `if` of the source); the second mirrors the
`if let Some(table) = self.rebalancing.iter_mut().find(..)` with its `else`
branch returning a Corruption error.  Index tables are identified by their
ids. -/
def enactInsertIndexRoute (primaryId : Nat) (rebalIds : List Nat)
    (recTable : Nat) : Bool × EnactResult :=
  let onPrimary := recTable == primaryId
  match rebalIds.find? (fun r => r == recTable) with
  | some _ => (onPrimary, EnactResult.ok)
  | none => (onPrimary, EnactResult.corruption)

/-- Modelled from the spec: the per-tier single-slot value capacity
(ValueTable::value_size of the older table.rs revision that this column.rs
compiles against is not part of the sources; the spec describes the capacity
as the slot size minus the 2-byte size word and the 26-byte partial key). -/
def tierValueSize (entrySize : Nat) : Nat := entrySize - SIZE_SIZE - PARTIAL_SIZE

/-- Entry sizes of the fifteen value tables opened by Column::open. -/
def tierEntrySizes : List Nat :=
  [64, 96, 128, 192, 256, 320, 512, 768, 1024, 1536, 2048, 3072, 4096, 8192, 16384]

/-- Shallow embedding of Iterator::position as used by Column::write_plan. -/
def listPosition (p : α → Bool) : List α → Option Nat
  | [] => none
  | x :: xs => if p x then some 0 else (listPosition p xs).map (· + 1)

/-- Target tier chosen by Column::write_plan for a set operation:
the first value table whose capacity is at least the value length. -/
def targetTierOf (len : Nat) : Option Nat :=
  listPosition (fun es => len ≤ tierValueSize es) tierEntrySizes

/-- Destination of a set operation in Column::write_plan. -/
inductive SetRoute where
  | toTier (t : Nat)
  | toBlobs
  deriving DecidableEq, Repr

/-- Routing decision of Column::write_plan for a set: a fitting tier if one
exists, otherwise the blob overflow map (which this revision of column.rs
keeps unconditionally). -/
def writePlanRoute (len : Nat) : SetRoute :=
  match targetTierOf len with
  | some t => SetRoute.toTier t
  | none => SetRoute.toBlobs

/-- State of a column as far as rebalancing is concerned: the primary index
bit width, the bit widths of the queued rebalancing tables (front first), and
the drain cursor. -/
structure ColState where
  indexBits : Nat
  rebalQueueBits : List Nat
  rebalanceProgress : Nat
  deriving DecidableEq, Repr

/-- Column::trigger_rebalance: create a new primary at one more bit, push the
old primary to the back of the rebalancing queue.  The source touches no
other field. -/
def triggerRebalanceM (c : ColState) : ColState :=
  { indexBits := c.indexBits + 1
    rebalQueueBits := c.rebalQueueBits ++ [c.indexBits]
    rebalanceProgress := c.rebalanceProgress }

/-- Batch loop of Column::rebalance (column.rs lines 238-255).  The argument
gives, for each source chunk, the number of non-empty entries it yields
(each such entry is migrated and increments the count); the loop advances
the chunk cursor while it is below the total and the count of migrated
entries is below MAX_REBALANCE_BATCH. -/
def rebalanceBatch (entriesInChunk : Nat → Nat) (total : Nat)
    (sourceIndex count : Nat) : Nat × Nat :=
  if h : sourceIndex < total ∧ count < MAX_REBALANCE_BATCH then
    rebalanceBatch entriesInChunk total (sourceIndex + 1)
      (count + entriesInChunk sourceIndex)
  else
    (sourceIndex, count)
termination_by total - sourceIndex
decreasing_by omega

/-! ## Value-table model (table.rs)

The table state collapses the log overlay and the enacted file into one slot
map: for every slot these agree byte for byte after enactment, because
ValueTable::enact_plan writes exactly the planned bytes at the slot offset
and every reader consults the overlay first. -/

/-- Configuration of one value table: its entry size, whether the column is
reference counted, whether this is the multipart tier, and the db version. -/
structure VTCfg where
  entrySize : Nat
  refCounted : Bool
  multipart : Bool
  dbVersion : Nat

/-- Width of the optional refcount word (ValueTable::ref_size). -/
def VTCfg.refSize (cfg : VTCfg) : Nat := if cfg.refCounted then REFS_SIZE else 0

/-- In-memory state of a value table: the header counters and the slot map. -/
structure TState where
  filled : Nat
  lastRemoved : Nat
  slots : Nat → List Nat

/-- State of a freshly created (empty) value table: header says filled = 1,
no free list, no slot content. -/
def initTState : TState :=
  { filled := 1, lastRemoved := 0, slots := fun _ => [] }

/-- Planning new bytes for a slot (log.insert_value followed by the
byte-identical enactment). -/
def writeSlot (s : TState) (i : Nat) (bs : List Nat) : TState :=
  { s with slots := fun j => if j = i then bs else s.slots j }

/-- Entry::is_tombstone: the first two bytes are the tombstone tag. -/
def isTomb (bs : List Nat) : Bool := bs.take SIZE_SIZE == TOMBSTONE

/-- Entry::is_multi: current multipart tags, and the v4 tags when the
database version is at most 4. -/
def isMultiTag (dbVersion : Nat) (bs : List Nat) : Bool :=
  bs.take SIZE_SIZE == MULTIPART || bs.take SIZE_SIZE == MULTIHEAD ||
    (decide (dbVersion ≤ 4) &&
      (bs.take SIZE_SIZE == MULTIPART_V4 || bs.take SIZE_SIZE == MULTIHEAD_V4))

/-- Combined `self.multipart && buf.is_multi(db_version)` test. -/
def isMultiSlot (cfg : VTCfg) (bs : List Nat) : Bool :=
  cfg.multipart && isMultiTag cfg.dbVersion bs

/-- Next pointer of a tombstone or multipart slot: skip the 2-byte tag, read
a 64-bit little-endian index. -/
def nextPtrOf (bs : List Nat) : Nat := rdLE (sliceL bs SIZE_SIZE INDEX_SIZE)

/-- Entry::read_size: 15-bit size plus the compression flag in the top bit of
the little-endian 16-bit word. -/
def readSizeOf (bs : List Nat) : Nat × Bool :=
  let w := rdLE (bs.take SIZE_SIZE)
  (w &&& 0x7fff, (w &&& COMPRESSED_MASK) != 0)

/-- Entry::write_size: the size word with the compression bit, as a 16-bit
little-endian pair (the size reaches this function through a u16 cast). -/
def mkSizeWord (size : Nat) (compressed : Bool) : List Nat :=
  le16 (if compressed then (size % 65536) ||| COMPRESSED_MASK else size % 65536)

/-- ValueTable::read_next_free: next pointer stored in a tombstone. -/
def readNextFreeM (s : TState) (i : Nat) : Nat := nextPtrOf (s.slots i)

/-- ValueTable::read_next_part: the continuation pointer of a multipart slot,
none for a terminal (complete or sized) slot. -/
def readNextPartM (cfg : VTCfg) (s : TState) (i : Nat) : Option Nat :=
  if isMultiSlot cfg (s.slots i) then some (nextPtrOf (s.slots i)) else none

/-- ValueTable::next_free: pop the head of the free list if it is non-empty,
else take the high-water slot and bump it. -/
def nextFreeM (s : TState) : Nat × TState :=
  if s.lastRemoved ≠ 0 then
    (s.lastRemoved, { s with lastRemoved := readNextFreeM s s.lastRemoved })
  else
    (s.filled, { s with filled := s.filled + 1 })

/-- ValueTable::clear_slot: write a tombstone carrying the previous free-list
head and make this slot the new head. -/
def clearSlotM (s : TState) (i : Nat) : TState :=
  let s1 := writeSlot s i (TOMBSTONE ++ le64 s.lastRemoved)
  { s1 with lastRemoved := i }

/-- ValueTable::clear_chain: clear every slot of a chain, following the
continuation pointers (fuel bounds the walk; the wrappers pass enough). -/
def clearChainM (cfg : VTCfg) : Nat → TState → Nat → Option TState
  | 0, _, _ => none
  | fuel + 1, s, index =>
    match readNextPartM cfg s index with
    | some next => clearChainM cfg fuel (clearSlotM s index) next
    | none => some (clearSlotM s index)

/-- Partial key of a 32-byte key: its low 26 bytes (key::partial_key). -/
def partKeyBytes (k : List Nat) : List Nat := k.drop 6

/-- TableKey: either the low bytes of a hashed 32-byte key (the source's
Partial variant) or no key at all. -/
inductive MKey where
  | hashed (k : List Nat)
  | noHash

/-- TableKey::encoded_size. -/
def MKey.encodedSize : MKey → Nat
  | .hashed _ => PARTIAL_SIZE
  | .noHash => 0

/-- TableKey::write: the bytes stored in a head slot for this key. -/
def MKey.writeBytes : MKey → List Nat
  | .hashed k => partKeyBytes k
  | .noHash => []

/-- Bytes written before the payload in the first slot of a chain: the
initial refcount of 1 (when refcounted) followed by the partial key.  Empty
on continuation slots (offset is nonzero from the second slot on). -/
def hdrBytes (cfg : VTCfg) (kb : List Nat) (offset : Nat) : List Nat :=
  if offset = 0 then (if cfg.refCounted then le32 1 else []) ++ kb else []

/-- Loop body of ValueTable::overwrite_chain, with fuel.  Arguments mirror
the source locals: remainder, offset, start, index, follow. -/
def overwriteChainAux (cfg : VTCfg) (kb value : List Nat) (compressed : Bool) :
    Nat → TState → Nat → Nat → Nat → Nat → Bool → Option (Nat × TState)
  | 0, _, _, _, _, _, _ => none
  | fuel + 1, s, remainder, offset, start, index, follow =>
    let link : Nat × Bool :=
      if follow then
        match readNextPartM cfg s index with
        | some next => (next, true)
        | none => (0, false)
      else (0, false)
    let freeSpace := cfg.entrySize - SIZE_SIZE
    let headerBytes := hdrBytes cfg kb offset
    if freeSpace < remainder then
      let alloc : Nat × TState := if link.2 then (link.1, s) else nextFreeM s
      let valueLen := freeSpace - INDEX_SIZE
      let written := headerBytes.length
      let buf := (if start = 0 then MULTIHEAD else MULTIPART) ++ le64 alloc.1 ++
        headerBytes ++ sliceL value offset (valueLen - written)
      let s2 := writeSlot alloc.2 index buf
      overwriteChainAux cfg kb value compressed fuel s2 (remainder - valueLen)
        (offset + (valueLen - written)) (if start = 0 then index else start)
        alloc.1 link.2
    else
      let written := headerBytes.length
      let buf := mkSizeWord remainder compressed ++ headerBytes ++
        sliceL value offset (remainder - written)
      let s2 := writeSlot s index buf
      let start1 := if start = 0 then index else start
      if link.1 ≠ 0 then
        match clearChainM cfg fuel s2 link.1 with
        | some s3 => some (start1, s3)
        | none => none
      else some (start1, s2)

/-- ValueTable::overwrite_chain.  The source asserts
`multipart || value.len() <= value_size` on entry; theorems carry that bound
as a hypothesis.  The fuel passed here is proved sufficient in the lemmas. -/
def overwriteChain (cfg : VTCfg) (key : MKey) (value : List Nat)
    (at_ : Option Nat) (compressed : Bool) (s : TState) : Option (Nat × TState) :=
  let remainder := value.length + cfg.refSize + key.encodedSize
  let fuel := remainder + s.filled + 2
  match at_ with
  | some index =>
    overwriteChainAux cfg key.writeBytes value compressed fuel s remainder 0 0 index true
  | none =>
    let a := nextFreeM s
    overwriteChainAux cfg key.writeBytes value compressed fuel a.2 remainder 0 0 a.1 false

/-- ValueTable::write_insert_plan: a fresh chain; returns the head slot. -/
def writeInsertPlanM (cfg : VTCfg) (key : MKey) (value : List Nat)
    (compressed : Bool) (s : TState) : Option (Nat × TState) :=
  overwriteChain cfg key value none compressed s

/-- ValueTable::write_replace_plan: overwrite an existing chain in place. -/
def writeReplacePlanM (cfg : VTCfg) (index : Nat) (key : MKey)
    (value : List Nat) (compressed : Bool) (s : TState) : Option TState :=
  (overwriteChain cfg key value (some index) compressed s).map (·.2)

/-- ValueTable::write_remove_plan: clear a whole chain on the multipart tier,
a single slot otherwise. -/
def writeRemovePlanM (cfg : VTCfg) (s : TState) (index : Nat) : Option TState :=
  if cfg.multipart then clearChainM cfg (s.filled + 1) s index
  else some (clearSlotM s index)

/-- ValueTable::change_ref: mutate the refcount word of a live slot and write
the entry back; false means the entry is (or just became) dead. -/
def changeRefM (cfg : VTCfg) (s : TState) (index : Nat) (delta : Int) :
    Bool × TState :=
  let bs := s.slots index
  if isTomb bs then (false, s)
  else
    let multi := isMultiSlot cfg bs
    let rcOffset := if multi then SIZE_SIZE + INDEX_SIZE else SIZE_SIZE
    let size := if multi then cfg.entrySize else SIZE_SIZE + (readSizeOf bs).1
    let counter := rdLE (sliceL bs rcOffset REFS_SIZE)
    let upd : Option Nat :=
      if 0 < delta then
        some (if LOCKED_REF - delta.toNat ≤ counter then LOCKED_REF
          else counter + delta.toNat)
      else if counter ≠ LOCKED_REF then
        let c2 := counter - (-delta).toNat
        if c2 = 0 then none else some c2
      else some counter
    match upd with
    | none => (false, s)
    | some c2 =>
      (true, writeSlot s index (sliceL bs 0 rcOffset ++ le32 c2 ++
        sliceL bs (rcOffset + REFS_SIZE) (size - rcOffset - REFS_SIZE)))

/-- ValueTable::write_inc_ref. -/
def writeIncRefM (cfg : VTCfg) (s : TState) (index : Nat) : TState :=
  (changeRefM cfg s index 1).2

/-- ValueTable::write_dec_ref: returns whether the entry is still live; on
death the slot (or chain) is removed at once. -/
def writeDecRefM (cfg : VTCfg) (s : TState) (index : Nat) :
    Option (Bool × TState) :=
  let r := changeRefM cfg s index (-1)
  if r.1 then some (true, r.2)
  else (writeRemovePlanM cfg r.2 index).map (fun s' => (false, s'))

/-- Loop of ValueTable::for_parts specialised to the collecting closure used
by get/query: walk the chain, check the key on the head slot, concatenate the
payload fragments. -/
def forPartsGo (cfg : VTCfg) (s : TState) (key : MKey) :
    Nat → Nat → Nat → Bool → Nat → List Nat → Option (Nat × Bool × List Nat)
  | 0, _, _, _, _, _ => none
  | fuel + 1, index, part, compressed, rc, acc =>
    let bs := s.slots index
    if isTomb bs then some (0, false, acc)
    else
      let multi := isMultiSlot cfg bs
      let entryEnd := if multi then cfg.entrySize else SIZE_SIZE + (readSizeOf bs).1
      let nxt := if multi then nextPtrOf bs else 0
      let compressed1 := if multi then compressed else (readSizeOf bs).2
      let off0 := if multi then SIZE_SIZE + INDEX_SIZE else SIZE_SIZE
      if part = 0 then
        let rc1 := if cfg.refCounted then rdLE (sliceL bs off0 REFS_SIZE) else rc
        let off1 := if cfg.refCounted then off0 + REFS_SIZE else off0
        match key with
        | MKey.hashed k =>
          if sliceL bs off1 PARTIAL_SIZE ≠ partKeyBytes k then some (0, false, acc)
          else
            let off2 := off1 + PARTIAL_SIZE
            let acc1 := acc ++ sliceL bs off2 (entryEnd - off2)
            if nxt = 0 then some (rc1, compressed1, acc1)
            else forPartsGo cfg s key fuel nxt (part + 1) compressed1 rc1 acc1
        | MKey.noHash =>
          let acc1 := acc ++ sliceL bs off1 (entryEnd - off1)
          if nxt = 0 then some (rc1, compressed1, acc1)
          else forPartsGo cfg s key fuel nxt (part + 1) compressed1 rc1 acc1
      else
        let acc1 := acc ++ sliceL bs off0 (entryEnd - off0)
        if nxt = 0 then some (rc, compressed1, acc1)
        else forPartsGo cfg s key fuel nxt (part + 1) compressed1 rc acc1

/-- ValueTable::query: run for_parts from the head slot; a zero refcount
(tombstone or key mismatch) is a miss.  The fuel covers any chain of
distinct slots below the high-water mark. -/
def queryM (cfg : VTCfg) (s : TState) (key : MKey) (index : Nat) :
    Option (List Nat × Bool × Nat) :=
  match forPartsGo cfg s key (s.filled + 1) index 0 false 1 [] with
  | some (rc, compressed, acc) =>
    if 0 < rc then some (acc, compressed, rc) else none
  | none => none

/-- ValueTable::get. -/
def getM (cfg : VTCfg) (s : TState) (key : MKey) (index : Nat) :
    Option (List Nat × Bool) :=
  (queryM cfg s key index).map (fun r => (r.1, r.2.1))

/-- ValueTable::open and ValueTable::refresh_metadata both normalize a stored
filled of 0 to 1 so the header slot is never allocated. -/
def openFilledOf (stored : Nat) : Nat := if stored = 0 then 1 else stored

/-- Offset of the refcount word inside a live slot (as in change_ref). -/
def rcOffsetOf (cfg : VTCfg) (bs : List Nat) : Nat :=
  if isMultiSlot cfg bs then SIZE_SIZE + INDEX_SIZE else SIZE_SIZE

/-- Stored length of a live slot (as computed by change_ref). -/
def entLenOf (cfg : VTCfg) (bs : List Nat) : Nat :=
  if isMultiSlot cfg bs then cfg.entrySize else SIZE_SIZE + (readSizeOf bs).1

/-- Refcount stored in a live slot. -/
def rcOf (cfg : VTCfg) (bs : List Nat) : Nat :=
  rdLE (sliceL bs (rcOffsetOf cfg bs) REFS_SIZE)

/-- Iterated write_inc_ref on one slot. -/
def iterIncRef (cfg : VTCfg) (index : Nat) : Nat → TState → TState
  | 0, s => s
  | n + 1, s => iterIncRef cfg index n (writeIncRefM cfg s index)

/-- Iterated write_dec_ref on one slot. -/
def iterDecRef (cfg : VTCfg) (index : Nat) : Nat → TState → Option TState
  | 0, s => some s
  | n + 1, s =>
    match writeDecRefM cfg s index with
    | some (_, s') => iterDecRef cfg index n s'
    | none => none

/-! ## Operation sequences and well-formedness -/

/-- One value-table operation of the kind listed in the free-list claim. -/
inductive VOp where
  | ins (key : MKey) (v : List Nat) (compressed : Bool)
  | repl (i : Nat) (key : MKey) (v : List Nat) (compressed : Bool)
  | rem (i : Nat)
  | incr (i : Nat)
  | decr (i : Nat)

/-- Application of one operation (plan plus byte-identical enactment). -/
def applyOp (cfg : VTCfg) (s : TState) : VOp → Option TState
  | .ins key v c => (writeInsertPlanM cfg key v c s).map (·.2)
  | .repl i key v c => writeReplacePlanM cfg i key v c s
  | .rem i => writeRemovePlanM cfg s i
  | .incr i => some (writeIncRefM cfg s i)
  | .decr i => (writeDecRefM cfg s i).map (·.2)

/-- Sequential application of operations. -/
def runOpsM (cfg : VTCfg) : TState → List VOp → Option TState
  | s, [] => some s
  | s, op :: rest =>
    match applyOp cfg s op with
    | some s' => runOpsM cfg s' rest
    | none => none

/-- Slots of the chain rooted at a slot, read off the state. -/
def chainSlots (cfg : VTCfg) (s : TState) : Nat → Nat → List Nat
  | 0, _ => []
  | fuel + 1, i =>
    match readNextPartM cfg s i with
    | some nxt => i :: chainSlots cfg s fuel nxt
    | none => [i]

/-- Remove from the bookkeeping pool the chain with the given head. -/
def dropChainAt (pool : List (List Nat)) (i : Nat) : List (List Nat) :=
  pool.filter (fun ch => ch.head? != some i)

/-- Bookkeeping of live chains across one operation. -/
def poolStep (cfg : VTCfg) (s : TState) (pool : List (List Nat)) :
    VOp → List (List Nat)
  | .ins key v c =>
    match writeInsertPlanM cfg key v c s with
    | some (st, s1) => chainSlots cfg s1 s1.filled st :: pool
    | none => pool
  | .repl i key v c =>
    match writeReplacePlanM cfg i key v c s with
    | some s1 => chainSlots cfg s1 s1.filled i :: dropChainAt pool i
    | none => pool
  | .rem i => dropChainAt pool i
  | .incr _ => pool
  | .decr i => if (changeRefM cfg s i (-1)).1 then pool else dropChainAt pool i

/-- Key argument validity: hashed keys are 32 bytes long. -/
def keyOk : MKey → Prop
  | .hashed k => k.length = 32
  | .noHash => True

/-- Validity of the value argument of an insert or replace: the source
asserts the single-slot bound on non-multipart tables, and the u64 slot
counter must not overflow. -/
def insOk (cfg : VTCfg) (s : TState) (key : MKey) (v : List Nat) : Prop :=
  keyOk key ∧
  (cfg.multipart = false →
    v.length + cfg.refSize + key.encodedSize ≤ cfg.entrySize - SIZE_SIZE) ∧
  s.filled + v.length + 64 ≤ 2 ^ 64

/-- Membership of a slot as the head of a pooled live chain. -/
def headOf (pool : List (List Nat)) (i : Nat) : Prop :=
  ∃ ch ∈ pool, ch.head? = some i

/-- Validity of one operation: mutations address the head of a live chain,
as the column does via its index. -/
def opOk (cfg : VTCfg) (s : TState) (pool : List (List Nat)) : VOp → Prop
  | .ins key v _ => insOk cfg s key v
  | .repl i key v _ => headOf pool i ∧ insOk cfg s key v
  | .rem i => headOf pool i
  | .incr i => headOf pool i
  | .decr i => headOf pool i

/-- Validity of a whole operation sequence. -/
def seqOk (cfg : VTCfg) : TState → List (List Nat) → List VOp → Prop
  | _, _, [] => True
  | s, pool, op :: rest =>
    opOk cfg s pool op ∧
    (match applyOp cfg s op with
     | some s' => seqOk cfg s' (poolStep cfg s pool op) rest
     | none => True)

/-- Free-list predicate: the list of slots visited from a head by following
the next pointers stored in tombstones, ending at 0. -/
inductive IsFreeList (s : TState) : Nat → List Nat → Prop where
  | nil : IsFreeList s 0 []
  | cons (i : Nat) (rest : List Nat) :
      i ≠ 0 → isTomb (s.slots i) = true →
      IsFreeList s (nextPtrOf (s.slots i)) rest →
      IsFreeList s i (i :: rest)

/-- Live-chain predicate: slots linked by multipart continuation pointers,
terminated by a sized slot. -/
inductive IsChain (cfg : VTCfg) (s : TState) : List Nat → Prop where
  | single (i : Nat) :
      i ≠ 0 → isTomb (s.slots i) = false → isMultiSlot cfg (s.slots i) = false →
      IsChain cfg s [i]
  | link (i j : Nat) (rest : List Nat) :
      i ≠ 0 → isTomb (s.slots i) = false → isMultiSlot cfg (s.slots i) = true →
      nextPtrOf (s.slots i) = j →
      IsChain cfg s (j :: rest) →
      IsChain cfg s (i :: j :: rest)

/-- Byte-length sanity of a live slot: it holds its tag, and a multipart
slot holds its continuation pointer (write_entry always lays these down). -/
def SlotLen (cfg : VTCfg) (bs : List Nat) : Prop :=
  SIZE_SIZE ≤ bs.length ∧
  (isMultiSlot cfg bs = true → SIZE_SIZE + INDEX_SIZE ≤ bs.length)

/-- Well-formedness of a table state: a duplicate-free free list below the
high-water mark, pairwise-disjoint live chains below the high-water mark,
and a slot counter small enough for its 64-bit on-disk representation. -/
structure WfD (cfg : VTCfg) (s : TState) (freeL : List Nat)
    (pool : List (List Nat)) : Prop where
  filledPos : 1 ≤ s.filled
  filled64 : s.filled ≤ 2 ^ 64
  freeOk : IsFreeList s s.lastRemoved freeL
  freeLt : ∀ i ∈ freeL, i < s.filled
  chainsOk : ∀ ch ∈ pool, IsChain cfg s ch
  chainsLt : ∀ ch ∈ pool, ∀ i ∈ ch, i < s.filled
  chainsLen : ∀ ch ∈ pool, ∀ i ∈ ch, SlotLen cfg (s.slots i)
  nodupAll : (freeL ++ pool.flatten).Nodup

/-- Sanity bounds on a table configuration, as established by
ValueTable::open: the entry size is within the supported range, a multipart
slot can hold its header, and the writer is past the v4 layout. -/
structure CfgOk (cfg : VTCfg) : Prop where
  minSize : MIN_ENTRY_SIZE ≤ cfg.entrySize
  maxSize : cfg.entrySize ≤ MAX_ENTRY_SIZE
  mpHead : cfg.multipart = true →
    SIZE_SIZE + INDEX_SIZE + REFS_SIZE + PARTIAL_SIZE < cfg.entrySize
  ver : 4 < cfg.dbVersion

/-- Byte encoding of the slots of a chain as laid down by overwrite_chain:
multipart slots carry the tag, the continuation pointer, on the first slot
the refcount and partial key, then payload to the end of the slot; the last
slot carries the size word with the compression bit and the remaining
payload. -/
inductive ChainEnc (cfg : VTCfg) (sl : Nat → List Nat) (v kb : List Nat)
    (c : Bool) : List Nat → Nat → Nat → Prop where
  | last (z offset remainder : Nat) :
      remainder ≤ cfg.entrySize - SIZE_SIZE →
      sl z = mkSizeWord remainder c ++ hdrBytes cfg kb offset ++
        sliceL v offset (remainder - (hdrBytes cfg kb offset).length) →
      ChainEnc cfg sl v kb c [z] offset remainder
  | more (z z' : Nat) (rest : List Nat) (offset remainder : Nat) :
      cfg.entrySize - SIZE_SIZE < remainder →
      cfg.multipart = true →
      z' < 2 ^ 64 →
      z' ≠ 0 →
      sl z = (if offset = 0 then MULTIHEAD else MULTIPART) ++ le64 z' ++
        hdrBytes cfg kb offset ++
        sliceL v offset
          ((cfg.entrySize - SIZE_SIZE - INDEX_SIZE) -
            (hdrBytes cfg kb offset).length) →
      ChainEnc cfg sl v kb c (z' :: rest)
        (offset +
          ((cfg.entrySize - SIZE_SIZE - INDEX_SIZE) -
            (hdrBytes cfg kb offset).length))
        (remainder - (cfg.entrySize - SIZE_SIZE - INDEX_SIZE)) →
      ChainEnc cfg sl v kb c (z :: z' :: rest) offset remainder


/-- Configuration of the multipart table used by the shrink scenario:
4096-byte slots, current version. -/
def c5cfg : VTCfg :=
  { entrySize := 4096, refCounted := false, multipart := true, dbVersion := 5 }

/-- First 32-byte key of the shrink scenario. -/
def c5k1 : List Nat := List.range 32

/-- Second 32-byte key of the shrink scenario. -/
def c5k2 : List Nat := (List.range 32).map (fun i => i + 1)


/-- Bytes written back by change_ref: the prefix up to the refcount word, the
new counter, then the rest of the entry up to its stored length. -/
def newRcBs (cfg : VTCfg) (bs : List Nat) (c2 : Nat) : List Nat :=
  sliceL bs 0 (rcOffsetOf cfg bs) ++ le32 c2 ++
    sliceL bs (rcOffsetOf cfg bs + REFS_SIZE)
      (entLenOf cfg bs - rcOffsetOf cfg bs - REFS_SIZE)

/-- Shape of a live refcounted slot: not a tombstone, long enough to hold
its refcount word, and storing the counter r. -/
def RcSlot (cfg : VTCfg) (s : TState) (i : Nat) (r : Nat) : Prop :=
  isTomb (s.slots i) = false ∧
  rcOffsetOf cfg (s.slots i) + REFS_SIZE ≤ (s.slots i).length ∧
  rcOf cfg (s.slots i) = r

/-- Configuration of the refcounted fixed-size table used by the refcount
witnesses. -/
def c4cfg : VTCfg :=
  { entrySize := 64, refCounted := true, multipart := false, dbVersion := 5 }

/-- One live refcounted entry with counter 5 (size word 34 = 4-byte refcount
plus 26-byte partial key plus 4 payload bytes). -/
def c4s : TState :=
  writeSlot initTState 1
    (mkSizeWord 34 false ++ (le32 5 ++ List.replicate 30 2))

/-- Configuration for the refcount round-trip counterexample. -/
def c6cfg : VTCfg :=
  { entrySize := 64, refCounted := true, multipart := false, dbVersion := 5 }

/-- One live refcounted entry whose counter sits one below LOCKED_REF. -/
def c6s : TState :=
  writeSlot initTState 1
    (mkSizeWord 34 false ++ (le32 4294967294 ++ List.replicate 30 2))


/-- One live refcounted entry with counter 3, used by the round-trip
witness. -/
def c6ws : TState :=
  writeSlot initTState 1
    (mkSizeWord 34 false ++ (le32 3 ++ List.replicate 30 2))

/-- Configuration used by the round-trip witness: a small single-part table. -/
def c1wcfg : VTCfg :=
  { entrySize := 64, refCounted := false, multipart := false, dbVersion := 5 }

/-- Key used by the round-trip witness. -/
def c1wk : List Nat := List.replicate 32 7

/-- Operation of the free-list witness: one insert into a fresh table. -/
def c3wop : VOp := VOp.ins (MKey.hashed c1wk) [1, 2, 3] false

/-- State after the free-list witness run. -/
def c3ws : TState :=
  ((writeInsertPlanM c1wcfg (MKey.hashed c1wk) [1, 2, 3] false
    initTState).map (·.2)).getD initTState

/-! ## Theorems -/

theorem leBytes_length (n v : Nat) : (leBytes n v).length = n := by
  induction n generalizing v with
  | zero => rfl
  | succ n ih => simp [leBytes, ih]

theorem rdLE_leBytes (n v : Nat) : rdLE (leBytes n v) = v % 2 ^ (8 * n) := by
  induction n generalizing v with
  | zero => simp [leBytes, rdLE, Nat.mod_one]
  | succ n ih =>
    have h2 : (2 : Nat) ^ (8 * (n + 1)) = 256 * 2 ^ (8 * n) := by
      rw [Nat.mul_add, Nat.pow_add]; ring
    simp only [leBytes, rdLE, ih, h2, Nat.mod_mul]
    omega

theorem rdLE_lt (bs : List Nat) : rdLE bs < 2 ^ (8 * bs.length) := by
  induction bs with
  | nil => simp [rdLE]
  | cons b bs ih =>
    simp only [rdLE, List.length_cons]
    have hb : b % 256 < 256 := Nat.mod_lt _ (by norm_num)
    have h2 : (2 : Nat) ^ (8 * (bs.length + 1)) = 256 * 2 ^ (8 * bs.length) := by
      rw [Nat.mul_add, Nat.pow_add]; ring
    rw [h2]; omega

theorem listPosition_spec {α : Type _} (p : α → Bool) :
    ∀ (l : List α) (i : Nat), listPosition p l = some i →
      (∃ x, l[i]? = some x ∧ p x = true) ∧
      (∀ j y, j < i → l[j]? = some y → p y = false) := by
  intro l
  induction l with
  | nil => intro i h; simp [listPosition] at h
  | cons x xs ih =>
    intro i h
    by_cases hp : p x = true
    · simp [listPosition, hp] at h
      subst h
      exact ⟨⟨x, by simp, hp⟩, fun j y hj => by omega⟩
    · simp [listPosition, hp] at h
      obtain ⟨i', hi', rfl⟩ := h
      obtain ⟨⟨w, hw, hpw⟩, hleast⟩ := ih i' hi'
      refine ⟨⟨w, by simpa using hw, hpw⟩, ?_⟩
      intro j y hj hy
      match j with
      | 0 =>
        simp at hy
        subst hy
        simpa using hp
      | j' + 1 =>
        exact hleast j' y (by omega) (by simpa using hy)

theorem rebalanceBatch_ge (ec : Nat → Nat) (total si c : Nat) :
    si ≤ (rebalanceBatch ec total si c).1 := by
  induction si, c using rebalanceBatch.induct ec total with
  | case1 si c h ih => rw [rebalanceBatch]; simp only [dif_pos h]; omega
  | case2 si c h => rw [rebalanceBatch]; simp only [dif_neg h]; omega

theorem rebalanceBatch_le_total (ec : Nat → Nat) (total si c : Nat)
    (hsi : si ≤ total) : (rebalanceBatch ec total si c).1 ≤ total := by
  induction si, c using rebalanceBatch.induct ec total with
  | case1 si c h ih => rw [rebalanceBatch]; simp only [dif_pos h]; exact ih (by omega)
  | case2 si c h => rw [rebalanceBatch]; simp only [dif_neg h]; exact hsi

theorem rebalanceBatch_stop (ec : Nat → Nat) (total si c : Nat)
    (hlt : (rebalanceBatch ec total si c).1 < total) :
    MAX_REBALANCE_BATCH ≤ (rebalanceBatch ec total si c).2 := by
  induction si, c using rebalanceBatch.induct ec total with
  | case1 si c h ih =>
    rw [rebalanceBatch] at hlt ⊢
    simp only [dif_pos h] at hlt ⊢
    exact ih hlt
  | case2 si c h =>
    rw [rebalanceBatch] at hlt ⊢
    simp only [dif_neg h] at hlt ⊢
    omega

theorem rebalanceBatch_empty (total si c : Nat)
    (hsi : si ≤ total) (hc : c < MAX_REBALANCE_BATCH) :
    rebalanceBatch (fun _ => 0) total si c = (total, c) := by
  induction si, c using rebalanceBatch.induct (fun _ => 0) total with
  | case1 si c h ih =>
    rw [rebalanceBatch]
    simp only [dif_pos h]
    exact ih (by omega) (by omega)
  | case2 si c h =>
    rw [rebalanceBatch]
    simp only [dif_neg h]
    have : si = total := by omega
    simp [this]

/-- C2: in Column::enact_plan, an InsertIndex record whose table id equals the
primary's id but is absent from the rebalancing queue is enacted on the
primary and then still reported as Corruption ("Missing table"): the second
`if let`/else is not chained with an `else` to the first `if`, so the claimed
routing (Ok whenever the id matches the primary) fails on this input. -/
theorem c2_enact_primary_missing_else :
    enactInsertIndexRoute 16 [] 16 = (true, EnactResult.corruption) := rfl

/-- C7: for a set operation, the tier chosen by Column::write_plan is the
first (hence smallest-index, and tiers are ordered by size) value table whose
capacity is at least the value length, and when no tier fits the value is
routed to the blob overflow map (which this design keeps unconditionally
enabled). -/
theorem c7_tier_selection (len : Nat) :
    (∀ t, targetTierOf len = some t →
      (∃ es, tierEntrySizes[t]? = some es ∧ len ≤ tierValueSize es) ∧
      (∀ j es, j < t → tierEntrySizes[j]? = some es → tierValueSize es < len)) ∧
    (targetTierOf len = none → writePlanRoute len = SetRoute.toBlobs) := by
  constructor
  · intro t ht
    obtain ⟨⟨es, hes, hp⟩, hleast⟩ := listPosition_spec _ _ _ ht
    refine ⟨⟨es, hes, by simpa using hp⟩, ?_⟩
    intro j es' hj hes'
    have := hleast j es' hj hes'
    simpa using this
  · intro h
    simp [writePlanRoute, h]

/-- C7 witness: a 100-byte value selects tier 2 (entry size 128, capacity
100), and both smaller tiers are too small. -/
theorem c7_tier_selection_witness :
    (∃ es, tierEntrySizes[2]? = some es ∧ 100 ≤ tierValueSize es) ∧
    (∀ j es, j < 2 → tierEntrySizes[j]? = some es → tierValueSize es < 100) :=
  (c7_tier_selection 100).1 2 rfl

/-- C8 counterexample: with a source table of 17 index bits all of whose
chunks are empty, a single batch advances the chunk cursor from 0 to
131072 = 2^17 chunks, exceeding MAX_REBALANCE_BATCH = 65536: the loop bound
MAX_REBALANCE_BATCH limits the count of migrated entries, not chunks. -/
theorem c8_chunk_advance_counterexample :
    (rebalanceBatch (fun _ => 0) 131072 0 0).1 = 131072 ∧
    ¬((rebalanceBatch (fun _ => 0) 131072 0 0).1 - 0 ≤ MAX_REBALANCE_BATCH) := by
  have h := rebalanceBatch_empty 131072 0 0 (by omega) (by decide)
  rw [h]
  exact ⟨rfl, by decide⟩

/-- C8 (amended): a call to Column::rebalance advances the drain cursor
monotonically, never past the end of the source table, and if it stops before
the end then at least MAX_REBALANCE_BATCH entries were migrated in this call;
the per-call bound is on migrated entries, not on chunks. -/
theorem c8_rebalance_batch_spec (ec : Nat → Nat) (total si c : Nat)
    (h : si ≤ total) :
    si ≤ (rebalanceBatch ec total si c).1 ∧
    (rebalanceBatch ec total si c).1 ≤ total ∧
    ((rebalanceBatch ec total si c).1 < total →
      MAX_REBALANCE_BATCH ≤ (rebalanceBatch ec total si c).2) :=
  ⟨rebalanceBatch_ge ec total si c, rebalanceBatch_le_total ec total si c h,
    rebalanceBatch_stop ec total si c⟩

/-- C8 witness: a two-chunk source with one entry per chunk is drained in one
batch. -/
theorem c8_rebalance_batch_spec_witness :
    0 ≤ (rebalanceBatch (fun _ => 1) 2 0 0).1 ∧
    (rebalanceBatch (fun _ => 1) 2 0 0).1 ≤ 2 ∧
    ((rebalanceBatch (fun _ => 1) 2 0 0).1 < 2 →
      MAX_REBALANCE_BATCH ≤ (rebalanceBatch (fun _ => 1) 2 0 0).2) :=
  c8_rebalance_batch_spec (fun _ => 1) 2 0 0 (by omega)

/-- C9 counterexample: triggering a rebalance while the front of the queue is
mid-drain (cursor at 5) leaves the cursor at 5; trigger_rebalance does not
reset rebalance_progress (the reset happens in drop_index when the drained
front table is popped). -/
theorem c9_trigger_progress_counterexample :
    (triggerRebalanceM
      { indexBits := 17, rebalQueueBits := [16], rebalanceProgress := 5
      }).rebalanceProgress ≠ 0 := by
  decide

/-- C9 (amended): trigger_rebalance replaces the primary with a table at one
more index bit, appends the old primary to the back of the rebalancing queue,
and leaves the drain cursor rebalance_progress unchanged. -/
theorem c9_trigger_rebalance_spec (c : ColState) :
    triggerRebalanceM c =
      { indexBits := c.indexBits + 1
        rebalQueueBits := c.rebalQueueBits ++ [c.indexBits]
        rebalanceProgress := c.rebalanceProgress } := rfl

/-! ### Byte-buffer helper lemmas -/

theorem le16_length (v : Nat) : (le16 v).length = 2 := leBytes_length 2 v

theorem le32_length (v : Nat) : (le32 v).length = 4 := leBytes_length 4 v

theorem le64_length (v : Nat) : (le64 v).length = 8 := leBytes_length 8 v

theorem le16_eq (v : Nat) : le16 v = [v % 256, v / 256 % 256] := rfl

theorem rdLE_le16 (v : Nat) : rdLE (le16 v) = v % 65536 := by
  have h := rdLE_leBytes 2 v
  norm_num [le16] at h ⊢
  exact h

theorem rdLE_le32 (v : Nat) : rdLE (le32 v) = v % 4294967296 := by
  have h := rdLE_leBytes 4 v
  norm_num [le32] at h ⊢
  exact h

theorem rdLE_le64 (v : Nat) : rdLE (le64 v) = v % 2 ^ 64 := by
  have h := rdLE_leBytes 8 v
  norm_num [le64] at h ⊢
  exact h

theorem rdLE_le64_of_lt {v : Nat} (h : v < 2 ^ 64) : rdLE (le64 v) = v := by
  rw [rdLE_le64, Nat.mod_eq_of_lt h]

theorem rdLE_le32_of_lt {v : Nat} (h : v < 4294967296) : rdLE (le32 v) = v := by
  rw [rdLE_le32, Nat.mod_eq_of_lt h]

theorem sliceL_from (pre mid : List Nat) (start n : Nat)
    (hs : pre.length = start) :
    sliceL (pre ++ mid) start n = mid.take n := by
  rw [sliceL, List.drop_left' hs]

theorem sliceL_mid (pre mid post : List Nat) (start n : Nat)
    (hs : pre.length = start) (hn : mid.length = n) :
    sliceL (pre ++ (mid ++ post)) start n = mid := by
  rw [sliceL, List.drop_left' hs, List.take_left' hn]

theorem mkSizeWord_eq {size : Nat} (c : Bool) (h : size < 32768) :
    mkSizeWord size c = le16 (size + if c then 32768 else 0) := by
  have hm : size % 65536 = size := Nat.mod_eq_of_lt (by omega)
  cases c with
  | false => simp [mkSizeWord, hm]
  | true =>
    have hp : (2 : Nat) ^ 15 = 32768 := by norm_num
    have hx := Nat.mul_add_lt_is_or (b := size) (i := 15) (by rw [hp]; exact h) 1
    rw [hp] at hx
    norm_num at hx
    simp only [mkSizeWord, hm, COMPRESSED_MASK, if_true]
    rw [Nat.lor_comm, ← hx]
    norm_num [Nat.add_comm]

theorem readSizeOf_mk (size : Nat) (c : Bool) (rest : List Nat)
    (h : size < 32768) :
    readSizeOf (mkSizeWord size c ++ rest) = (size, c) := by
  rw [mkSizeWord_eq c h]
  have hmask : (32767 : Nat) = 2 ^ 15 - 1 := by norm_num
  have hcm : COMPRESSED_MASK = 2 ^ 15 := by norm_num [COMPRESSED_MASK]
  cases c with
  | false =>
    simp only [Bool.false_eq_true, if_false, Nat.add_zero]
    have htake : (le16 size ++ rest).take 2 = le16 size :=
      List.take_left' (le16_length _)
    have hw : size % 65536 = size := Nat.mod_eq_of_lt (by omega)
    simp only [readSizeOf, SIZE_SIZE, htake, rdLE_le16, hw, Prod.mk.injEq]
    refine ⟨?_, ?_⟩
    · rw [hmask, Nat.and_pow_two_sub_one_eq_mod, Nat.mod_eq_of_lt (by omega)]
    · rw [hcm, Nat.and_two_pow,
        Nat.testBit_lt_two_pow (show size < 2 ^ 15 by norm_num; omega)]
      simp
  | true =>
    simp only [if_true]
    have htake : (le16 (size + 32768) ++ rest).take 2 = le16 (size + 32768) :=
      List.take_left' (le16_length _)
    have hw : (size + 32768) % 65536 = size + 32768 := Nat.mod_eq_of_lt (by omega)
    simp only [readSizeOf, SIZE_SIZE, htake, rdLE_le16, hw, Prod.mk.injEq]
    refine ⟨?_, ?_⟩
    · rw [hmask, Nat.and_pow_two_sub_one_eq_mod]
      omega
    · rw [hcm, Nat.and_two_pow, Nat.testBit_to_div_mod]
      have hd : (size + 32768) / 2 ^ 15 % 2 = 1 := by
        rw [show (2 : Nat) ^ 15 = 32768 by norm_num]
        have h1 : (size + 32768) / 32768 = 1 := by omega
        rw [h1]
      simp only [hd]
      simp

theorem isTomb_head (rest : List Nat) : isTomb (MULTIHEAD ++ rest) = false := rfl

theorem isTomb_part (rest : List Nat) : isTomb (MULTIPART ++ rest) = false := rfl

theorem isTomb_tomb (rest : List Nat) : isTomb (TOMBSTONE ++ rest) = true := rfl

theorem isTomb_le16 (w : Nat) (rest : List Nat)
    (hn : ¬ (w % 256 = 255 ∧ w / 256 % 256 = 255)) :
    isTomb (le16 w ++ rest) = false := by
  rw [Bool.eq_false_iff]
  intro hc
  rw [isTomb, le16_eq] at hc
  simp only [SIZE_SIZE, List.cons_append, List.nil_append, List.take_succ_cons,
    List.take_zero, TOMBSTONE, beq_iff_eq, List.cons.injEq, and_true] at hc
  exact hn ⟨hc.1, hc.2⟩

theorem isTomb_mk (size : Nat) (c : Bool) (rest : List Nat)
    (h : size ≤ 0x7ff6) :
    isTomb (mkSizeWord size c ++ rest) = false := by
  rw [mkSizeWord_eq c (by omega)]
  apply isTomb_le16
  cases c with
  | false =>
    simp only [Bool.false_eq_true, if_false, Nat.add_zero]
    omega
  | true =>
    simp only [if_true]
    omega

theorem isMultiTag_head (dbv : Nat) (rest : List Nat) :
    isMultiTag dbv (MULTIHEAD ++ rest) = true := rfl

theorem isMultiTag_part (dbv : Nat) (rest : List Nat) :
    isMultiTag dbv (MULTIPART ++ rest) = true := rfl

theorem isMultiTag_tomb (dbv : Nat) (rest : List Nat) (h : 4 < dbv) :
    isMultiTag dbv (TOMBSTONE ++ rest) = false := by
  have hd : ¬ (dbv ≤ 4) := by omega
  simp [isMultiTag, TOMBSTONE, MULTIPART, MULTIHEAD, MULTIPART_V4,
    MULTIHEAD_V4, hd, List.take]

theorem isMultiTag_le16 (dbv w : Nat) (rest : List Nat) (hdb : 4 < dbv)
    (hn1 : ¬ (w % 256 = 254 ∧ w / 256 % 256 = 255))
    (hn2 : ¬ (w % 256 = 253 ∧ w / 256 % 256 = 255)) :
    isMultiTag dbv (le16 w ++ rest) = false := by
  have hd : decide (dbv ≤ 4) = false := decide_eq_false (by omega)
  rw [Bool.eq_false_iff]
  intro hc
  rw [isMultiTag, le16_eq] at hc
  simp only [SIZE_SIZE, List.cons_append, List.nil_append, List.take_succ_cons,
    List.take_zero, MULTIPART, MULTIHEAD, MULTIPART_V4, MULTIHEAD_V4, hd,
    Bool.false_and, Bool.or_false, Bool.or_eq_true, beq_iff_eq,
    List.cons.injEq, and_true] at hc
  rcases hc with h1 | h2
  · exact hn1 ⟨h1.1, h1.2⟩
  · exact hn2 ⟨h2.1, h2.2⟩

theorem isMultiTag_mk (dbv : Nat) (size : Nat) (c : Bool) (rest : List Nat)
    (hdb : 4 < dbv) (h : size ≤ 0x7ff6) :
    isMultiTag dbv (mkSizeWord size c ++ rest) = false := by
  rw [mkSizeWord_eq c (by omega)]
  cases c with
  | false =>
    simp only [Bool.false_eq_true, if_false, Nat.add_zero]
    refine isMultiTag_le16 dbv size rest hdb ?_ ?_
    · have : size / 256 ≤ 127 := by omega
      omega
    · have : size / 256 ≤ 127 := by omega
      omega
  | true =>
    simp only [if_true]
    refine isMultiTag_le16 dbv (size + 32768) rest hdb ?_ ?_ <;> omega

theorem nextPtrOf_tag (tag : List Nat) (htag : tag.length = 2) (n : Nat)
    (rest : List Nat) :
    nextPtrOf (tag ++ (le64 n ++ rest)) = n % 2 ^ 64 := by
  rw [nextPtrOf, show SIZE_SIZE = 2 from rfl, show INDEX_SIZE = 8 from rfl]
  rw [sliceL_mid tag (le64 n) rest 2 8 htag (le64_length n)]
  exact rdLE_le64 n

/-! ### One-step unfolding equations for the fueled loops -/

theorem overwriteChainAux_unfold (cfg : VTCfg) (kb value : List Nat)
    (compressed : Bool) (fuel : Nat) (s : TState)
    (remainder offset start index : Nat) (follow : Bool) (hf : 0 < fuel) :
    overwriteChainAux cfg kb value compressed fuel s remainder offset start
        index follow =
      (let link : Nat × Bool :=
        if follow then
          match readNextPartM cfg s index with
          | some next => (next, true)
          | none => (0, false)
        else (0, false)
      let freeSpace := cfg.entrySize - SIZE_SIZE
      let headerBytes := hdrBytes cfg kb offset
      if freeSpace < remainder then
        let alloc : Nat × TState := if link.2 then (link.1, s) else nextFreeM s
        let valueLen := freeSpace - INDEX_SIZE
        let written := headerBytes.length
        let buf := (if start = 0 then MULTIHEAD else MULTIPART) ++ le64 alloc.1 ++
          headerBytes ++ sliceL value offset (valueLen - written)
        let s2 := writeSlot alloc.2 index buf
        overwriteChainAux cfg kb value compressed (fuel - 1) s2
          (remainder - valueLen) (offset + (valueLen - written))
          (if start = 0 then index else start) alloc.1 link.2
      else
        let written := headerBytes.length
        let buf := mkSizeWord remainder compressed ++ headerBytes ++
          sliceL value offset (remainder - written)
        let s2 := writeSlot s index buf
        let start1 := if start = 0 then index else start
        if link.1 ≠ 0 then
          match clearChainM cfg (fuel - 1) s2 link.1 with
          | some s3 => some (start1, s3)
          | none => none
        else some (start1, s2)) := by
  cases fuel with
  | zero => omega
  | succ f => rfl

theorem clearChainM_unfold (cfg : VTCfg) (fuel : Nat) (s : TState)
    (index : Nat) (hf : 0 < fuel) :
    clearChainM cfg fuel s index =
      (match readNextPartM cfg s index with
      | some next => clearChainM cfg (fuel - 1) (clearSlotM s index) next
      | none => some (clearSlotM s index)) := by
  cases fuel with
  | zero => omega
  | succ f => rfl

theorem chainSlots_unfold (cfg : VTCfg) (s : TState) (fuel i : Nat)
    (hf : 0 < fuel) :
    chainSlots cfg s fuel i =
      (match readNextPartM cfg s i with
      | some nxt => i :: chainSlots cfg s (fuel - 1) nxt
      | none => [i]) := by
  cases fuel with
  | zero => omega
  | succ f => rfl

theorem nextPtrOf_tag_lt (tag : List Nat) (htag : tag.length = 2) (n : Nat)
    (rest : List Nat) (h : n < 2 ^ 64) :
    nextPtrOf (tag ++ (le64 n ++ rest)) = n := by
  rw [nextPtrOf_tag tag htag n rest, Nat.mod_eq_of_lt h]

theorem isMultiSlot_head_true (cfg : VTCfg) (rest : List Nat)
    (h : cfg.multipart = true) : isMultiSlot cfg (MULTIHEAD ++ rest) = true := by
  simp [isMultiSlot, h, isMultiTag_head]

theorem isMultiSlot_part_true (cfg : VTCfg) (rest : List Nat)
    (h : cfg.multipart = true) : isMultiSlot cfg (MULTIPART ++ rest) = true := by
  simp [isMultiSlot, h, isMultiTag_part]

theorem isMultiSlot_mk_false (cfg : VTCfg) (size : Nat) (c : Bool)
    (rest : List Nat) (hdb : 4 < cfg.dbVersion) (h : size ≤ 0x7ff6) :
    isMultiSlot cfg (mkSizeWord size c ++ rest) = false := by
  simp [isMultiSlot, isMultiTag_mk cfg.dbVersion size c rest hdb h]

theorem isMultiSlot_tomb_false (cfg : VTCfg) (rest : List Nat)
    (hdb : 4 < cfg.dbVersion) :
    isMultiSlot cfg (TOMBSTONE ++ rest) = false := by
  simp [isMultiSlot, isMultiTag_tomb cfg.dbVersion rest hdb]

theorem nextPtrOf_head_lt (n : Nat) (rest : List Nat) (h : n < 2 ^ 64) :
    nextPtrOf (MULTIHEAD ++ (le64 n ++ rest)) = n :=
  nextPtrOf_tag_lt MULTIHEAD rfl n rest h

theorem nextPtrOf_part_lt (n : Nat) (rest : List Nat) (h : n < 2 ^ 64) :
    nextPtrOf (MULTIPART ++ (le64 n ++ rest)) = n :=
  nextPtrOf_tag_lt MULTIPART rfl n rest h

theorem nextPtrOf_tomb_lt (n : Nat) (rest : List Nat) (h : n < 2 ^ 64) :
    nextPtrOf (TOMBSTONE ++ (le64 n ++ rest)) = n :=
  nextPtrOf_tag_lt TOMBSTONE rfl n rest h

theorem nextPtrOf_tomb (n : Nat) (h : n < 2 ^ 64) :
    nextPtrOf (TOMBSTONE ++ le64 n) = n := by
  have h2 := nextPtrOf_tag_lt TOMBSTONE rfl n [] h
  simpa using h2

theorem c5k1_length : c5k1.length = 32 := by simp [c5k1]

theorem c5k2_length : c5k2.length = 32 := by simp [c5k2]

/-- C5: the multipart shrink scenario.  On an empty multipart table with
4096-byte slots, inserting a 20000-byte value under k1 (head slot 1, chain
1-5) and a 30-byte value under k2 (slot 6) gives filled = 7 and
last_removed = 0; replacing k1's value with 5000 bytes reuses slots 1-2,
clears the dangling tail 3-4-5, and leaves filled = 7, last_removed = 5 and
the free list 5 -> 4 -> 3 -> 0. -/
theorem c5_replace_multipart_shorter :
    ∃ s1 s2 s3,
      writeInsertPlanM c5cfg (MKey.hashed c5k1) (List.replicate 20000 7) false
        initTState = some (1, s1) ∧
      writeInsertPlanM c5cfg (MKey.hashed c5k2) (List.replicate 30 9) false s1 =
        some (6, s2) ∧
      s2.filled = 7 ∧ s2.lastRemoved = 0 ∧
      writeReplacePlanM c5cfg 1 (MKey.hashed c5k1) (List.replicate 5000 8) false
        s2 = some s3 ∧
      s3.filled = 7 ∧ s3.lastRemoved = 5 ∧
      readNextFreeM s3 5 = 4 ∧ readNextFreeM s3 4 = 3 ∧
      readNextFreeM s3 3 = 0 := by
  apply Exists.intro
  apply Exists.intro
  apply Exists.intro
  refine ⟨?e1, ?e2, ?f2, ?l2, ?e3, ?f3, ?l3, ?r5, ?r4, ?r3⟩
  case e1 =>
    simp only [writeInsertPlanM, overwriteChain, MKey.writeBytes,
      MKey.encodedSize, VTCfg.refSize, c5cfg, List.length_replicate,
      partKeyBytes, initTState, nextFreeM, readNextFreeM]
    norm_num
    rw [overwriteChainAux_unfold]
    norm_num [readNextPartM, nextFreeM, readNextFreeM, writeSlot, hdrBytes,
      List.append_assoc, SIZE_SIZE, INDEX_SIZE, REFS_SIZE, PARTIAL_SIZE,
      c5k1_length, c5k2_length]
    rw [overwriteChainAux_unfold]
    norm_num [readNextPartM, nextFreeM, readNextFreeM, writeSlot, hdrBytes,
      List.append_assoc, SIZE_SIZE, INDEX_SIZE, REFS_SIZE, PARTIAL_SIZE,
      c5k1_length, c5k2_length]
    rw [overwriteChainAux_unfold]
    norm_num [readNextPartM, nextFreeM, readNextFreeM, writeSlot, hdrBytes,
      List.append_assoc, SIZE_SIZE, INDEX_SIZE, REFS_SIZE, PARTIAL_SIZE,
      c5k1_length, c5k2_length]
    rw [overwriteChainAux_unfold]
    norm_num [readNextPartM, nextFreeM, readNextFreeM, writeSlot, hdrBytes,
      List.append_assoc, SIZE_SIZE, INDEX_SIZE, REFS_SIZE, PARTIAL_SIZE,
      c5k1_length, c5k2_length]
    rw [overwriteChainAux_unfold]
    norm_num [readNextPartM, nextFreeM, readNextFreeM, writeSlot, hdrBytes,
      List.append_assoc, SIZE_SIZE, INDEX_SIZE, REFS_SIZE, PARTIAL_SIZE,
      c5k1_length, c5k2_length]
    rfl
    all_goals norm_num
  case e2 =>
    simp only [writeInsertPlanM, overwriteChain, MKey.writeBytes,
      MKey.encodedSize, VTCfg.refSize, c5cfg, List.length_replicate,
      partKeyBytes, nextFreeM, readNextFreeM]
    norm_num
    rw [overwriteChainAux_unfold]
    norm_num [readNextPartM, nextFreeM, readNextFreeM, writeSlot, hdrBytes,
      List.append_assoc, SIZE_SIZE, INDEX_SIZE, REFS_SIZE, PARTIAL_SIZE,
      c5k1_length, c5k2_length]
    rfl
    all_goals norm_num
  case f2 => norm_num
  case l2 => norm_num
  case e3 =>
    simp only [writeReplacePlanM, overwriteChain, MKey.writeBytes,
      MKey.encodedSize, VTCfg.refSize, c5cfg, List.length_replicate,
      partKeyBytes]
    norm_num
    rw [overwriteChainAux_unfold]
    norm_num [readNextPartM, nextFreeM, readNextFreeM, writeSlot, hdrBytes,
      List.append_assoc, SIZE_SIZE, INDEX_SIZE, REFS_SIZE, PARTIAL_SIZE,
      c5k1_length, c5k2_length, isMultiSlot_head_true, isMultiSlot_part_true,
      isMultiSlot_mk_false, isMultiSlot_tomb_false, nextPtrOf_head_lt,
      nextPtrOf_part_lt, nextPtrOf_tomb_lt, nextPtrOf_tomb]
    rw [overwriteChainAux_unfold]
    norm_num [readNextPartM, nextFreeM, readNextFreeM, writeSlot, hdrBytes,
      List.append_assoc, SIZE_SIZE, INDEX_SIZE, REFS_SIZE, PARTIAL_SIZE,
      c5k1_length, c5k2_length, isMultiSlot_head_true, isMultiSlot_part_true,
      isMultiSlot_mk_false, isMultiSlot_tomb_false, nextPtrOf_head_lt,
      nextPtrOf_part_lt, nextPtrOf_tomb_lt, nextPtrOf_tomb]
    rw [clearChainM_unfold]
    norm_num [readNextPartM, clearSlotM, writeSlot, List.append_assoc,
      isMultiSlot_head_true, isMultiSlot_part_true, isMultiSlot_mk_false,
      isMultiSlot_tomb_false, nextPtrOf_head_lt, nextPtrOf_part_lt,
      nextPtrOf_tomb_lt, nextPtrOf_tomb]
    rw [clearChainM_unfold]
    norm_num [readNextPartM, clearSlotM, writeSlot, List.append_assoc,
      isMultiSlot_head_true, isMultiSlot_part_true, isMultiSlot_mk_false,
      isMultiSlot_tomb_false, nextPtrOf_head_lt, nextPtrOf_part_lt,
      nextPtrOf_tomb_lt, nextPtrOf_tomb]
    rw [clearChainM_unfold]
    norm_num [readNextPartM, clearSlotM, writeSlot, List.append_assoc,
      isMultiSlot_head_true, isMultiSlot_part_true, isMultiSlot_mk_false,
      isMultiSlot_tomb_false, nextPtrOf_head_lt, nextPtrOf_part_lt,
      nextPtrOf_tomb_lt, nextPtrOf_tomb]
    rfl
    all_goals norm_num
  case f3 => norm_num
  case l3 => norm_num
  case r5 =>
    norm_num [readNextFreeM, nextPtrOf_tomb_lt, nextPtrOf_tomb]
  case r4 =>
    norm_num [readNextFreeM, nextPtrOf_tomb_lt, nextPtrOf_tomb]
  case r3 =>
    norm_num [readNextFreeM, nextPtrOf_tomb_lt, nextPtrOf_tomb]

/-! ### Refcount mutation lemmas (change_ref) -/

theorem changeRef_inc_eq (cfg : VTCfg) (s : TState) (i r : Nat)
    (h : RcSlot cfg s i r) :
    changeRefM cfg s i 1 = (true, writeSlot s i (newRcBs cfg (s.slots i)
      (if LOCKED_REF - 1 ≤ r then LOCKED_REF else r + 1))) := by
  obtain ⟨ht, hlen, hrc⟩ := h
  simp only [rcOf, rcOffsetOf, entLenOf] at hrc
  simp only [changeRefM, ht, Bool.false_eq_true, if_false, newRcBs,
    rcOffsetOf, entLenOf, hrc]
  norm_num

theorem changeRef_dec_locked (cfg : VTCfg) (s : TState) (i : Nat)
    (h : RcSlot cfg s i LOCKED_REF) :
    changeRefM cfg s i (-1) =
      (true, writeSlot s i (newRcBs cfg (s.slots i) LOCKED_REF)) := by
  obtain ⟨ht, hlen, hrc⟩ := h
  simp only [rcOf, rcOffsetOf, entLenOf] at hrc
  simp only [changeRefM, ht, Bool.false_eq_true, if_false, newRcBs,
    rcOffsetOf, entLenOf, hrc]
  norm_num

theorem changeRef_dec_live (cfg : VTCfg) (s : TState) (i r : Nat)
    (h : RcSlot cfg s i r) (hr : 2 ≤ r) (hrl : r ≠ LOCKED_REF) :
    changeRefM cfg s i (-1) =
      (true, writeSlot s i (newRcBs cfg (s.slots i) (r - 1))) := by
  obtain ⟨ht, hlen, hrc⟩ := h
  simp only [rcOf, rcOffsetOf, entLenOf] at hrc
  simp only [changeRefM, ht, Bool.false_eq_true, if_false, newRcBs,
    rcOffsetOf, entLenOf, hrc]
  norm_num [hrl]
  have h1 : ¬ (r - 1 = 0) := by omega
  simp [h1]

theorem changeRef_dec_dead (cfg : VTCfg) (s : TState) (i r : Nat)
    (h : RcSlot cfg s i r) (hr : r ≤ 1) :
    changeRefM cfg s i (-1) = (false, s) := by
  obtain ⟨ht, hlen, hrc⟩ := h
  simp only [rcOf, rcOffsetOf, entLenOf] at hrc
  have hrl : r ≠ LOCKED_REF := by simp only [LOCKED_REF]; omega
  simp only [changeRefM, ht, Bool.false_eq_true, if_false, hrc]
  norm_num [hrl]
  have h1 : r - 1 = 0 := by omega
  simp [h1]

theorem take_two_of_newRcBs (cfg : VTCfg) (bs : List Nat) (c2 : Nat)
    (hlen : rcOffsetOf cfg bs + REFS_SIZE ≤ bs.length) :
    (newRcBs cfg bs c2).take 2 = bs.take 2 := by
  have h2 : 2 ≤ rcOffsetOf cfg bs := by
    rw [rcOffsetOf]
    split <;> norm_num [SIZE_SIZE, INDEX_SIZE]
  have hpre : (sliceL bs 0 (rcOffsetOf cfg bs)).length = rcOffsetOf cfg bs := by
    rw [sliceL, List.drop_zero, List.length_take_of_le]
    simp only [REFS_SIZE] at hlen
    omega
  rw [newRcBs, List.append_assoc, List.take_append_of_le_length (by omega),
    sliceL, List.drop_zero, List.take_take]
  congr 1
  omega

theorem RcSlot_write (cfg : VTCfg) (s : TState) (i : Nat) (r c2 : Nat)
    (h : RcSlot cfg s i r) (hc2 : c2 < 2 ^ 32) :
    RcSlot cfg (writeSlot s i (newRcBs cfg (s.slots i) c2)) i c2 := by
  obtain ⟨ht, hlen, _⟩ := h
  have hslot : (writeSlot s i (newRcBs cfg (s.slots i) c2)).slots i =
      newRcBs cfg (s.slots i) c2 := by
    simp [writeSlot]
  have htake := take_two_of_newRcBs cfg (s.slots i) c2 hlen
  have htomb : isTomb (newRcBs cfg (s.slots i) c2) = isTomb (s.slots i) := by
    rw [isTomb, isTomb, SIZE_SIZE, htake]
  have hmulti : isMultiTag cfg.dbVersion (newRcBs cfg (s.slots i) c2) =
      isMultiTag cfg.dbVersion (s.slots i) := by
    rw [isMultiTag, isMultiTag, SIZE_SIZE, htake]
  have hms : isMultiSlot cfg (newRcBs cfg (s.slots i) c2) =
      isMultiSlot cfg (s.slots i) := by
    rw [isMultiSlot, isMultiSlot, hmulti]
  have hoff : rcOffsetOf cfg (newRcBs cfg (s.slots i) c2) =
      rcOffsetOf cfg (s.slots i) := by
    rw [rcOffsetOf, rcOffsetOf, hms]
  have hpre : (sliceL (s.slots i) 0 (rcOffsetOf cfg (s.slots i))).length =
      rcOffsetOf cfg (s.slots i) := by
    rw [sliceL, List.drop_zero, List.length_take_of_le]
    simp only [REFS_SIZE] at hlen
    omega
  refine ⟨?_, ?_, ?_⟩
  · rw [hslot, htomb]
    exact ht
  · rw [hslot, hoff, newRcBs]
    simp only [List.length_append, le32_length, REFS_SIZE]
    omega
  · rw [rcOf, hslot, hoff, newRcBs, List.append_assoc]
    have hlen32 : (le32 c2).length = REFS_SIZE := by
      simp [le32_length, REFS_SIZE]
    rw [sliceL_mid _ _ _ _ _ hpre hlen32, rdLE_le32_of_lt hc2]

theorem rcSlot_lt (cfg : VTCfg) (s : TState) (i r : Nat)
    (h : RcSlot cfg s i r) : r < 2 ^ 32 := by
  obtain ⟨_, hlen, hrc⟩ := h
  have hlt := rdLE_lt (sliceL (s.slots i) (rcOffsetOf cfg (s.slots i)) REFS_SIZE)
  rw [rcOf] at hrc
  rw [hrc] at hlt
  have hlen2 : (sliceL (s.slots i) (rcOffsetOf cfg (s.slots i))
      REFS_SIZE).length ≤ 4 := by
    rw [sliceL]
    have h4 := List.length_take_le REFS_SIZE
      ((s.slots i).drop (rcOffsetOf cfg (s.slots i)))
    simpa [REFS_SIZE] using h4
  exact Nat.lt_of_lt_of_le hlt (Nat.pow_le_pow_right (by norm_num) (by omega))

theorem iterIncRef_rc (cfg : VTCfg) (i : Nat) :
    ∀ (N : Nat) (s : TState) (r : Nat), RcSlot cfg s i r →
      r + N < LOCKED_REF →
      RcSlot cfg (iterIncRef cfg i N s) i (r + N) := by
  intro N
  induction N with
  | zero => intro s r h _; simpa using h
  | succ N ih =>
    intro s r h hN
    rw [iterIncRef]
    have hstep : writeIncRefM cfg s i =
        writeSlot s i (newRcBs cfg (s.slots i) (r + 1)) := by
      rw [writeIncRefM, changeRef_inc_eq cfg s i r h]
      have : ¬ (LOCKED_REF - 1 ≤ r) := by simp only [LOCKED_REF] at *; omega
      simp [this]
    rw [hstep]
    have hr1 : RcSlot cfg (writeSlot s i (newRcBs cfg (s.slots i) (r + 1))) i
        (r + 1) := RcSlot_write cfg s i r (r + 1) h
      (by simp only [LOCKED_REF] at hN; omega)
    have := ih (writeSlot s i (newRcBs cfg (s.slots i) (r + 1))) (r + 1) hr1
      (by omega)
    simpa [Nat.add_comm, Nat.add_assoc, Nat.add_left_comm] using this

theorem iterIncRef_locked (cfg : VTCfg) (i : Nat) :
    ∀ (N : Nat) (s : TState), RcSlot cfg s i LOCKED_REF →
      RcSlot cfg (iterIncRef cfg i N s) i LOCKED_REF := by
  intro N
  induction N with
  | zero => intro s h; simpa using h
  | succ N ih =>
    intro s h
    rw [iterIncRef]
    have hstep : writeIncRefM cfg s i =
        writeSlot s i (newRcBs cfg (s.slots i) LOCKED_REF) := by
      rw [writeIncRefM, changeRef_inc_eq cfg s i LOCKED_REF h]
      simp
    rw [hstep]
    exact ih _ (RcSlot_write cfg s i LOCKED_REF LOCKED_REF h (by norm_num [LOCKED_REF]))

theorem iterDecRef_rc (cfg : VTCfg) (i : Nat) :
    ∀ (N : Nat) (s : TState) (c : Nat), RcSlot cfg s i c →
      N + 1 ≤ c → c < LOCKED_REF →
      ∃ s', iterDecRef cfg i N s = some s' ∧ RcSlot cfg s' i (c - N) := by
  intro N
  induction N with
  | zero => intro s c h _ _; exact ⟨s, rfl, by simpa using h⟩
  | succ N ih =>
    intro s c h hN hc
    rw [iterDecRef]
    have hstep : writeDecRefM cfg s i =
        some (true, writeSlot s i (newRcBs cfg (s.slots i) (c - 1))) := by
      rw [writeDecRefM, changeRef_dec_live cfg s i c h (by omega) (by omega)]
      simp
    rw [hstep]
    have hr1 : RcSlot cfg (writeSlot s i (newRcBs cfg (s.slots i) (c - 1))) i
        (c - 1) := RcSlot_write cfg s i c (c - 1) h
      (by have := rcSlot_lt cfg s i c h; omega)
    obtain ⟨s', hs', hrs'⟩ := ih _ (c - 1) hr1 (by omega) (by omega)
    exact ⟨s', hs', by have : c - 1 - N = c - (N + 1) := by omega
                       rwa [this] at hrs'⟩

theorem iterDecRef_locked (cfg : VTCfg) (i : Nat) :
    ∀ (N : Nat) (s : TState), RcSlot cfg s i LOCKED_REF →
      ∃ s', iterDecRef cfg i N s = some s' ∧ RcSlot cfg s' i LOCKED_REF := by
  intro N
  induction N with
  | zero => intro s h; exact ⟨s, rfl, h⟩
  | succ N ih =>
    intro s h
    rw [iterDecRef]
    have hstep : writeDecRefM cfg s i =
        some (true, writeSlot s i (newRcBs cfg (s.slots i) LOCKED_REF)) := by
      rw [writeDecRefM, changeRef_dec_locked cfg s i h]
      simp
    rw [hstep]
    exact ih _ (RcSlot_write cfg s i LOCKED_REF LOCKED_REF h (by norm_num [LOCKED_REF]))

/-- C4: refcount mutation semantics of change_ref and write_dec_ref on a
live refcounted slot holding counter r: an increment clamps at LOCKED_REF;
once at LOCKED_REF a decrement leaves the counter unchanged and reports the
entry still live; any other decrement subtracts one, and when the counter
would reach zero write_dec_ref reports still_live = false and immediately
writes the remove plan for the slot. -/
theorem c4_refcount_semantics (cfg : VTCfg) (s : TState) (i r : Nat)
    (hrc : cfg.refCounted = true) (h : RcSlot cfg s i r) :
    ((changeRefM cfg s i 1).1 = true ∧
      RcSlot cfg (changeRefM cfg s i 1).2 i (min (r + 1) LOCKED_REF)) ∧
    (r = LOCKED_REF →
      writeDecRefM cfg s i = some (true, (changeRefM cfg s i (-1)).2) ∧
      RcSlot cfg (changeRefM cfg s i (-1)).2 i LOCKED_REF) ∧
    (2 ≤ r → r ≠ LOCKED_REF →
      writeDecRefM cfg s i = some (true, (changeRefM cfg s i (-1)).2) ∧
      RcSlot cfg (changeRefM cfg s i (-1)).2 i (r - 1)) ∧
    (r ≤ 1 →
      writeDecRefM cfg s i =
        (writeRemovePlanM cfg s i).map (fun s2 => (false, s2))) := by
  have hr32 := rcSlot_lt cfg s i r h
  refine ⟨?_, ?_, ?_, ?_⟩
  · rw [changeRef_inc_eq cfg s i r h]
    refine ⟨rfl, ?_⟩
    have hmin : (if LOCKED_REF - 1 ≤ r then LOCKED_REF else r + 1) =
        min (r + 1) LOCKED_REF := by
      simp only [LOCKED_REF] at hr32 ⊢
      split <;> omega
    rw [← hmin]
    exact RcSlot_write cfg s i r _ h (by
      simp only [LOCKED_REF] at hr32 ⊢
      split <;> omega)
  · intro hl
    subst hl
    rw [changeRef_dec_locked cfg s i h]
    refine ⟨?_, ?_⟩
    · rw [writeDecRefM, changeRef_dec_locked cfg s i h]
      simp
    · exact RcSlot_write cfg s i LOCKED_REF LOCKED_REF h (by norm_num [LOCKED_REF])
  · intro h2 hne
    rw [changeRef_dec_live cfg s i r h h2 hne]
    refine ⟨?_, ?_⟩
    · rw [writeDecRefM, changeRef_dec_live cfg s i r h h2 hne]
      simp
    · exact RcSlot_write cfg s i r (r - 1) h (by omega)
  · intro h1
    rw [writeDecRefM, changeRef_dec_dead cfg s i r h h1]
    simp

/-- C4 witness: a live slot with counter 5 in a refcounted fixed-size
table. -/
theorem c4_refcount_semantics_witness :
    ((changeRefM c4cfg c4s 1 1).1 = true ∧
      RcSlot c4cfg (changeRefM c4cfg c4s 1 1).2 1 (min (5 + 1) LOCKED_REF)) ∧
    (5 = LOCKED_REF →
      writeDecRefM c4cfg c4s 1 = some (true, (changeRefM c4cfg c4s 1 (-1)).2) ∧
      RcSlot c4cfg (changeRefM c4cfg c4s 1 (-1)).2 1 LOCKED_REF) ∧
    (2 ≤ 5 → 5 ≠ LOCKED_REF →
      writeDecRefM c4cfg c4s 1 = some (true, (changeRefM c4cfg c4s 1 (-1)).2) ∧
      RcSlot c4cfg (changeRefM c4cfg c4s 1 (-1)).2 1 (5 - 1)) ∧
    (5 ≤ 1 →
      writeDecRefM c4cfg c4s 1 =
        (writeRemovePlanM c4cfg c4s 1).map (fun s2 => (false, s2))) :=
  c4_refcount_semantics c4cfg c4s 1 5 rfl
    (by unfold RcSlot; exact ⟨by decide, by decide, by decide⟩)

/-- C6 counterexample: an entry whose counter is LOCKED_REF - 1 is not
restored by one inc_ref followed by one dec_ref: the increment clamps to
LOCKED_REF and the decrement on LOCKED_REF is ignored, so the counter ends
at LOCKED_REF, not at its initial value. -/
theorem c6_roundtrip_counterexample :
    rcOf c6cfg (c6s.slots 1) = LOCKED_REF - 1 ∧
    (iterDecRef c6cfg 1 1 (iterIncRef c6cfg 1 1 c6s)).map
      (fun s' => rcOf c6cfg (s'.slots 1)) = some LOCKED_REF ∧
    LOCKED_REF ≠ LOCKED_REF - 1 := by
  refine ⟨by decide, by decide, by norm_num [LOCKED_REF]⟩

/-- C6 (amended): N inc_ref followed by N dec_ref restores the initial
refcount r of a live entry provided the increments never reach the
LOCKED_REF clamp (r + N < LOCKED_REF); an entry whose counter already equals
LOCKED_REF keeps that counter. -/
theorem c6_refcount_roundtrip (cfg : VTCfg) (s : TState) (i r N : Nat)
    (hrc : cfg.refCounted = true) (h : RcSlot cfg s i r) :
    (1 ≤ r → r + N < LOCKED_REF →
      ∃ s', iterDecRef cfg i N (iterIncRef cfg i N s) = some s' ∧
        RcSlot cfg s' i r) ∧
    (r = LOCKED_REF →
      ∃ s', iterDecRef cfg i N (iterIncRef cfg i N s) = some s' ∧
        RcSlot cfg s' i LOCKED_REF) := by
  constructor
  · intro h1 hN
    have hinc := iterIncRef_rc cfg i N s r h hN
    obtain ⟨s', hs', hrs'⟩ := iterDecRef_rc cfg i N _ (r + N) hinc
      (by omega) (by omega)
    refine ⟨s', hs', ?_⟩
    simpa using hrs'
  · intro hl
    subst hl
    exact iterDecRef_locked cfg i N _ (iterIncRef_locked cfg i N s h)

/-- C6 witness: counter 3, two increments and two decrements. -/
theorem c6_refcount_roundtrip_witness :
    ∃ s', iterDecRef c6cfg 1 2 (iterIncRef c6cfg 1 2 c6ws) = some s' ∧
      RcSlot c6cfg s' 1 3 :=
  (c6_refcount_roundtrip c6cfg c6ws 1 3 2 rfl
    (by unfold RcSlot; exact ⟨by decide, by decide, by decide⟩)).1 (by norm_num)
    (by norm_num [LOCKED_REF])

/-! ### Frame and inversion lemmas for the allocator predicates -/

theorem writeSlot_slots_eq (s : TState) (i : Nat) (bs : List Nat) :
    (writeSlot s i bs).slots i = bs := by
  simp [writeSlot]

theorem writeSlot_slots_ne (s : TState) (i j : Nat) (bs : List Nat)
    (h : j ≠ i) : (writeSlot s i bs).slots j = s.slots j := by
  simp [writeSlot, h]

theorem writeSlot_filled (s : TState) (i : Nat) (bs : List Nat) :
    (writeSlot s i bs).filled = s.filled := rfl

theorem writeSlot_lastRemoved (s : TState) (i : Nat) (bs : List Nat) :
    (writeSlot s i bs).lastRemoved = s.lastRemoved := rfl

theorem IsFreeList_congr (s s' : TState) (hd : Nat) (L : List Nat)
    (h : IsFreeList s hd L) (heq : ∀ i ∈ L, s'.slots i = s.slots i) :
    IsFreeList s' hd L := by
  induction h with
  | nil => exact IsFreeList.nil
  | cons i rest hi ht hnext ih =>
    have hei : s'.slots i = s.slots i := heq i (by simp)
    refine IsFreeList.cons i rest hi (by rw [hei]; exact ht) ?_
    rw [hei]
    exact ih (fun j hj => heq j (by simp [hj]))

theorem IsChain_congr (cfg : VTCfg) (s s' : TState) (L : List Nat)
    (h : IsChain cfg s L) (heq : ∀ i ∈ L, s'.slots i = s.slots i) :
    IsChain cfg s' L := by
  induction h with
  | single i hi ht hm =>
    have hei : s'.slots i = s.slots i := heq i (by simp)
    exact IsChain.single i hi (by rw [hei]; exact ht) (by rw [hei]; exact hm)
  | link i j rest hi ht hm hn hch ih =>
    have hei : s'.slots i = s.slots i := heq i (by simp)
    refine IsChain.link i j rest hi (by rw [hei]; exact ht)
      (by rw [hei]; exact hm) (by rw [hei]; exact hn) ?_
    exact ih (fun k hk => heq k (by simp [hk]))

theorem IsFreeList_zero_inv (s : TState) (L : List Nat)
    (h : IsFreeList s 0 L) : L = [] := by
  cases h with
  | nil => rfl
  | cons i rest hi => exact absurd rfl hi

theorem IsFreeList_cons_inv (s : TState) (hd : Nat) (L : List Nat)
    (h : IsFreeList s hd L) (hne : hd ≠ 0) :
    ∃ rest, L = hd :: rest ∧ isTomb (s.slots hd) = true ∧
      IsFreeList s (nextPtrOf (s.slots hd)) rest := by
  cases h with
  | nil => exact absurd rfl hne
  | cons i rest hi ht hnext => exact ⟨rest, rfl, ht, hnext⟩

theorem IsFreeList_ne_zero (s : TState) (hd : Nat) (L : List Nat)
    (h : IsFreeList s hd L) : ∀ i ∈ L, i ≠ 0 := by
  induction h with
  | nil => simp
  | cons i rest hi ht hnext ih =>
    intro j hj
    rcases List.mem_cons.mp hj with rfl | hj
    · exact hi
    · exact ih j hj

theorem IsFreeList_tomb (s : TState) (hd : Nat) (L : List Nat)
    (h : IsFreeList s hd L) : ∀ i ∈ L, isTomb (s.slots i) = true := by
  induction h with
  | nil => simp
  | cons i rest hi ht hnext ih =>
    intro j hj
    rcases List.mem_cons.mp hj with rfl | hj
    · exact ht
    · exact ih j hj

theorem nextFreeM_cases (s : TState) (freeL : List Nat)
    (hf : IsFreeList s s.lastRemoved freeL) :
    (s.lastRemoved = 0 ∧ freeL = [] ∧
      nextFreeM s = (s.filled, { s with filled := s.filled + 1 })) ∨
    (s.lastRemoved ≠ 0 ∧ freeL = s.lastRemoved :: freeL.tail ∧
      isTomb (s.slots s.lastRemoved) = true ∧
      IsFreeList s (nextPtrOf (s.slots s.lastRemoved)) freeL.tail ∧
      nextFreeM s = (s.lastRemoved,
        { s with lastRemoved := nextPtrOf (s.slots s.lastRemoved) })) := by
  by_cases h0 : s.lastRemoved = 0
  · left
    refine ⟨h0, ?_, ?_⟩
    · rw [h0] at hf
      exact IsFreeList_zero_inv s freeL hf
    · rw [nextFreeM, if_neg (by simp [h0])]
  · right
    obtain ⟨rest, hrest, ht, hnext⟩ := IsFreeList_cons_inv s _ freeL hf h0
    refine ⟨h0, by rw [hrest]; rfl, ht, by rw [hrest]; exact hnext, ?_⟩
    rw [nextFreeM, if_pos h0]
    rfl

theorem hdrBytes_zero_length (cfg : VTCfg) (kb : List Nat) :
    (hdrBytes cfg kb 0).length = (if cfg.refCounted then 4 else 0) + kb.length := by
  rw [hdrBytes, if_pos rfl]
  cases cfg.refCounted <;> simp [le32_length]

theorem hdrBytes_pos (cfg : VTCfg) (kb : List Nat) (offset : Nat)
    (h : 0 < offset) : hdrBytes cfg kb offset = [] := by
  rw [hdrBytes, if_neg (by omega)]

theorem owc_fresh (cfg : VTCfg) (hc : CfgOk cfg) (kb v : List Nat) (c : Bool)
    (hkb : kb.length ≤ PARTIAL_SIZE) :
    ∀ (fuel : Nat) (s : TState) (freeL : List Nat)
      (remainder offset start idx : Nat),
      IsFreeList s s.lastRemoved freeL →
      freeL.Nodup →
      (∀ i ∈ freeL, i < s.filled) →
      1 ≤ s.filled → s.filled ≤ 2 ^ 64 →
      idx ≠ 0 → idx < s.filled → idx ∉ freeL →
      remainder < fuel →
      s.filled + remainder ≤ 2 ^ 64 →
      ((offset = 0 ∧ start = 0 ∧
          remainder = v.length + (hdrBytes cfg kb 0).length) ∨
        (0 < offset ∧ start ≠ 0 ∧ offset + remainder = v.length)) →
      (cfg.entrySize - SIZE_SIZE < remainder → cfg.multipart = true) →
      ∃ (s' : TState) (zs : List Nat) (dropN : Nat),
        overwriteChainAux cfg kb v c fuel s remainder offset start idx false =
          some ((if start = 0 then idx else start), s') ∧
        zs.head? = some idx ∧ zs.Nodup ∧
        (∀ z ∈ zs, z ≠ 0 ∧ z < s'.filled ∧
          (z = idx ∨ z ∈ freeL.take dropN ∨ s.filled ≤ z)) ∧
        dropN ≤ freeL.length ∧
        s.filled ≤ s'.filled ∧ s'.filled ≤ s.filled + remainder ∧
        IsFreeList s' s'.lastRemoved (freeL.drop dropN) ∧
        (∀ z ∈ zs, z ∉ freeL.drop dropN) ∧
        (∀ j, j ∉ zs → s'.slots j = s.slots j) ∧
        ChainEnc cfg s'.slots v kb c zs offset remainder := by
  intro fuel
  induction fuel with
  | zero =>
    intro s freeL remainder offset start idx _ _ _ _ _ _ _ _ hfuel
    omega
  | succ f ih =>
    intro s freeL remainder offset start idx hf hnd hlt hfp hf64 hidx0 hidxlt
      hidxf hfuel hroom hphase hmpc
    have hSI : SIZE_SIZE = 2 := rfl
    have hII : INDEX_SIZE = 8 := rfl
    have hes : 32 ≤ cfg.entrySize := hc.minSize
    have hsne : (if start = 0 then idx else start) ≠ 0 := by
      rcases hphase with ⟨_, hs0, _⟩ | ⟨_, hs0, _⟩
      · rw [hs0, if_pos rfl]; exact hidx0
      · rw [if_neg hs0]; exact hs0
    rw [overwriteChainAux_unfold _ _ _ _ _ _ _ _ _ _ _ (Nat.succ_pos f)]
    simp only [Bool.false_eq_true, if_false, Nat.succ_sub_one]
    by_cases hrem : cfg.entrySize - SIZE_SIZE < remainder
    · -- this slot is a multipart head or continuation
      rw [if_pos hrem]
      have hmp := hmpc hrem
      have hmph := hc.mpHead hmp
      simp only [SIZE_SIZE, INDEX_SIZE, REFS_SIZE, PARTIAL_SIZE] at hmph
      have hwr : (hdrBytes cfg kb offset).length ≤ 30 := by
        rcases hphase with ⟨ho, _, _⟩ | ⟨ho, _, _⟩
        · rw [ho, hdrBytes_zero_length]
          simp only [PARTIAL_SIZE] at hkb
          split <;> omega
        · rw [hdrBytes_pos cfg kb offset ho]
          simp
      have hvl : (hdrBytes cfg kb offset).length <
          cfg.entrySize - SIZE_SIZE - INDEX_SIZE := by omega
      have hphs : (offset = 0 ∧ start = 0 ∧
          remainder = v.length + (hdrBytes cfg kb offset).length) ∨
          (0 < offset ∧ start ≠ 0 ∧ offset + remainder = v.length) := by
        rcases hphase with ⟨ho, hs0, hr⟩ | h2
        · exact Or.inl ⟨ho, hs0, by rw [ho]; exact hr⟩
        · exact Or.inr h2
      have hphase2 :
          (0 < offset + ((cfg.entrySize - SIZE_SIZE - INDEX_SIZE) -
              (hdrBytes cfg kb offset).length) ∧
            (if start = 0 then idx else start) ≠ 0 ∧
            (offset + ((cfg.entrySize - SIZE_SIZE - INDEX_SIZE) -
              (hdrBytes cfg kb offset).length)) +
              (remainder - (cfg.entrySize - SIZE_SIZE - INDEX_SIZE)) =
              v.length) := by
        have hXle : cfg.entrySize - SIZE_SIZE - INDEX_SIZE ≤ remainder := by
          omega
        refine ⟨?_, hsne, ?_⟩
        · generalize hX : cfg.entrySize - SIZE_SIZE - INDEX_SIZE = X at hvl ⊢
          omega
        · rcases hphs with ⟨ho, hs0, hr⟩ | ⟨ho, hs0, hr⟩
          · subst ho
            generalize hX : cfg.entrySize - SIZE_SIZE - INDEX_SIZE = X
              at hvl hXle ⊢
            generalize hW : (hdrBytes cfg kb 0).length = W at hvl hr ⊢
            omega
          · rw [hdrBytes_pos cfg kb offset ho] at hvl ⊢
            simp only [List.length_nil] at hvl ⊢
            generalize hX : cfg.entrySize - SIZE_SIZE - INDEX_SIZE = X
              at hvl hXle ⊢
            omega
      have htag : (if start = 0 then MULTIHEAD else MULTIPART) =
          (if offset = 0 then MULTIHEAD else MULTIPART) := by
        rcases hphase with ⟨ho, hs0, _⟩ | ⟨ho, hs0, _⟩
        · rw [ho, hs0]
        · rw [if_neg hs0, if_neg (by omega)]
      rcases nextFreeM_cases s freeL hf with
        ⟨hlr0, hfe, hnf⟩ | ⟨hlr0, hfe, htomb, hrest, hnf⟩
      · -- free list empty: bump the high-water mark
        rw [hnf]
        set s2 := writeSlot { s with filled := s.filled + 1 } idx
          ((if start = 0 then MULTIHEAD else MULTIPART) ++ le64 s.filled ++
            hdrBytes cfg kb offset ++
            sliceL v offset
              ((cfg.entrySize - SIZE_SIZE - INDEX_SIZE) -
                (hdrBytes cfg kb offset).length)) with hs2
        have hs2filled : s2.filled = s.filled + 1 := rfl
        have hs2lr : s2.lastRemoved = s.lastRemoved := rfl
        have hs2slots : ∀ j, j ≠ idx → s2.slots j = s.slots j := by
          intro j hj
          rw [hs2, writeSlot_slots_ne _ _ _ _ hj]
        have hfree2 : IsFreeList s2 s2.lastRemoved [] := by
          rw [hs2lr, hlr0]
          exact IsFreeList.nil
        obtain ⟨s', zs', dropN', heq', hhead', hnd', hmem', hdropN', hfl1',
            hfl2', hfree', hnotin', hframe', henc'⟩ :=
          ih s2 [] (remainder - (cfg.entrySize - SIZE_SIZE - INDEX_SIZE))
            (offset + ((cfg.entrySize - SIZE_SIZE - INDEX_SIZE) -
              (hdrBytes cfg kb offset).length))
            (if start = 0 then idx else start) s.filled
            hfree2 (by simp) (by simp)
            (by rw [hs2filled]; omega) (by rw [hs2filled]; omega)
            (by omega) (by rw [hs2filled]; omega) (by simp)
            (by omega) (by rw [hs2filled]; omega)
            (Or.inr hphase2) (fun _ => hmp)
        have hidxnot : idx ∉ zs' := by
          intro hmem
          rcases (hmem' idx hmem).2.2 with h1 | h1 | h1
          · omega
          · exact absurd h1 (by simp)
          · rw [hs2filled] at h1; omega
        refine ⟨s', idx :: zs', dropN', ?_, by simp, ?_, ?_,
          by rw [hfe]; exact hdropN', ?_, ?_,
          ?_, ?_, ?_, ?_⟩
        · rw [heq', if_neg hsne]
        · exact List.nodup_cons.mpr ⟨hidxnot, hnd'⟩
        · intro z hz
          rcases List.mem_cons.mp hz with rfl | hz
          · refine ⟨hidx0, ?_, Or.inl rfl⟩
            have h2 := hfl1'
            rw [hs2filled] at h2
            omega
          · obtain ⟨hz0, hzlt, hzloc⟩ := hmem' z hz
            refine ⟨hz0, hzlt, ?_⟩
            rcases hzloc with h1 | h1 | h1
            · right; right; omega
            · exact absurd h1 (by simp)
            · right; right; rw [hs2filled] at h1; omega
        · rw [hs2filled] at hfl1'; omega
        · rw [hs2filled] at hfl2'; omega
        · rw [hfe]
          simpa using hfree'
        · intro z hz
          rw [hfe]
          simp
        · intro j hj
          have hj1 : j ≠ idx := by
            intro h
            exact hj (h ▸ List.mem_cons_self _ _)
          have hj2 : j ∉ zs' := fun h => hj (List.mem_cons_of_mem _ h)
          rw [hframe' j hj2, hs2slots j hj1]
        · have hslotidx : s'.slots idx =
              (if offset = 0 then MULTIHEAD else MULTIPART) ++ le64 s.filled ++
                hdrBytes cfg kb offset ++
                sliceL v offset
                  ((cfg.entrySize - SIZE_SIZE - INDEX_SIZE) -
                    (hdrBytes cfg kb offset).length) := by
            rw [hframe' idx hidxnot, hs2, writeSlot_slots_eq, htag]
          cases zs' with
          | nil => simp at hhead'
          | cons z0 rest =>
            have hz0 : z0 = s.filled := by simpa using hhead'
            subst hz0
            exact ChainEnc.more idx s.filled rest offset remainder hrem hmp
              (by omega) (by omega) hslotidx henc'
      · -- pop the head of the free list
        rw [hnf]
        have hmemhead : s.lastRemoved ∈ freeL := by
          rw [hfe]; exact List.mem_cons_self _ _
        have hnextlt : s.lastRemoved < s.filled := hlt _ hmemhead
        have hndtail : freeL.tail.Nodup := by
          rw [hfe] at hnd
          exact (List.nodup_cons.mp (by rw [← hfe] at hnd ⊢; rw [hfe] at hnd ⊢; exact hnd)).2
        have hheadnot : s.lastRemoved ∉ freeL.tail := by
          have h2 := hnd
          rw [hfe] at h2
          exact (List.nodup_cons.mp h2).1
        set s2 := writeSlot
          { s with lastRemoved := nextPtrOf (s.slots s.lastRemoved) } idx
          ((if start = 0 then MULTIHEAD else MULTIPART) ++
            le64 s.lastRemoved ++
            hdrBytes cfg kb offset ++
            sliceL v offset
              ((cfg.entrySize - SIZE_SIZE - INDEX_SIZE) -
                (hdrBytes cfg kb offset).length)) with hs2
        have hs2filled : s2.filled = s.filled := rfl
        have hs2lr : s2.lastRemoved = nextPtrOf (s.slots s.lastRemoved) := rfl
        have hs2slots : ∀ j, j ≠ idx → s2.slots j = s.slots j := by
          intro j hj
          rw [hs2, writeSlot_slots_ne _ _ _ _ hj]
        have hidxtail : idx ∉ freeL.tail := by
          intro h
          exact hidxf (by rw [hfe]; exact List.mem_cons_of_mem _ h)
        have hfree2 : IsFreeList s2 s2.lastRemoved freeL.tail := by
          rw [hs2lr]
          refine IsFreeList_congr s s2 _ _ hrest ?_
          intro i hi
          refine hs2slots i ?_
          intro h
          exact hidxtail (h ▸ hi)
        obtain ⟨s', zs', dropN', heq', hhead', hnd', hmem', hdropN', hfl1',
            hfl2', hfree', hnotin', hframe', henc'⟩ :=
          ih s2 freeL.tail
            (remainder - (cfg.entrySize - SIZE_SIZE - INDEX_SIZE))
            (offset + ((cfg.entrySize - SIZE_SIZE - INDEX_SIZE) -
              (hdrBytes cfg kb offset).length))
            (if start = 0 then idx else start) s.lastRemoved
            hfree2 hndtail
            (by
              intro i hi
              rw [hs2filled]
              exact hlt i (by rw [hfe]; exact List.mem_cons_of_mem _ hi))
            (by rw [hs2filled]; omega) (by rw [hs2filled]; omega)
            hlr0 (by rw [hs2filled]; omega) hheadnot
            (by omega) (by rw [hs2filled]; omega)
            (Or.inr hphase2) (fun _ => hmp)
        have hidxnot : idx ∉ zs' := by
          intro hmem
          rcases (hmem' idx hmem).2.2 with h1 | h1 | h1
          · exact hidxf (h1 ▸ hmemhead)
          · exact hidxtail (List.take_subset _ _ h1)
          · rw [hs2filled] at h1; omega
        have hdropeq : freeL.drop (dropN' + 1) = freeL.tail.drop dropN' := by
          rw [hfe]
          rfl
        refine ⟨s', idx :: zs', dropN' + 1, ?_, by simp, ?_, ?_, ?_, ?_,
          ?_, ?_, ?_, ?_, ?_⟩
        · rw [heq', if_neg hsne]
        · exact List.nodup_cons.mpr ⟨hidxnot, hnd'⟩
        · intro z hz
          rcases List.mem_cons.mp hz with rfl | hz
          · refine ⟨hidx0, ?_, Or.inl rfl⟩
            have h2 := hfl1'
            rw [hs2filled] at h2
            omega
          · obtain ⟨hz0, hzlt, hzloc⟩ := hmem' z hz
            refine ⟨hz0, hzlt, ?_⟩
            rcases hzloc with h1 | h1 | h1
            · right; left
              rw [h1, hfe, List.take_succ_cons]
              exact List.mem_cons_self _ _
            · right; left
              rw [hfe, List.take_succ_cons]
              exact List.mem_cons_of_mem _ h1
            · right; right
              rw [hs2filled] at h1
              omega
        · have hlen : freeL.length = freeL.tail.length + 1 := by
            rw [hfe]
            simp
          omega
        · rw [hs2filled] at hfl1'; omega
        · rw [hs2filled] at hfl2'; omega
        · rw [hdropeq]
          exact hfree'
        · intro z hz
          rw [hdropeq]
          rcases List.mem_cons.mp hz with rfl | hz
          · intro h
            exact hidxtail (List.drop_subset _ _ h)
          · exact hnotin' z hz
        · intro j hj
          have hj1 : j ≠ idx := by
            intro h
            exact hj (h ▸ List.mem_cons_self _ _)
          have hj2 : j ∉ zs' := fun h => hj (List.mem_cons_of_mem _ h)
          rw [hframe' j hj2, hs2slots j hj1]
        · have hslotidx : s'.slots idx =
              (if offset = 0 then MULTIHEAD else MULTIPART) ++
                le64 s.lastRemoved ++
                hdrBytes cfg kb offset ++
                sliceL v offset
                  ((cfg.entrySize - SIZE_SIZE - INDEX_SIZE) -
                    (hdrBytes cfg kb offset).length) := by
            rw [hframe' idx hidxnot, hs2, writeSlot_slots_eq, htag]
          cases zs' with
          | nil => simp at hhead'
          | cons z0 rest =>
            have hz0 : z0 = s.lastRemoved := by simpa using hhead'
            subst hz0
            exact ChainEnc.more idx s.lastRemoved rest offset remainder hrem hmp
              (by omega) hlr0 hslotidx henc'
    · -- final slot of the chain
      rw [if_neg hrem]
      rw [if_neg (by simp)]
      set s2 := writeSlot s idx
        (mkSizeWord remainder c ++ hdrBytes cfg kb offset ++
          sliceL v offset (remainder - (hdrBytes cfg kb offset).length))
        with hs2
      have hs2filled : s2.filled = s.filled := rfl
      have hs2lr : s2.lastRemoved = s.lastRemoved := rfl
      have hs2slots : ∀ j, j ≠ idx → s2.slots j = s.slots j := by
        intro j hj
        rw [hs2, writeSlot_slots_ne _ _ _ _ hj]
      refine ⟨s2, [idx], 0, rfl, rfl, by simp, ?_, by simp, ?_, ?_, ?_, ?_,
        ?_, ?_⟩
      · intro z hz
        rcases List.mem_singleton.mp hz with rfl
        exact ⟨hidx0, by rw [hs2filled]; omega, Or.inl rfl⟩
      · rw [hs2filled]
      · rw [hs2filled]; omega
      · rw [List.drop_zero, hs2lr]
        refine IsFreeList_congr s s2 _ _ hf ?_
        intro i hi
        refine hs2slots i ?_
        intro h
        exact hidxf (h ▸ hi)
      · intro z hz
        rcases List.mem_singleton.mp hz with rfl
        rw [List.drop_zero]
        exact hidxf
      · intro j hj
        exact hs2slots j (by simpa using hj)
      · refine ChainEnc.last idx offset remainder (by omega) ?_
        rw [hs2, writeSlot_slots_eq]

theorem sliceL_split (v : List Nat) (off a b : Nat) :
    sliceL v off a ++ sliceL v (off + a) b = sliceL v off (a + b) := by
  rw [sliceL, sliceL, sliceL, List.take_add]
  congr 1
  rw [← List.drop_drop]

theorem mkSizeWord_length (size : Nat) (c : Bool) :
    (mkSizeWord size c).length = 2 := leBytes_length 2 _

theorem forPartsGo_step_last (cfg : VTCfg) (s : TState) (k : List Nat)
    (f z part : Nat) (c0 : Bool) (rc0 : Nat) (acc : List Nat)
    (size : Nat) (cflag : Bool) (rest : List Nat)
    (hslot : s.slots z = mkSizeWord size cflag ++ rest)
    (hsize : size ≤ 0x7ff6) (hdb : 4 < cfg.dbVersion) (hpart : part ≠ 0) :
    forPartsGo cfg s (MKey.hashed k) (f + 1) z part c0 rc0 acc =
      some (rc0, cflag, acc ++ rest.take size) := by
  have h1 : isTomb (s.slots z) = false := by
    rw [hslot]; exact isTomb_mk _ _ _ hsize
  have h2 : isMultiSlot cfg (s.slots z) = false := by
    rw [hslot]; exact isMultiSlot_mk_false cfg _ _ _ hdb hsize
  have h3 : readSizeOf (s.slots z) = (size, cflag) := by
    rw [hslot]; exact readSizeOf_mk _ _ _ (by omega)
  have h4 : sliceL (s.slots z) SIZE_SIZE (SIZE_SIZE + size - SIZE_SIZE) =
      rest.take size := by
    rw [hslot]
    have he : SIZE_SIZE + size - SIZE_SIZE = size := by omega
    rw [he]
    exact sliceL_from _ _ _ _ (by rw [mkSizeWord_length]; rfl)
  simp only [forPartsGo, h1, h2, h3, Bool.false_eq_true, if_false,
    if_neg hpart]
  rw [h4]
  simp

theorem forPartsGo_step_part (cfg : VTCfg) (s : TState) (k : List Nat)
    (f z part : Nat) (c0 : Bool) (rc0 : Nat) (acc : List Nat)
    (nxt : Nat) (rest : List Nat)
    (hslot : s.slots z = MULTIPART ++ (le64 nxt ++ rest))
    (hmp : cfg.multipart = true) (hz64 : nxt < 2 ^ 64) (hne : nxt ≠ 0)
    (hpart : part ≠ 0) :
    forPartsGo cfg s (MKey.hashed k) (f + 1) z part c0 rc0 acc =
      forPartsGo cfg s (MKey.hashed k) f nxt (part + 1) c0 rc0
        (acc ++ rest.take (cfg.entrySize - (SIZE_SIZE + INDEX_SIZE))) := by
  have h1 : isTomb (s.slots z) = false := by
    rw [hslot]
    exact isTomb_part _
  have h2 : isMultiSlot cfg (s.slots z) = true := by
    rw [hslot]
    exact isMultiSlot_part_true cfg _ hmp
  have h3 : nextPtrOf (s.slots z) = nxt := by
    rw [hslot]
    exact nextPtrOf_part_lt nxt rest hz64
  have h4 : sliceL (s.slots z) (SIZE_SIZE + INDEX_SIZE)
      (cfg.entrySize - (SIZE_SIZE + INDEX_SIZE)) =
      rest.take (cfg.entrySize - (SIZE_SIZE + INDEX_SIZE)) := by
    rw [hslot, ← List.append_assoc]
    refine sliceL_from _ _ _ _ ?_
    simp [MULTIPART, le64_length, SIZE_SIZE, INDEX_SIZE]
  simp only [forPartsGo, h1, h2, h3, Bool.false_eq_true, if_false, if_true,
    if_neg hpart, if_neg hne]
  rw [h4]

theorem forPartsGo_step_head_last (cfg : VTCfg) (s : TState) (k : List Nat)
    (f z : Nat) (c0 : Bool) (rc0 : Nat) (acc : List Nat)
    (size : Nat) (cflag : Bool) (rest : List Nat)
    (hk : k.length = 32)
    (hslot : s.slots z = mkSizeWord size cflag ++
      ((if cfg.refCounted then le32 1 else []) ++ (partKeyBytes k ++ rest)))
    (hsize : size ≤ 0x7ff6) (hdb : 4 < cfg.dbVersion) :
    forPartsGo cfg s (MKey.hashed k) (f + 1) z 0 c0 rc0 acc =
      some ((if cfg.refCounted then 1 else rc0), cflag, acc ++
        rest.take (size - ((if cfg.refCounted then REFS_SIZE else 0) +
          PARTIAL_SIZE))) := by
  have hkb : (partKeyBytes k).length = PARTIAL_SIZE := by
    rw [partKeyBytes, List.length_drop, hk]
    rfl
  have h1 : isTomb (s.slots z) = false := by
    rw [hslot]; exact isTomb_mk _ _ _ hsize
  have h2 : isMultiSlot cfg (s.slots z) = false := by
    rw [hslot]; exact isMultiSlot_mk_false cfg _ _ _ hdb hsize
  have h3 : readSizeOf (s.slots z) = (size, cflag) := by
    rw [hslot]; exact readSizeOf_mk _ _ _ (by omega)
  cases hrc : cfg.refCounted with
  | false =>
    rw [hrc] at hslot
    simp only [Bool.false_eq_true, if_false, List.nil_append] at hslot
    have h5 : sliceL (s.slots z) SIZE_SIZE PARTIAL_SIZE = partKeyBytes k := by
      rw [hslot]
      exact sliceL_mid _ _ _ _ _ (by rw [mkSizeWord_length]; rfl) hkb
    have h6 : sliceL (s.slots z) (SIZE_SIZE + PARTIAL_SIZE)
        (SIZE_SIZE + size - (SIZE_SIZE + PARTIAL_SIZE)) =
        rest.take (size - PARTIAL_SIZE) := by
      rw [hslot, ← List.append_assoc]
      have he : SIZE_SIZE + size - (SIZE_SIZE + PARTIAL_SIZE) =
          size - PARTIAL_SIZE := by
        simp only [SIZE_SIZE, PARTIAL_SIZE]
        omega
      rw [he]
      refine sliceL_from _ _ _ _ ?_
      rw [List.length_append, mkSizeWord_length, hkb]
      rfl
    simp only [forPartsGo, h1, h2, h3, hrc, Bool.false_eq_true, if_false,
      if_pos rfl, h5, ne_eq, not_true_eq_false]
    rw [h6]
    all_goals norm_num
  | true =>
    rw [hrc] at hslot
    simp only [if_true] at hslot
    have h4 : sliceL (s.slots z) SIZE_SIZE REFS_SIZE = le32 1 := by
      rw [hslot]
      exact sliceL_mid _ _ _ _ _ (by rw [mkSizeWord_length]; rfl) (le32_length 1)
    have h5 : sliceL (s.slots z) (SIZE_SIZE + REFS_SIZE) PARTIAL_SIZE =
        partKeyBytes k := by
      rw [hslot, ← List.append_assoc]
      refine sliceL_mid _ _ _ _ _ ?_ hkb
      rw [List.length_append, mkSizeWord_length, le32_length]
      rfl
    have h6 : sliceL (s.slots z) (SIZE_SIZE + REFS_SIZE + PARTIAL_SIZE)
        (SIZE_SIZE + size - (SIZE_SIZE + REFS_SIZE + PARTIAL_SIZE)) =
        rest.take (size - (REFS_SIZE + PARTIAL_SIZE)) := by
      rw [hslot, ← List.append_assoc, ← List.append_assoc]
      have he : SIZE_SIZE + size - (SIZE_SIZE + REFS_SIZE + PARTIAL_SIZE) =
          size - (REFS_SIZE + PARTIAL_SIZE) := by
        simp only [SIZE_SIZE, REFS_SIZE, PARTIAL_SIZE]
        omega
      rw [he]
      refine sliceL_from _ _ _ _ ?_
      rw [List.length_append, List.length_append, mkSizeWord_length,
        le32_length, hkb]
      rfl
    simp only [forPartsGo, h1, h2, h3, hrc, Bool.false_eq_true, if_false,
      if_true, if_pos rfl, h4, h5, ne_eq, not_true_eq_false,
      rdLE_le32_of_lt (by norm_num : (1 : Nat) < 4294967296)]
    rw [h6]
    all_goals norm_num

theorem forPartsGo_step_head_more (cfg : VTCfg) (s : TState) (k : List Nat)
    (f z : Nat) (c0 : Bool) (rc0 : Nat) (acc : List Nat)
    (nxt : Nat) (rest : List Nat)
    (hk : k.length = 32)
    (hslot : s.slots z = MULTIHEAD ++ (le64 nxt ++
      ((if cfg.refCounted then le32 1 else []) ++ (partKeyBytes k ++ rest))))
    (hmp : cfg.multipart = true) (hz64 : nxt < 2 ^ 64) (hne : nxt ≠ 0) :
    forPartsGo cfg s (MKey.hashed k) (f + 1) z 0 c0 rc0 acc =
      forPartsGo cfg s (MKey.hashed k) f nxt 1 c0
        (if cfg.refCounted then 1 else rc0)
        (acc ++ rest.take (cfg.entrySize -
          ((if cfg.refCounted then SIZE_SIZE + INDEX_SIZE + REFS_SIZE
            else SIZE_SIZE + INDEX_SIZE) + PARTIAL_SIZE))) := by
  have hkb : (partKeyBytes k).length = PARTIAL_SIZE := by
    rw [partKeyBytes, List.length_drop, hk]
    rfl
  have h1 : isTomb (s.slots z) = false := by
    rw [hslot]
    exact isTomb_head _
  have h2 : isMultiSlot cfg (s.slots z) = true := by
    rw [hslot]
    exact isMultiSlot_head_true cfg _ hmp
  have h3 : nextPtrOf (s.slots z) = nxt := by
    rw [hslot]
    exact nextPtrOf_head_lt nxt _ hz64
  cases hrc : cfg.refCounted with
  | false =>
    rw [hrc] at hslot
    simp only [Bool.false_eq_true, if_false, List.nil_append] at hslot
    have h5 : sliceL (s.slots z) (SIZE_SIZE + INDEX_SIZE) PARTIAL_SIZE =
        partKeyBytes k := by
      rw [hslot, ← List.append_assoc]
      refine sliceL_mid _ _ _ _ _ ?_ hkb
      simp [MULTIHEAD, le64_length, SIZE_SIZE, INDEX_SIZE]
    have h6 : sliceL (s.slots z) (SIZE_SIZE + INDEX_SIZE + PARTIAL_SIZE)
        (cfg.entrySize - (SIZE_SIZE + INDEX_SIZE + PARTIAL_SIZE)) =
        rest.take (cfg.entrySize - (SIZE_SIZE + INDEX_SIZE + PARTIAL_SIZE)) := by
      rw [hslot, ← List.append_assoc, ← List.append_assoc]
      refine sliceL_from _ _ _ _ ?_
      simp [MULTIHEAD, le64_length, hkb, SIZE_SIZE, INDEX_SIZE, PARTIAL_SIZE]
    simp only [forPartsGo, h1, h2, h3, hrc, Bool.false_eq_true, if_false,
      if_true, if_pos rfl, h5, ne_eq, not_true_eq_false, if_neg hne]
    rw [h6]
    all_goals norm_num
  | true =>
    rw [hrc] at hslot
    simp only [if_true] at hslot
    have h4 : sliceL (s.slots z) (SIZE_SIZE + INDEX_SIZE) REFS_SIZE =
        le32 1 := by
      rw [hslot, ← List.append_assoc]
      refine sliceL_mid _ _ _ _ _ ?_ (le32_length 1)
      simp [MULTIHEAD, le64_length, SIZE_SIZE, INDEX_SIZE]
    have h5 : sliceL (s.slots z) (SIZE_SIZE + INDEX_SIZE + REFS_SIZE)
        PARTIAL_SIZE = partKeyBytes k := by
      rw [hslot, ← List.append_assoc, ← List.append_assoc]
      refine sliceL_mid _ _ _ _ _ ?_ hkb
      simp [MULTIHEAD, le64_length, le32_length, SIZE_SIZE, INDEX_SIZE,
        REFS_SIZE]
    have h6 : sliceL (s.slots z)
        (SIZE_SIZE + INDEX_SIZE + REFS_SIZE + PARTIAL_SIZE)
        (cfg.entrySize - (SIZE_SIZE + INDEX_SIZE + REFS_SIZE + PARTIAL_SIZE)) =
        rest.take
          (cfg.entrySize - (SIZE_SIZE + INDEX_SIZE + REFS_SIZE + PARTIAL_SIZE)) := by
      rw [hslot, ← List.append_assoc, ← List.append_assoc, ← List.append_assoc]
      refine sliceL_from _ _ _ _ ?_
      simp [MULTIHEAD, le64_length, le32_length, hkb, SIZE_SIZE, INDEX_SIZE,
        REFS_SIZE, PARTIAL_SIZE]
    simp only [forPartsGo, h1, h2, h3, hrc, Bool.false_eq_true, if_false,
      if_true, if_pos rfl, h4, h5, ne_eq, not_true_eq_false, if_neg hne,
      rdLE_le32_of_lt (by norm_num : (1 : Nat) < 4294967296)]
    rw [h6]
    all_goals norm_num

theorem sliceL_length_of_le (v : List Nat) (off n : Nat)
    (h : off + n ≤ v.length) : (sliceL v off n).length = n := by
  rw [sliceL, List.length_take, List.length_drop]
  omega

theorem forParts_tail (cfg : VTCfg) (hc : CfgOk cfg) (k v : List Nat)
    (c : Bool) (zs : List Nat) (s : TState) (offset remainder : Nat)
    (henc : ChainEnc cfg s.slots v (partKeyBytes k) c zs offset remainder) :
    0 < offset →
    offset + remainder ≤ v.length →
    ∀ (f part : Nat) (acc : List Nat) (c0 : Bool) (rc0 z0 : Nat),
      zs.length ≤ f + 1 → part ≠ 0 → zs.head? = some z0 →
      forPartsGo cfg s (MKey.hashed k) (f + 1) z0 part c0 rc0 acc =
        some (rc0, c, acc ++ sliceL v offset remainder) := by
  induction henc with
  | last z offset remainder hle hslot =>
    intro hoff hvl f part acc c0 rc0 z0 hfuel hpart hz0
    have hz0e : z = z0 := by simpa using hz0
    subst hz0e
    rw [hdrBytes_pos cfg (partKeyBytes k) offset hoff] at hslot
    simp only [List.nil_append, List.length_nil, Nat.sub_zero] at hslot
    have hSI : SIZE_SIZE = 2 := rfl
    have hmax : remainder ≤ 0x7ff6 := by
      have h1 := hc.maxSize
      simp only [MAX_ENTRY_SIZE] at h1
      omega
    rw [forPartsGo_step_last cfg s k f z part c0 rc0 acc remainder c _ hslot
      hmax hc.ver hpart]
    rw [List.take_of_length_le (le_of_eq (sliceL_length_of_le v offset
      remainder hvl))]
  | more z z' rest offset remainder hlt hmp hz64 hzne hslot htail ih =>
    intro hoff hvl f part acc c0 rc0 z0 hfuel hpart hz0
    have hz0e : z = z0 := by simpa using hz0
    subst hz0e
    rw [hdrBytes_pos cfg (partKeyBytes k) offset hoff] at hslot ih
    rw [if_neg (by omega : ¬ offset = 0)] at hslot
    simp only [List.nil_append, List.length_nil, Nat.sub_zero] at hslot ih
    have hSI : SIZE_SIZE = 2 := rfl
    have hII : INDEX_SIZE = 8 := rfl
    rw [forPartsGo_step_part cfg s k f z part c0 rc0 acc z' _ hslot hmp
      hz64 hzne hpart]
    have hE : cfg.entrySize - (SIZE_SIZE + INDEX_SIZE) =
        cfg.entrySize - SIZE_SIZE - INDEX_SIZE := by omega
    rw [hE]
    have hlenE : (sliceL v offset (cfg.entrySize - SIZE_SIZE - INDEX_SIZE)).length =
        cfg.entrySize - SIZE_SIZE - INDEX_SIZE := by
      refine sliceL_length_of_le v offset _ ?_
      omega
    rw [List.take_of_length_le (le_of_eq hlenE)]
    cases f with
    | zero =>
      simp only [List.length_cons] at hfuel
      omega
    | succ f2 =>
      rw [ih (by omega) (by omega) f2 (part + 1) _ c0 rc0 z'
        (by simp only [List.length_cons] at hfuel ⊢; omega) (by omega) rfl]
      rw [List.append_assoc, sliceL_split]
      have he2 : cfg.entrySize - SIZE_SIZE - INDEX_SIZE +
          (remainder - (cfg.entrySize - SIZE_SIZE - INDEX_SIZE)) = remainder := by
        omega
      rw [he2]

theorem hdrBytes_zero (cfg : VTCfg) (kb : List Nat) :
    hdrBytes cfg kb 0 = (if cfg.refCounted then le32 1 else []) ++ kb := by
  rw [hdrBytes, if_pos rfl]

theorem headTag_zero : (if (0 : Nat) = 0 then MULTIHEAD else MULTIPART) =
    MULTIHEAD := rfl

theorem forParts_read (cfg : VTCfg) (hc : CfgOk cfg) (k v : List Nat)
    (c : Bool) (zs : List Nat) (s : TState) (remainder : Nat)
    (henc : ChainEnc cfg s.slots v (partKeyBytes k) c zs 0 remainder)
    (hk : k.length = 32)
    (hrem : remainder = v.length + (hdrBytes cfg (partKeyBytes k) 0).length) :
    ∀ (f z0 : Nat) (c0 : Bool) (rc0 : Nat),
      zs.length ≤ f + 1 → zs.head? = some z0 →
      forPartsGo cfg s (MKey.hashed k) (f + 1) z0 0 c0 rc0 [] =
        some ((if cfg.refCounted then 1 else rc0), c, v) := by
  have hkb : (partKeyBytes k).length = PARTIAL_SIZE := by
    rw [partKeyBytes, List.length_drop, hk]
    rfl
  have hSI : SIZE_SIZE = 2 := rfl
  have hII : INDEX_SIZE = 8 := rfl
  have hRS : REFS_SIZE = 4 := rfl
  have hPS : PARTIAL_SIZE = 26 := rfl
  have hRle : (if cfg.refCounted then REFS_SIZE else 0) ≤ 4 := by
    cases cfg.refCounted <;> simp [REFS_SIZE]
  have hW4 : (hdrBytes cfg (partKeyBytes k) 0).length =
      (if cfg.refCounted then REFS_SIZE else 0) + PARTIAL_SIZE := by
    rw [hdrBytes_zero_length, hkb]
    cases cfg.refCounted <;> simp [REFS_SIZE]
  have hrem2 : remainder = v.length +
      ((if cfg.refCounted then REFS_SIZE else 0) + PARTIAL_SIZE) := by
    rw [hrem, hW4]
  have hLA : ((if cfg.refCounted then le32 1 else []) ++ partKeyBytes k).length =
      (if cfg.refCounted then REFS_SIZE else 0) + PARTIAL_SIZE := by
    rw [List.length_append, hkb]
    cases cfg.refCounted <;> simp [le32_length, REFS_SIZE]
  cases henc with
  | last z off rem hle hslot =>
    intro f z0 c0 rc0 hfuel hz0
    have hz0e : z = z0 := by simpa using hz0
    subst hz0e
    rw [hdrBytes_zero] at hslot
    simp only [List.append_assoc] at hslot
    rw [hLA] at hslot
    have hmax : remainder ≤ 0x7ff6 := by
      have h1 := hc.maxSize
      simp only [MAX_ENTRY_SIZE] at h1
      omega
    rw [forPartsGo_step_head_last cfg s k f z c0 rc0 [] remainder c _ hk hslot
      hmax hc.ver]
    have hA : remainder -
        ((if cfg.refCounted then REFS_SIZE else 0) + PARTIAL_SIZE) =
        v.length := by omega
    rw [hA]
    simp [sliceL]
  | more z z' restz off rem hlt hmp hz64 hzne hslot htail =>
    intro f z0 c0 rc0 hfuel hz0
    have hz0e : z = z0 := by simpa using hz0
    subst hz0e
    rw [headTag_zero, hdrBytes_zero] at hslot
    simp only [List.append_assoc] at hslot
    rw [hLA] at hslot
    rw [forPartsGo_step_head_more cfg s k f z c0 rc0 [] z' _ hk hslot hmp
      hz64 hzne]
    have hT : cfg.entrySize -
        ((if cfg.refCounted then SIZE_SIZE + INDEX_SIZE + REFS_SIZE
          else SIZE_SIZE + INDEX_SIZE) + PARTIAL_SIZE) =
        cfg.entrySize - SIZE_SIZE - INDEX_SIZE -
          ((if cfg.refCounted then REFS_SIZE else 0) + PARTIAL_SIZE) := by
      cases cfg.refCounted
      all_goals simp only [Bool.false_eq_true, eq_self_iff_true, if_false,
        if_true]
      all_goals omega
    rw [hT]
    have htk : (sliceL v 0 (cfg.entrySize - SIZE_SIZE - INDEX_SIZE -
        ((if cfg.refCounted then REFS_SIZE else 0) + PARTIAL_SIZE))).length ≤
        cfg.entrySize - SIZE_SIZE - INDEX_SIZE -
        ((if cfg.refCounted then REFS_SIZE else 0) + PARTIAL_SIZE) := by
      rw [sliceL, List.length_take, List.length_drop]
      omega
    rw [List.take_of_length_le htk]
    have hmpB := hc.mpHead hmp
    cases f with
    | zero =>
      simp only [List.length_cons] at hfuel
      omega
    | succ f2 =>
      have hoff2 : 0 < 0 + (cfg.entrySize - SIZE_SIZE - INDEX_SIZE -
          (hdrBytes cfg (partKeyBytes k) 0).length) := by
        rw [hW4]
        omega
      have hsum2 : 0 + (cfg.entrySize - SIZE_SIZE - INDEX_SIZE -
          (hdrBytes cfg (partKeyBytes k) 0).length) +
          (remainder - (cfg.entrySize - SIZE_SIZE - INDEX_SIZE)) ≤
          v.length := by
        rw [hW4]
        omega
      have hfl2 : (z' :: restz).length ≤ f2 + 1 := by
        simp only [List.length_cons] at hfuel ⊢
        omega
      rw [forParts_tail cfg hc k v c _ s _ _ htail hoff2 hsum2 f2 1 _ c0
        (if cfg.refCounted then 1 else rc0) z' hfl2 (by omega) rfl]
      rw [hW4, List.nil_append, sliceL_split]
      have hab : cfg.entrySize - SIZE_SIZE - INDEX_SIZE -
          ((if cfg.refCounted then REFS_SIZE else 0) + PARTIAL_SIZE) +
          (remainder - (cfg.entrySize - SIZE_SIZE - INDEX_SIZE)) =
          v.length := by omega
      rw [hab]
      simp [sliceL]

theorem nodup_length_le (l : List Nat) (n : Nat) (hnd : l.Nodup)
    (hlt : ∀ x ∈ l, x < n) : l.length ≤ n := by
  classical
  have h1 : l.toFinset ⊆ Finset.range n := by
    intro x hx
    rw [List.mem_toFinset] at hx
    exact Finset.mem_range.mpr (hlt x hx)
  have h2 := Finset.card_le_card h1
  rw [List.toFinset_card_of_nodup hnd, Finset.card_range] at h2
  exact h2

theorem owc_fresh_get (cfg : VTCfg) (hc : CfgOk cfg) (k v : List Nat)
    (c : Bool) (fuel : Nat) (s1 : TState) (freeL1 : List Nat) (idx : Nat)
    (hfl : IsFreeList s1 s1.lastRemoved freeL1) (hnd : freeL1.Nodup)
    (hlt : ∀ i ∈ freeL1, i < s1.filled) (hf1 : 1 ≤ s1.filled)
    (hf64 : s1.filled ≤ 2 ^ 64)
    (hidx0 : idx ≠ 0) (hidxlt : idx < s1.filled) (hidxf : idx ∉ freeL1)
    (hk : k.length = 32)
    (hfuel : v.length + cfg.refSize + PARTIAL_SIZE < fuel)
    (hcap64 : s1.filled + (v.length + cfg.refSize + PARTIAL_SIZE) ≤ 2 ^ 64)
    (hcap : cfg.entrySize - SIZE_SIZE < v.length + cfg.refSize + PARTIAL_SIZE →
      cfg.multipart = true) :
    ∃ s' : TState,
      overwriteChainAux cfg (partKeyBytes k) v c fuel s1
        (v.length + cfg.refSize + PARTIAL_SIZE) 0 0 idx false =
        some (idx, s') ∧
      getM cfg s' (MKey.hashed k) idx = some (v, c) := by
  have hkb : (partKeyBytes k).length = PARTIAL_SIZE := by
    rw [partKeyBytes, List.length_drop, hk]
    rfl
  have hrem0 : v.length + cfg.refSize + PARTIAL_SIZE =
      v.length + (hdrBytes cfg (partKeyBytes k) 0).length := by
    rw [hdrBytes_zero_length, hkb, VTCfg.refSize]
    simp only [REFS_SIZE]
    omega
  obtain ⟨s', zs, dropN, haux, hhead, hndz, hz, hdropN, hfill1, hfill2,
    hfl', hzf, hframe, henc⟩ :=
    owc_fresh cfg hc (partKeyBytes k) v c (le_of_eq hkb) fuel s1 freeL1
      (v.length + cfg.refSize + PARTIAL_SIZE) 0 0 idx hfl hnd hlt hf1 hf64
      hidx0 hidxlt hidxf hfuel hcap64 (Or.inl ⟨rfl, rfl, hrem0⟩) hcap
  rw [if_pos rfl] at haux
  refine ⟨s', haux, ?_⟩
  have hzlen : zs.length ≤ s'.filled :=
    nodup_length_le zs s'.filled hndz (fun z hz' => (hz z hz').2.1)
  have hread := forParts_read cfg hc k v c zs s'
    (v.length + cfg.refSize + PARTIAL_SIZE) henc hk hrem0 s'.filled idx
    false 1 (by omega) hhead
  simp only [getM, queryM, hread, ite_self]
  norm_num

/-- C1: round-trip at the value table.  For any hashed key and any value
that fits the tier (single-part values fit one slot; larger values are
allowed exactly on the multipart tier), write_insert_plan followed by get at
the returned head slot through the same overlay returns the value byte for
byte together with the compression flag.  The state hypotheses say the free
list is well formed and the table has room below 2^64 slots. -/
theorem c1_value_roundtrip (cfg : VTCfg) (hc : CfgOk cfg) (k v : List Nat)
    (c : Bool) (s : TState) (freeL : List Nat)
    (hfl : IsFreeList s s.lastRemoved freeL) (hnd : freeL.Nodup)
    (hlt : ∀ i ∈ freeL, i < s.filled) (hf1 : 1 ≤ s.filled)
    (hk : k.length = 32)
    (hbound : s.filled + (v.length + cfg.refSize + PARTIAL_SIZE) + 1 ≤ 2 ^ 64)
    (hcap : cfg.entrySize - SIZE_SIZE < v.length + cfg.refSize + PARTIAL_SIZE →
      cfg.multipart = true) :
    ∃ (i : Nat) (s' : TState),
      writeInsertPlanM cfg (MKey.hashed k) v c s = some (i, s') ∧
      getM cfg s' (MKey.hashed k) i = some (v, c) := by
  rcases nextFreeM_cases s freeL hfl with ⟨h0, hfe, hnf⟩ |
    ⟨h0, hfe, htomb, hnext, hnf⟩
  · obtain ⟨s', haux, hget⟩ := owc_fresh_get cfg hc k v c
      (v.length + cfg.refSize + PARTIAL_SIZE + s.filled + 2)
      { s with filled := s.filled + 1 } [] s.filled
      (by rw [show ({ s with filled := s.filled + 1 } : TState).lastRemoved = 0
        from h0]; exact IsFreeList.nil)
      List.nodup_nil (by simp)
      (show 1 ≤ s.filled + 1 by omega)
      (show s.filled + 1 ≤ 2 ^ 64 by omega)
      (by omega)
      (show s.filled < s.filled + 1 by omega)
      (by simp) hk (by omega)
      (show s.filled + 1 + (v.length + cfg.refSize + PARTIAL_SIZE) ≤ 2 ^ 64
        by omega)
      hcap
    refine ⟨s.filled, s', ?_, hget⟩
    simp only [writeInsertPlanM, overwriteChain, MKey.writeBytes,
      MKey.encodedSize]
    rw [hnf]
    exact haux
  · obtain ⟨s', haux, hget⟩ := owc_fresh_get cfg hc k v c
      (v.length + cfg.refSize + PARTIAL_SIZE + s.filled + 2)
      { s with lastRemoved := nextPtrOf (s.slots s.lastRemoved) }
      freeL.tail s.lastRemoved
      (IsFreeList_congr s _ _ _ hnext (fun i _ => rfl))
      (by rw [hfe] at hnd; exact (List.nodup_cons.mp hnd).2)
      (fun i hi => hlt i (by rw [hfe]; exact List.mem_cons_of_mem _ hi))
      hf1 (show s.filled ≤ 2 ^ 64 by omega) h0
      (hlt _ (by rw [hfe]; exact List.mem_cons_self _ _))
      (by rw [hfe] at hnd; exact (List.nodup_cons.mp hnd).1)
      hk (by omega)
      (show s.filled + (v.length + cfg.refSize + PARTIAL_SIZE) ≤ 2 ^ 64
        by omega)
      hcap
    refine ⟨s.lastRemoved, s', ?_, hget⟩
    simp only [writeInsertPlanM, overwriteChain, MKey.writeBytes,
      MKey.encodedSize]
    rw [hnf]
    exact haux

/-- Witness for C1 at a concrete input: inserting [1, 2, 3] under a
32-byte key into a fresh 64-byte single-part table and reading it back. -/
theorem c1_value_roundtrip_witness :
    ∃ (i : Nat) (s' : TState),
      writeInsertPlanM c1wcfg (MKey.hashed c1wk) [1, 2, 3] false initTState =
        some (i, s') ∧
      getM c1wcfg s' (MKey.hashed c1wk) i = some ([1, 2, 3], false) :=
  c1_value_roundtrip c1wcfg
    ⟨by decide, by decide, by decide, by decide⟩
    c1wk [1, 2, 3] false initTState []
    IsFreeList.nil List.nodup_nil (by simp) (by decide) (by decide)
    (by decide) (by decide)

theorem clearSlotM_filled (s : TState) (i : Nat) :
    (clearSlotM s i).filled = s.filled := rfl

theorem nextFreeM_filled_le (s : TState) :
    s.filled ≤ (nextFreeM s).2.filled := by
  by_cases h0 : s.lastRemoved ≠ 0
  · rw [nextFreeM, if_pos h0]
  · rw [nextFreeM, if_neg h0]
    exact Nat.le_succ _

theorem clearChainM_filled (cfg : VTCfg) :
    ∀ (fuel : Nat) (s : TState) (i : Nat) (s' : TState),
      clearChainM cfg fuel s i = some s' → s'.filled = s.filled := by
  intro fuel
  induction fuel with
  | zero =>
    intro s i s' h
    simp [clearChainM] at h
  | succ f ih =>
    intro s i s' h
    rw [clearChainM] at h
    cases hnp : readNextPartM cfg s i with
    | some nxt =>
      rw [hnp] at h
      have h2 := ih (clearSlotM s i) nxt s' h
      rw [h2, clearSlotM_filled]
    | none =>
      rw [hnp] at h
      have h2 : some (clearSlotM s i) = some s' := h
      rw [← Option.some.inj h2, clearSlotM_filled]

theorem writeRemovePlanM_filled (cfg : VTCfg) (s : TState) (i : Nat)
    (s' : TState) (h : writeRemovePlanM cfg s i = some s') :
    s'.filled = s.filled := by
  rw [writeRemovePlanM] at h
  by_cases hm : cfg.multipart
  · rw [if_pos hm] at h
    exact clearChainM_filled cfg (s.filled + 1) s i s' h
  · rw [if_neg hm] at h
    rw [← Option.some.inj h, clearSlotM_filled]

theorem changeRefM_filled (cfg : VTCfg) (s : TState) (i : Nat) (d : Int) :
    (changeRefM cfg s i d).2.filled = s.filled := by
  simp only [changeRefM]
  split
  · rfl
  · split
    · rfl
    · rfl

theorem owcAux_filled_mono (cfg : VTCfg) (kb v : List Nat) (c : Bool) :
    ∀ (fuel : Nat) (s : TState) (r o st i : Nat) (fol : Bool) (x : Nat)
      (s' : TState),
      overwriteChainAux cfg kb v c fuel s r o st i fol = some (x, s') →
      s.filled ≤ s'.filled := by
  intro fuel
  induction fuel with
  | zero =>
    intro s r o st i fol x s' h
    simp [overwriteChainAux] at h
  | succ f ih =>
    intro s r o st i fol x s' h
    simp only [overwriteChainAux] at h
    generalize hst : (if st = 0 then i else st) = st1 at h
    split at h
    · refine Nat.le_trans ?_ (ih _ _ _ _ _ _ _ _ h)
      rw [writeSlot_filled]
      repeat split
      all_goals
        first
        | exact Nat.le.refl
        | exact nextFreeM_filled_le s
    · repeat split at h
      all_goals
        first
        | exact Option.noConfusion h
        | (rename_i hcond
           exact absurd rfl hcond)
        | (rename_i s3 heq
           have h2 := clearChainM_filled cfg f _ _ s3 heq
           have h3 : s3 = s' := congrArg Prod.snd (Option.some.inj h)
           exact le_of_eq (by rw [← h3, h2, writeSlot_filled]))
        | (have h3 : _ = s' := congrArg Prod.snd (Option.some.inj h)
           exact le_of_eq (by rw [← h3, writeSlot_filled]))

theorem applyOp_filled_mono (cfg : VTCfg) (s s' : TState) (op : VOp)
    (h : applyOp cfg s op = some s') : s.filled ≤ s'.filled := by
  cases op with
  | ins key v c =>
    simp only [applyOp, writeInsertPlanM, overwriteChain] at h
    cases hw : overwriteChainAux cfg key.writeBytes v c
        (v.length + cfg.refSize + key.encodedSize + s.filled + 2)
        (nextFreeM s).2 (v.length + cfg.refSize + key.encodedSize) 0 0
        (nextFreeM s).1 false with
    | none => rw [hw] at h; simp at h
    | some p =>
      rw [hw] at h
      have h3 : p.2 = s' := by simpa using h
      have h2 := owcAux_filled_mono cfg key.writeBytes v c _ _ _ _ _ _ _
        p.1 p.2 (by rw [← hw])
      rw [← h3]
      exact le_trans (nextFreeM_filled_le s) h2
  | repl i key v c =>
    simp only [applyOp, writeReplacePlanM, overwriteChain] at h
    cases hw : overwriteChainAux cfg key.writeBytes v c
        (v.length + cfg.refSize + key.encodedSize + s.filled + 2) s
        (v.length + cfg.refSize + key.encodedSize) 0 0 i true with
    | none => rw [hw] at h; simp at h
    | some p =>
      rw [hw] at h
      have h3 : p.2 = s' := by simpa using h
      have h2 := owcAux_filled_mono cfg key.writeBytes v c _ _ _ _ _ _ _
        p.1 p.2 (by rw [← hw])
      rw [← h3]
      exact h2
  | rem i =>
    simp only [applyOp] at h
    exact le_of_eq (writeRemovePlanM_filled cfg s i s' h).symm
  | incr i =>
    simp only [applyOp, writeIncRefM] at h
    rw [← Option.some.inj h]
    exact le_of_eq (changeRefM_filled cfg s i 1).symm
  | decr i =>
    simp only [applyOp, writeDecRefM] at h
    split at h
    · have h3 : (changeRefM cfg s i (-1)).2 = s' := by simpa using h
      rw [← h3]
      exact le_of_eq (changeRefM_filled cfg s i (-1)).symm
    · cases hw : writeRemovePlanM cfg (changeRefM cfg s i (-1)).2 i with
      | none => rw [hw] at h; simp at h
      | some s2 =>
        rw [hw] at h
        have h3 : s2 = s' := by simpa using h
        have h2 := writeRemovePlanM_filled cfg _ i s2 hw
        rw [changeRefM_filled] at h2
        rw [← h3]
        exact le_of_eq h2.symm

theorem runOpsM_filled_mono (cfg : VTCfg) :
    ∀ (ops : List VOp) (s s' : TState),
      runOpsM cfg s ops = some s' → s.filled ≤ s'.filled := by
  intro ops
  induction ops with
  | nil =>
    intro s s' h
    simp only [runOpsM, Option.some.injEq] at h
    rw [h]
  | cons op rest ih =>
    intro s s' h
    rw [runOpsM] at h
    cases ha : applyOp cfg s op with
    | none => rw [ha] at h; simp at h
    | some s1 =>
      rw [ha] at h
      exact le_trans (applyOp_filled_mono cfg s s1 op ha) (ih s1 s' h)

/-- C10: slot 0 is never handed out as a value slot.  open and
refresh_metadata normalize a stored filled of 0 to 1; the slot counter,
once at least 1, stays at least 1 across any run of value-table
operations; and on any state with a positive slot counter next_free
returns a nonzero slot (a fresh allocation returns the pre-increment
filled and a pop returns the nonzero last_removed). -/
theorem c10_slot_zero_never_allocated :
    (∀ stored : Nat, 1 ≤ openFilledOf stored) ∧
    (∀ s : TState, 1 ≤ s.filled → (nextFreeM s).1 ≠ 0) ∧
    (∀ (cfg : VTCfg) (s s' : TState) (ops : List VOp),
      1 ≤ s.filled → runOpsM cfg s ops = some s' →
      1 ≤ s'.filled ∧ (nextFreeM s').1 ≠ 0) := by
  have hnf : ∀ s : TState, 1 ≤ s.filled → (nextFreeM s).1 ≠ 0 := by
    intro s h1
    by_cases h0 : s.lastRemoved ≠ 0
    · rw [nextFreeM, if_pos h0]
      exact h0
    · rw [nextFreeM, if_neg h0]
      show s.filled ≠ 0
      omega
  refine ⟨?_, hnf, ?_⟩
  · intro stored
    rw [openFilledOf]
    split
    · exact Nat.le.refl
    · rename_i hs
      omega
  · intro cfg s s' ops h1 hrun
    have h2 := runOpsM_filled_mono cfg ops s s' hrun
    exact ⟨by omega, hnf s' (by omega)⟩

/-- Witness for C10 at concrete inputs: a stored header of 0 opens as 1,
and the empty run from a fresh table keeps the counter at 1 and allocates
slot 1, not slot 0. -/
theorem c10_slot_zero_never_allocated_witness :
    1 ≤ openFilledOf 0 ∧
    (nextFreeM initTState).1 ≠ 0 ∧
    (1 ≤ initTState.filled ∧ (nextFreeM initTState).1 ≠ 0) :=
  ⟨c10_slot_zero_never_allocated.1 0,
   c10_slot_zero_never_allocated.2.1 initTState (by decide),
   c10_slot_zero_never_allocated.2.2
     { entrySize := 64, refCounted := false, multipart := false,
       dbVersion := 5 }
     initTState initTState [] (by decide) rfl⟩

theorem clearSlotM_slots_eq (s : TState) (i : Nat) :
    (clearSlotM s i).slots i = TOMBSTONE ++ le64 s.lastRemoved := by
  simp [clearSlotM, writeSlot]

theorem clearSlotM_slots_ne (s : TState) (i j : Nat) (h : j ≠ i) :
    (clearSlotM s i).slots j = s.slots j := by
  simp [clearSlotM, writeSlot, h]

theorem clearSlotM_lastRemoved (s : TState) (i : Nat) :
    (clearSlotM s i).lastRemoved = i := rfl

theorem IsChain_ne_zero (cfg : VTCfg) (s : TState) (L : List Nat)
    (h : IsChain cfg s L) : ∀ i ∈ L, i ≠ 0 := by
  induction h with
  | single i hi ht hm =>
    intro j hj
    rcases List.mem_singleton.mp hj with rfl
    exact hi
  | link i j rest hi ht hm hn hch ih =>
    intro q hq
    rcases List.mem_cons.mp hq with rfl | hq
    · exact hi
    · exact ih q hq

theorem IsFreeList_head_lt (s : TState) (freeL : List Nat) (B : Nat)
    (h : IsFreeList s s.lastRemoved freeL) (hb : ∀ z ∈ freeL, z < B)
    (h0 : 0 < B) : s.lastRemoved < B := by
  by_cases hz : s.lastRemoved = 0
  · omega
  · obtain ⟨rest, hrest, _, _⟩ := IsFreeList_cons_inv s _ freeL h hz
    exact hb _ (by rw [hrest]; exact List.mem_cons_self _ _)

theorem clearSlotM_freelist (s : TState) (freeL : List Nat) (i : Nat)
    (hfl : IsFreeList s s.lastRemoved freeL) (hi0 : i ≠ 0)
    (hnotin : i ∉ freeL) (hlr : s.lastRemoved < 2 ^ 64) :
    IsFreeList (clearSlotM s i) (clearSlotM s i).lastRemoved (i :: freeL) := by
  rw [clearSlotM_lastRemoved]
  refine IsFreeList.cons i freeL hi0
    (by rw [clearSlotM_slots_eq]; exact isTomb_tomb _) ?_
  rw [clearSlotM_slots_eq, nextPtrOf_tomb _ hlr]
  refine IsFreeList_congr s _ _ _ hfl ?_
  intro z hz
  refine clearSlotM_slots_ne s i z ?_
  intro h
  exact hnotin (h ▸ hz)

theorem clearChainM_spec (cfg : VTCfg) :
    ∀ (L : List Nat) (s : TState) (fuel : Nat) (freeL : List Nat) (i : Nat),
      IsChain cfg s L → L.head? = some i → L.Nodup →
      (∀ z ∈ L, z ∉ freeL) → (∀ z ∈ L, z < 2 ^ 64) →
      (∀ z ∈ freeL, z < 2 ^ 64) →
      IsFreeList s s.lastRemoved freeL →
      L.length ≤ fuel →
      ∃ s' : TState,
        clearChainM cfg fuel s i = some s' ∧
        s'.filled = s.filled ∧
        IsFreeList s' s'.lastRemoved (L.reverse ++ freeL) ∧
        (∀ j, j ∉ L → s'.slots j = s.slots j) := by
  intro L
  induction L with
  | nil =>
    intro s fuel freeL i hch hhead
    simp at hhead
  | cons a L2 ihL =>
    intro s fuel freeL i hch hhead hnd hdisj hLb hfb hfl hfuel
    have ha : a = i := by simpa using hhead
    subst ha
    have hi0 : a ≠ 0 :=
      IsChain_ne_zero cfg s _ hch a (List.mem_cons_self _ _)
    have hanotf : a ∉ freeL := hdisj a (List.mem_cons_self _ _)
    have hlrb : s.lastRemoved < 2 ^ 64 :=
      IsFreeList_head_lt s freeL _ hfl hfb (by norm_num)
    cases fuel with
    | zero => simp at hfuel
    | succ f =>
      cases hch with
      | single _ hi ht hm =>
        have hnp : readNextPartM cfg s a = none := by
          rw [readNextPartM, if_neg (by rw [hm]; simp)]
        refine ⟨clearSlotM s a, ?_, rfl, ?_, ?_⟩
        · rw [clearChainM, hnp]
        · have h2 := clearSlotM_freelist s freeL a hfl hi0 hanotf hlrb
          simpa using h2
        · intro j hj
          exact clearSlotM_slots_ne s a j (by simpa using hj)
      | link _ j rest hi ht hm hn hch2 =>
        have hnp : readNextPartM cfg s a = some j := by
          rw [readNextPartM, if_pos hm, hn]
        have hanot2 : a ∉ j :: rest := (List.nodup_cons.mp hnd).1
        have hch3 : IsChain cfg (clearSlotM s a) (j :: rest) := by
          refine IsChain_congr cfg s _ _ hch2 ?_
          intro z hz
          refine clearSlotM_slots_ne s a z ?_
          intro h
          exact hanot2 (h ▸ hz)
        have hfl2 := clearSlotM_freelist s freeL a hfl hi0 hanotf hlrb
        obtain ⟨s', heq, hfill, hfree, hframe⟩ :=
          ihL (clearSlotM s a) f (a :: freeL) j hch3 rfl
            (List.nodup_cons.mp hnd).2
            (by
              intro z hz
              simp only [List.mem_cons]
              push_neg
              exact ⟨fun h => hanot2 (h ▸ hz),
                hdisj z (List.mem_cons_of_mem _ hz)⟩)
            (fun z hz => hLb z (List.mem_cons_of_mem _ hz))
            (by
              intro z hz
              rcases List.mem_cons.mp hz with rfl | hz
              · exact hLb z (List.mem_cons_self _ _)
              · exact hfb z hz)
            hfl2
            (by simp only [List.length_cons] at hfuel ⊢; omega)
        refine ⟨s', ?_, ?_, ?_, ?_⟩
        · rw [clearChainM, hnp]
          exact heq
        · rw [hfill]
          rfl
        · have hle : (a :: j :: rest).reverse ++ freeL =
              (j :: rest).reverse ++ (a :: freeL) := by
            simp
          rw [hle]
          exact hfree
        · intro q hq
          rw [hframe q (fun h => hq (List.mem_cons_of_mem _ h)),
            clearSlotM_slots_ne s a q
              (fun h => hq (h ▸ List.mem_cons_self _ _))]

theorem owc_follow (cfg : VTCfg) (hc : CfgOk cfg) (kb v : List Nat) (c : Bool)
    (hkb : kb.length ≤ PARTIAL_SIZE) :
    ∀ (fuel : Nat) (s : TState) (freeL old : List Nat)
      (remainder offset start idx : Nat),
      IsFreeList s s.lastRemoved freeL → freeL.Nodup →
      (∀ i ∈ freeL, i < s.filled) → 1 ≤ s.filled → s.filled ≤ 2 ^ 64 →
      IsChain cfg s old → old.head? = some idx → old.Nodup →
      (∀ z ∈ old, z ∉ freeL) → (∀ z ∈ old, z < s.filled) →
      old.length + remainder < fuel →
      s.filled + remainder ≤ 2 ^ 64 →
      ((offset = 0 ∧ start = 0 ∧
          remainder = v.length + (hdrBytes cfg kb 0).length) ∨
        (0 < offset ∧ start ≠ 0 ∧ offset + remainder = v.length)) →
      (cfg.entrySize - SIZE_SIZE < remainder → cfg.multipart = true) →
      ∃ (s' : TState) (zs : List Nat) (dropK dropN : Nat),
        overwriteChainAux cfg kb v c fuel s remainder offset start idx true =
          some ((if start = 0 then idx else start), s') ∧
        zs.head? = some idx ∧ zs.Nodup ∧
        (∀ z ∈ zs, z ≠ 0 ∧ z < s'.filled ∧
          (z ∈ old ∨ z ∈ freeL.take dropN ∨ s.filled ≤ z)) ∧
        dropN ≤ freeL.length ∧
        s.filled ≤ s'.filled ∧ s'.filled ≤ s.filled + remainder ∧
        (∀ z ∈ old.drop dropK, z ∉ zs) ∧
        IsFreeList s' s'.lastRemoved
          ((old.drop dropK).reverse ++ freeL.drop dropN) ∧
        (∀ z ∈ zs, z ∉ freeL.drop dropN) ∧
        (∀ j, j ∉ zs → j ∉ old.drop dropK → s'.slots j = s.slots j) ∧
        ChainEnc cfg s'.slots v kb c zs offset remainder := by
  intro fuel
  induction fuel with
  | zero =>
    intro s freeL old remainder offset start idx _ _ _ _ _ _ _ _ _ _ hfuel
    omega
  | succ f ih =>
    intro s freeL old remainder offset start idx hf hnd hlt hfp hf64 hch
      hohead hond hodisj holt hfuel hroom hphase hmpc
    have hSI : SIZE_SIZE = 2 := rfl
    have hII : INDEX_SIZE = 8 := rfl
    have hes : 32 ≤ cfg.entrySize := hc.minSize
    obtain ⟨oldt, holdeq⟩ : ∃ t, old = idx :: t := by
      cases old with
      | nil => simp at hohead
      | cons a t => exact ⟨t, by rw [show a = idx from by simpa using hohead]⟩
    subst holdeq
    have hidx0 : idx ≠ 0 :=
      IsChain_ne_zero cfg s _ hch idx (List.mem_cons_self _ _)
    have hsne : (if start = 0 then idx else start) ≠ 0 := by
      rcases hphase with ⟨_, hs0, _⟩ | ⟨_, hs0, _⟩
      · rw [hs0, if_pos rfl]
        exact hidx0
      · rw [if_neg hs0]; exact hs0
    have hidxlt : idx < s.filled := holt idx (List.mem_cons_self _ _)
    have hidxf : idx ∉ freeL := hodisj idx (List.mem_cons_self _ _)
    have hidxnott : idx ∉ oldt := (List.nodup_cons.mp hond).1
    rw [overwriteChainAux_unfold _ _ _ _ _ _ _ _ _ _ _ (Nat.succ_pos f)]
    simp only [if_true, Nat.succ_sub_one]
    by_cases hrem : cfg.entrySize - SIZE_SIZE < remainder
    · -- multipart slot
      rw [if_pos hrem]
      have hmp := hmpc hrem
      have hmph := hc.mpHead hmp
      simp only [SIZE_SIZE, INDEX_SIZE, REFS_SIZE, PARTIAL_SIZE] at hmph
      have hwr : (hdrBytes cfg kb offset).length ≤ 30 := by
        rcases hphase with ⟨ho, _, _⟩ | ⟨ho, _, _⟩
        · rw [ho, hdrBytes_zero_length]
          simp only [PARTIAL_SIZE] at hkb
          split <;> omega
        · rw [hdrBytes_pos cfg kb offset ho]
          simp
      have hvl : (hdrBytes cfg kb offset).length <
          cfg.entrySize - SIZE_SIZE - INDEX_SIZE := by omega
      have hphs : (offset = 0 ∧ start = 0 ∧
          remainder = v.length + (hdrBytes cfg kb offset).length) ∨
          (0 < offset ∧ start ≠ 0 ∧ offset + remainder = v.length) := by
        rcases hphase with ⟨ho, hs0, hr⟩ | h2
        · exact Or.inl ⟨ho, hs0, by rw [ho]; exact hr⟩
        · exact Or.inr h2
      have hphase2 :
          (0 < offset + ((cfg.entrySize - SIZE_SIZE - INDEX_SIZE) -
              (hdrBytes cfg kb offset).length) ∧
            (if start = 0 then idx else start) ≠ 0 ∧
            (offset + ((cfg.entrySize - SIZE_SIZE - INDEX_SIZE) -
              (hdrBytes cfg kb offset).length)) +
              (remainder - (cfg.entrySize - SIZE_SIZE - INDEX_SIZE)) =
              v.length) := by
        have hXle : cfg.entrySize - SIZE_SIZE - INDEX_SIZE ≤ remainder := by
          omega
        refine ⟨?_, hsne, ?_⟩
        · generalize hX : cfg.entrySize - SIZE_SIZE - INDEX_SIZE = X at hvl ⊢
          omega
        · rcases hphs with ⟨ho, hs0, hr⟩ | ⟨ho, hs0, hr⟩
          · subst ho
            generalize hX : cfg.entrySize - SIZE_SIZE - INDEX_SIZE = X
              at hvl hXle ⊢
            generalize hW : (hdrBytes cfg kb 0).length = W at hvl hr ⊢
            omega
          · rw [hdrBytes_pos cfg kb offset ho] at hvl ⊢
            simp only [List.length_nil] at hvl ⊢
            generalize hX : cfg.entrySize - SIZE_SIZE - INDEX_SIZE = X
              at hvl hXle ⊢
            omega
      have htag : (if start = 0 then MULTIHEAD else MULTIPART) =
          (if offset = 0 then MULTIHEAD else MULTIPART) := by
        rcases hphase with ⟨ho, hs0, _⟩ | ⟨ho, hs0, _⟩
        · rw [ho, hs0]
        · rw [if_neg hs0, if_neg (by omega)]
      cases hcase : oldt with
      | cons j rest =>
        -- keep following the existing chain
        subst hcase
        have hj0 : j ≠ 0 :=
          IsChain_ne_zero cfg s _ hch j
            (List.mem_cons_of_mem _ (List.mem_cons_self _ _))
        cases hch with
        | link _ _ _ hi ht hm hn hch2 =>
          have hnp : readNextPartM cfg s idx = some j := by
            rw [readNextPartM, if_pos hm, hn]
          rw [hnp]
          simp only [if_true]
          set s2 := writeSlot s idx
            ((if start = 0 then MULTIHEAD else MULTIPART) ++ le64 j ++
              hdrBytes cfg kb offset ++
              sliceL v offset
                ((cfg.entrySize - SIZE_SIZE - INDEX_SIZE) -
                  (hdrBytes cfg kb offset).length)) with hs2
          have hs2filled : s2.filled = s.filled := rfl
          have hs2lr : s2.lastRemoved = s.lastRemoved := rfl
          have hs2slots : ∀ q, q ≠ idx → s2.slots q = s.slots q := by
            intro q hq
            rw [hs2, writeSlot_slots_ne _ _ _ _ hq]
          have hfree2 : IsFreeList s2 s2.lastRemoved freeL := by
            rw [hs2lr]
            refine IsFreeList_congr s s2 _ _ hf ?_
            intro q hq
            refine hs2slots q ?_
            intro h
            exact hidxf (h ▸ hq)
          have hch3 : IsChain cfg s2 (j :: rest) := by
            refine IsChain_congr cfg s s2 _ hch2 ?_
            intro q hq
            refine hs2slots q ?_
            intro h
            exact hidxnott (h ▸ hq)
          obtain ⟨s', zs', dropK', dropN', heq', hhead', hnd', hmem',
              hdropN', hfl1', hfl2', hclr', hfree', hnotin', hframe',
              henc'⟩ :=
            ih s2 freeL (j :: rest)
              (remainder - (cfg.entrySize - SIZE_SIZE - INDEX_SIZE))
              (offset + ((cfg.entrySize - SIZE_SIZE - INDEX_SIZE) -
                (hdrBytes cfg kb offset).length))
              (if start = 0 then idx else start) j
              hfree2 hnd
              (by
                intro q hq
                rw [hs2filled]
                exact hlt q hq)
              (by rw [hs2filled]; omega) (by rw [hs2filled]; omega)
              hch3 rfl (List.nodup_cons.mp hond).2
              (fun q hq => hodisj q (List.mem_cons_of_mem _ hq))
              (by
                intro q hq
                rw [hs2filled]
                exact holt q (List.mem_cons_of_mem _ hq))
              (by
                simp only [List.length_cons] at hfuel ⊢
                omega)
              (by rw [hs2filled]; omega)
              (Or.inr hphase2) (fun _ => hmp)
          have hidxnot : idx ∉ zs' := by
            intro hmem
            rcases (hmem' idx hmem).2.2 with h1 | h1 | h1
            · exact absurd h1 (by
                intro h2
                rcases List.mem_cons.mp h2 with h3 | h3
                · exact hidxnott (h3 ▸ List.mem_cons_self _ _)
                · exact hidxnott (List.mem_cons_of_mem _ h3))
            · exact hidxf (List.take_subset _ _ h1)
            · rw [hs2filled] at h1; omega
          refine ⟨s', idx :: zs', dropK' + 1, dropN', ?_, by simp, ?_, ?_,
            hdropN', ?_, ?_, ?_, ?_, ?_, ?_, ?_⟩
          · rw [heq', if_neg hsne]
          · exact List.nodup_cons.mpr ⟨hidxnot, hnd'⟩
          · intro z hz
            rcases List.mem_cons.mp hz with rfl | hz
            · refine ⟨hidx0, ?_, Or.inl (List.mem_cons_self _ _)⟩
              have h2 := hfl1'
              rw [hs2filled] at h2
              omega
            · obtain ⟨hz0, hzlt, hzloc⟩ := hmem' z hz
              refine ⟨hz0, hzlt, ?_⟩
              rcases hzloc with h1 | h1 | h1
              · exact Or.inl (List.mem_cons_of_mem _ h1)
              · exact Or.inr (Or.inl h1)
              · right; right
                rw [hs2filled] at h1
                omega
          · rw [hs2filled] at hfl1'; omega
          · rw [hs2filled] at hfl2'; omega
          · intro z hz
            rw [List.drop_succ_cons] at hz
            intro h2
            rcases List.mem_cons.mp h2 with rfl | h2
            · exact hidxnott (List.drop_subset _ _ hz)
            · exact hclr' z hz h2
          · rw [List.drop_succ_cons]
            exact hfree'
          · intro z hz
            rcases List.mem_cons.mp hz with rfl | hz
            · intro h
              exact hidxf (List.drop_subset _ _ h)
            · exact hnotin' z hz
          · intro q hq hq2
            rw [List.drop_succ_cons] at hq2
            have hq1 : q ≠ idx := by
              intro h
              exact hq (h ▸ List.mem_cons_self _ _)
            have hq3 : q ∉ zs' := fun h => hq (List.mem_cons_of_mem _ h)
            rw [hframe' q hq3 hq2, hs2slots q hq1]
          · have hslotidx : s'.slots idx =
                (if offset = 0 then MULTIHEAD else MULTIPART) ++ le64 j ++
                  hdrBytes cfg kb offset ++
                  sliceL v offset
                    ((cfg.entrySize - SIZE_SIZE - INDEX_SIZE) -
                      (hdrBytes cfg kb offset).length) := by
              rw [hframe' idx hidxnot (by
                  intro h
                  exact hidxnott (List.drop_subset _ _ h)),
                hs2, writeSlot_slots_eq, htag]
            have hjlt : j < s.filled :=
              holt j (List.mem_cons_of_mem _ (List.mem_cons_self _ _))
            cases zs' with
            | nil => simp at hhead'
            | cons z0 rest' =>
              have hz0 : z0 = j := by simpa using hhead'
              subst hz0
              exact ChainEnc.more idx z0 rest' offset remainder hrem hmp
                (by omega) hj0 hslotidx henc'
      | nil =>
        -- the old chain is exhausted: allocate as in the fresh case
        subst hcase
        cases hch with
        | single _ _ ht hm =>
          have hnp : readNextPartM cfg s idx = none := by
            rw [readNextPartM, if_neg (by rw [hm]; simp)]
          rw [hnp]
          simp only [Bool.false_eq_true, if_false]
          rcases nextFreeM_cases s freeL hf with
            ⟨hlr0, hfe, hnf⟩ | ⟨hlr0, hfe, htomb, hrest, hnf⟩
          · rw [hnf]
            set s2 := writeSlot { s with filled := s.filled + 1 } idx
              ((if start = 0 then MULTIHEAD else MULTIPART) ++
                le64 s.filled ++ hdrBytes cfg kb offset ++
                sliceL v offset
                  ((cfg.entrySize - SIZE_SIZE - INDEX_SIZE) -
                    (hdrBytes cfg kb offset).length)) with hs2
            have hs2filled : s2.filled = s.filled + 1 := rfl
            have hs2lr : s2.lastRemoved = s.lastRemoved := rfl
            have hs2slots : ∀ q, q ≠ idx → s2.slots q = s.slots q := by
              intro q hq
              rw [hs2, writeSlot_slots_ne _ _ _ _ hq]
            have hfree2 : IsFreeList s2 s2.lastRemoved [] := by
              rw [hs2lr, hlr0]
              exact IsFreeList.nil
            obtain ⟨s', zs', dropN', heq', hhead', hnd', hmem', hdropN',
                hfl1', hfl2', hfree', hnotin', hframe', henc'⟩ :=
              owc_fresh cfg hc kb v c hkb f s2 []
                (remainder - (cfg.entrySize - SIZE_SIZE - INDEX_SIZE))
                (offset + ((cfg.entrySize - SIZE_SIZE - INDEX_SIZE) -
                  (hdrBytes cfg kb offset).length))
                (if start = 0 then idx else start) s.filled
                hfree2 (by simp) (by simp)
                (by rw [hs2filled]; omega) (by rw [hs2filled]; omega)
                (by omega) (by rw [hs2filled]; omega) (by simp)
                (by simp only [List.length_cons] at hfuel; omega)
                (by rw [hs2filled]; omega)
                (Or.inr hphase2) (fun _ => hmp)
            have hidxnot : idx ∉ zs' := by
              intro hmem
              rcases (hmem' idx hmem).2.2 with h1 | h1 | h1
              · omega
              · exact absurd h1 (by simp)
              · rw [hs2filled] at h1; omega
            refine ⟨s', idx :: zs', 1, dropN', ?_, by simp, ?_, ?_,
              by rw [hfe]; exact hdropN', ?_, ?_, ?_, ?_, ?_, ?_, ?_⟩
            · rw [heq', if_neg hsne]
            · exact List.nodup_cons.mpr ⟨hidxnot, hnd'⟩
            · intro z hz
              rcases List.mem_cons.mp hz with rfl | hz
              · refine ⟨hidx0, ?_, Or.inl (List.mem_cons_self _ _)⟩
                have h2 := hfl1'
                rw [hs2filled] at h2
                omega
              · obtain ⟨hz0, hzlt, hzloc⟩ := hmem' z hz
                refine ⟨hz0, hzlt, ?_⟩
                rcases hzloc with h1 | h1 | h1
                · right; right; omega
                · exact absurd h1 (by simp)
                · right; right
                  rw [hs2filled] at h1
                  omega
            · rw [hs2filled] at hfl1'; omega
            · rw [hs2filled] at hfl2'; omega
            · intro z hz
              simp at hz
            · simp only [List.drop_succ_cons, List.drop_nil,
                List.reverse_nil, List.nil_append]
              rw [hfe]
              simpa using hfree'
            · intro z hz
              rw [hfe]
              simp
            · intro q hq hq2
              have hq1 : q ≠ idx := by
                intro h
                exact hq (h ▸ List.mem_cons_self _ _)
              have hq3 : q ∉ zs' := fun h => hq (List.mem_cons_of_mem _ h)
              rw [hframe' q hq3, hs2slots q hq1]
            · have hslotidx : s'.slots idx =
                  (if offset = 0 then MULTIHEAD else MULTIPART) ++
                    le64 s.filled ++ hdrBytes cfg kb offset ++
                    sliceL v offset
                      ((cfg.entrySize - SIZE_SIZE - INDEX_SIZE) -
                        (hdrBytes cfg kb offset).length) := by
                rw [hframe' idx hidxnot, hs2, writeSlot_slots_eq, htag]
              cases zs' with
              | nil => simp at hhead'
              | cons z0 rest' =>
                have hz0 : z0 = s.filled := by simpa using hhead'
                subst hz0
                exact ChainEnc.more idx s.filled rest' offset remainder hrem
                  hmp (by omega) (by omega) hslotidx henc'
          · rw [hnf]
            have hmemhead : s.lastRemoved ∈ freeL := by
              rw [hfe]; exact List.mem_cons_self _ _
            have hnextlt : s.lastRemoved < s.filled := hlt _ hmemhead
            have hndtail : freeL.tail.Nodup := by
              rw [hfe] at hnd
              exact (List.nodup_cons.mp hnd).2
            have hheadnot : s.lastRemoved ∉ freeL.tail := by
              have h2 := hnd
              rw [hfe] at h2
              exact (List.nodup_cons.mp h2).1
            set s2 := writeSlot
              { s with lastRemoved := nextPtrOf (s.slots s.lastRemoved) } idx
              ((if start = 0 then MULTIHEAD else MULTIPART) ++
                le64 s.lastRemoved ++ hdrBytes cfg kb offset ++
                sliceL v offset
                  ((cfg.entrySize - SIZE_SIZE - INDEX_SIZE) -
                    (hdrBytes cfg kb offset).length)) with hs2
            have hs2filled : s2.filled = s.filled := rfl
            have hs2lr : s2.lastRemoved =
                nextPtrOf (s.slots s.lastRemoved) := rfl
            have hs2slots : ∀ q, q ≠ idx → s2.slots q = s.slots q := by
              intro q hq
              rw [hs2, writeSlot_slots_ne _ _ _ _ hq]
            have hidxtail : idx ∉ freeL.tail := by
              intro h
              exact hidxf (by rw [hfe]; exact List.mem_cons_of_mem _ h)
            have hfree2 : IsFreeList s2 s2.lastRemoved freeL.tail := by
              rw [hs2lr]
              refine IsFreeList_congr s s2 _ _ hrest ?_
              intro q hq
              refine hs2slots q ?_
              intro h
              exact hidxtail (h ▸ hq)
            obtain ⟨s', zs', dropN', heq', hhead', hnd', hmem', hdropN',
                hfl1', hfl2', hfree', hnotin', hframe', henc'⟩ :=
              owc_fresh cfg hc kb v c hkb f s2 freeL.tail
                (remainder - (cfg.entrySize - SIZE_SIZE - INDEX_SIZE))
                (offset + ((cfg.entrySize - SIZE_SIZE - INDEX_SIZE) -
                  (hdrBytes cfg kb offset).length))
                (if start = 0 then idx else start) s.lastRemoved
                hfree2 hndtail
                (by
                  intro q hq
                  rw [hs2filled]
                  exact hlt q (by rw [hfe]; exact List.mem_cons_of_mem _ hq))
                (by rw [hs2filled]; omega) (by rw [hs2filled]; omega)
                hlr0 (by rw [hs2filled]; omega) hheadnot
                (by simp only [List.length_cons] at hfuel; omega)
                (by rw [hs2filled]; omega)
                (Or.inr hphase2) (fun _ => hmp)
            have hidxnot : idx ∉ zs' := by
              intro hmem
              rcases (hmem' idx hmem).2.2 with h1 | h1 | h1
              · exact hidxf (h1 ▸ hmemhead)
              · exact hidxtail (List.take_subset _ _ h1)
              · rw [hs2filled] at h1; omega
            have hdropeq : freeL.drop (dropN' + 1) = freeL.tail.drop dropN' := by
              rw [hfe]
              rfl
            refine ⟨s', idx :: zs', 1, dropN' + 1, ?_, by simp, ?_, ?_, ?_,
              ?_, ?_, ?_, ?_, ?_, ?_, ?_⟩
            · rw [heq', if_neg hsne]
            · exact List.nodup_cons.mpr ⟨hidxnot, hnd'⟩
            · intro z hz
              rcases List.mem_cons.mp hz with rfl | hz
              · refine ⟨hidx0, ?_, Or.inl (List.mem_cons_self _ _)⟩
                have h2 := hfl1'
                rw [hs2filled] at h2
                omega
              · obtain ⟨hz0, hzlt, hzloc⟩ := hmem' z hz
                refine ⟨hz0, hzlt, ?_⟩
                rcases hzloc with h1 | h1 | h1
                · right; left
                  rw [h1, hfe, List.take_succ_cons]
                  exact List.mem_cons_self _ _
                · right; left
                  rw [hfe, List.take_succ_cons]
                  exact List.mem_cons_of_mem _ h1
                · right; right
                  rw [hs2filled] at h1
                  omega
            · have hlen : freeL.length = freeL.tail.length + 1 := by
                rw [hfe]
                simp
              omega
            · rw [hs2filled] at hfl1'; omega
            · rw [hs2filled] at hfl2'; omega
            · intro z hz
              simp at hz
            · simp only [List.drop_succ_cons, List.drop_nil,
                List.reverse_nil, List.nil_append]
              rw [hdropeq]
              exact hfree'
            · intro z hz
              rw [hdropeq]
              rcases List.mem_cons.mp hz with rfl | hz
              · intro h
                exact hidxtail (List.drop_subset _ _ h)
              · exact hnotin' z hz
            · intro q hq hq2
              have hq1 : q ≠ idx := by
                intro h
                exact hq (h ▸ List.mem_cons_self _ _)
              have hq3 : q ∉ zs' := fun h => hq (List.mem_cons_of_mem _ h)
              rw [hframe' q hq3, hs2slots q hq1]
            · have hslotidx : s'.slots idx =
                  (if offset = 0 then MULTIHEAD else MULTIPART) ++
                    le64 s.lastRemoved ++ hdrBytes cfg kb offset ++
                    sliceL v offset
                      ((cfg.entrySize - SIZE_SIZE - INDEX_SIZE) -
                        (hdrBytes cfg kb offset).length) := by
                rw [hframe' idx hidxnot, hs2, writeSlot_slots_eq, htag]
              cases zs' with
              | nil => simp at hhead'
              | cons z0 rest' =>
                have hz0 : z0 = s.lastRemoved := by simpa using hhead'
                subst hz0
                exact ChainEnc.more idx s.lastRemoved rest' offset remainder
                  hrem hmp (by omega) hlr0 hslotidx henc'
    · -- final slot of the new chain
      rw [if_neg hrem]
      set s2 := writeSlot s idx
        (mkSizeWord remainder c ++ hdrBytes cfg kb offset ++
          sliceL v offset (remainder - (hdrBytes cfg kb offset).length))
        with hs2
      have hs2filled : s2.filled = s.filled := rfl
      have hs2lr : s2.lastRemoved = s.lastRemoved := rfl
      have hs2slots : ∀ q, q ≠ idx → s2.slots q = s.slots q := by
        intro q hq
        rw [hs2, writeSlot_slots_ne _ _ _ _ hq]
      cases hcase : oldt with
      | nil =>
        subst hcase
        cases hch with
        | single _ _ ht hm =>
          have hnp : readNextPartM cfg s idx = none := by
            rw [readNextPartM, if_neg (by rw [hm]; simp)]
          rw [hnp]
          rw [if_neg (by simp)]
          refine ⟨s2, [idx], 1, 0, rfl, rfl, by simp, ?_, by simp, ?_, ?_,
            ?_, ?_, ?_, ?_, ?_⟩
          · intro z hz
            rcases List.mem_singleton.mp hz with rfl
            exact ⟨hidx0, by rw [hs2filled]; omega,
              Or.inl (List.mem_cons_self _ _)⟩
          · rw [hs2filled]
          · rw [hs2filled]; omega
          · intro z hz
            simp at hz
          · simp only [List.drop_succ_cons, List.drop_nil,
              List.reverse_nil, List.nil_append, List.drop_zero]
            rw [hs2lr]
            refine IsFreeList_congr s s2 _ _ hf ?_
            intro q hq
            refine hs2slots q ?_
            intro h
            exact hidxf (h ▸ hq)
          · intro z hz
            rcases List.mem_singleton.mp hz with rfl
            rw [List.drop_zero]
            exact hidxf
          · intro q hq hq2
            exact hs2slots q (by simpa using hq)
          · refine ChainEnc.last idx offset remainder (by omega) ?_
            rw [hs2, writeSlot_slots_eq]
      | cons j rest =>
        subst hcase
        have hj0 : j ≠ 0 :=
          IsChain_ne_zero cfg s _ hch j
            (List.mem_cons_of_mem _ (List.mem_cons_self _ _))
        cases hch with
        | link _ _ _ hi ht hm hn hch2 =>
          have hnp : readNextPartM cfg s idx = some j := by
            rw [readNextPartM, if_pos hm, hn]
          rw [hnp]
          simp only [if_true]
          rw [if_pos hj0]
          have hch3 : IsChain cfg s2 (j :: rest) := by
            refine IsChain_congr cfg s s2 _ hch2 ?_
            intro q hq
            refine hs2slots q ?_
            intro h
            exact hidxnott (h ▸ hq)
          have hfree2 : IsFreeList s2 s2.lastRemoved freeL := by
            rw [hs2lr]
            refine IsFreeList_congr s s2 _ _ hf ?_
            intro q hq
            refine hs2slots q ?_
            intro h
            exact hidxf (h ▸ hq)
          obtain ⟨s3, heq3, hfill3, hfree3, hframe3⟩ :=
            clearChainM_spec cfg (j :: rest) s2 f freeL j hch3 rfl
              (List.nodup_cons.mp hond).2
              (fun q hq => hodisj q (List.mem_cons_of_mem _ hq))
              (by
                intro q hq
                have h2 := holt q (List.mem_cons_of_mem _ hq)
                omega)
              (by
                intro q hq
                have h2 := hlt q hq
                omega)
              hfree2
              (by simp only [List.length_cons] at hfuel ⊢; omega)
          rw [heq3]
          refine ⟨s3, [idx], 1, 0, rfl, rfl, by simp, ?_, by simp, ?_, ?_,
            ?_, ?_, ?_, ?_, ?_⟩
          · intro z hz
            rcases List.mem_singleton.mp hz with rfl
            refine ⟨hidx0, ?_, Or.inl (List.mem_cons_self _ _)⟩
            rw [hfill3, hs2filled]
            omega
          · rw [hfill3, hs2filled]
          · rw [hfill3, hs2filled]; omega
          · intro z hz
            rw [List.drop_succ_cons, List.drop_zero] at hz
            intro h2
            rcases List.mem_singleton.mp h2 with rfl
            exact hidxnott hz
          · rw [List.drop_succ_cons, List.drop_zero, List.drop_zero]
            exact hfree3
          · intro z hz
            rcases List.mem_singleton.mp hz with rfl
            rw [List.drop_zero]
            exact hidxf
          · intro q hq hq2
            rw [List.drop_succ_cons, List.drop_zero] at hq2
            rw [hframe3 q hq2]
            exact hs2slots q (by simpa using hq)
          · refine ChainEnc.last idx offset remainder (by omega) ?_
            rw [hframe3 idx hidxnott, hs2, writeSlot_slots_eq]

theorem isTomb_congr (bs bs2 : List Nat)
    (h : bs.take SIZE_SIZE = bs2.take SIZE_SIZE) : isTomb bs = isTomb bs2 := by
  rw [isTomb, isTomb, h]

theorem isMultiSlot_congr (cfg : VTCfg) (bs bs2 : List Nat)
    (h : bs.take SIZE_SIZE = bs2.take SIZE_SIZE) :
    isMultiSlot cfg bs = isMultiSlot cfg bs2 := by
  rw [isMultiSlot, isMultiSlot, isMultiTag, isMultiTag, h]

theorem IsChain_of_ChainEnc (cfg : VTCfg) (hc : CfgOk cfg) (s : TState)
    (v kb : List Nat) (c : Bool) :
    ∀ (zs : List Nat) (offset remainder : Nat),
      ChainEnc cfg s.slots v kb c zs offset remainder →
      (∀ z ∈ zs, z ≠ 0) →
      IsChain cfg s zs := by
  intro zs offset remainder henc
  induction henc with
  | last z offset remainder hle hslot =>
    intro hz0
    have hSI : SIZE_SIZE = 2 := rfl
    have hmax : remainder ≤ 0x7ff6 := by
      have h1 := hc.maxSize
      simp only [MAX_ENTRY_SIZE] at h1
      omega
    refine IsChain.single z (hz0 z (List.mem_cons_self _ _)) ?_ ?_
    · rw [hslot, List.append_assoc]
      exact isTomb_mk _ _ _ hmax
    · rw [hslot, List.append_assoc]
      exact isMultiSlot_mk_false cfg _ _ _ hc.ver hmax
  | more z z' rest offset remainder hlt hmp hz64 hzne hslot htail ih =>
    intro hz0
    have htag : ∀ rest2 : List Nat,
        isTomb ((if offset = 0 then MULTIHEAD else MULTIPART) ++ rest2) =
          false ∧
        isMultiSlot cfg
          ((if offset = 0 then MULTIHEAD else MULTIPART) ++ rest2) = true := by
      intro rest2
      by_cases ho : offset = 0
      · rw [if_pos ho]
        exact ⟨isTomb_head _, isMultiSlot_head_true cfg _ hmp⟩
      · rw [if_neg ho]
        exact ⟨isTomb_part _, isMultiSlot_part_true cfg _ hmp⟩
    refine IsChain.link z z' rest (hz0 z (List.mem_cons_self _ _)) ?_ ?_ ?_ ?_
    · rw [hslot, List.append_assoc, List.append_assoc]
      exact (htag _).1
    · rw [hslot, List.append_assoc, List.append_assoc]
      exact (htag _).2
    · rw [hslot]
      by_cases ho : offset = 0
      · rw [if_pos ho, List.append_assoc]
        exact nextPtrOf_head_lt _ _ hz64
      · rw [if_neg ho, List.append_assoc]
        exact nextPtrOf_part_lt _ _ hz64
    · exact ih (fun q hq => hz0 q (List.mem_cons_of_mem _ hq))

theorem ChainEnc_slotLen (cfg : VTCfg) (hc : CfgOk cfg) (s : TState)
    (v kb : List Nat) (c : Bool) :
    ∀ (zs : List Nat) (offset remainder : Nat),
      ChainEnc cfg s.slots v kb c zs offset remainder →
      ∀ z ∈ zs, SlotLen cfg (s.slots z) := by
  intro zs offset remainder henc
  induction henc with
  | last z offset remainder hle hslot =>
    intro q hq
    rcases List.mem_singleton.mp hq with rfl
    have hmax : remainder ≤ 0x7ff6 := by
      have h1 := hc.maxSize
      have hSI : SIZE_SIZE = 2 := rfl
      simp only [MAX_ENTRY_SIZE] at h1
      omega
    constructor
    · rw [hslot]
      simp only [List.length_append, mkSizeWord_length, SIZE_SIZE]
      omega
    · intro hmulti
      rw [hslot, List.append_assoc] at hmulti
      rw [isMultiSlot_mk_false cfg _ _ _ hc.ver hmax] at hmulti
      exact absurd hmulti (by simp)
  | more z z' rest offset remainder hlt hmp hz64 hzne hslot htail ih =>
    intro q hq
    rcases List.mem_cons.mp hq with rfl | hq
    · have hlen : SIZE_SIZE + INDEX_SIZE ≤ (s.slots q).length := by
        rw [hslot]
        simp only [List.length_append, le64_length]
        have htl : (if offset = 0 then MULTIHEAD else MULTIPART).length = 2 := by
          by_cases ho : offset = 0
          · rw [if_pos ho]; rfl
          · rw [if_neg ho]; rfl
        rw [htl]
        simp only [SIZE_SIZE, INDEX_SIZE]
        omega
      exact ⟨by simp only [SIZE_SIZE, INDEX_SIZE] at hlen ⊢; omega, fun _ => hlen⟩
    · exact ih q hq

theorem chainSlots_of_IsChain (cfg : VTCfg) (s : TState) :
    ∀ (L : List Nat) (fuel i : Nat),
      IsChain cfg s L → L.head? = some i → L.length ≤ fuel →
      chainSlots cfg s fuel i = L := by
  intro L
  induction L with
  | nil =>
    intro fuel i hch hhead
    simp at hhead
  | cons a L2 ihL =>
    intro fuel i hch hhead hfuel
    have ha : a = i := by simpa using hhead
    subst ha
    cases fuel with
    | zero => simp at hfuel
    | succ f =>
      cases hch with
      | single _ hi ht hm =>
        rw [chainSlots, readNextPartM, if_neg (by rw [hm]; simp)]
      | link _ j rest hi ht hm hn hch2 =>
        rw [chainSlots, readNextPartM, if_pos hm, hn]
        show a :: chainSlots cfg s f j = a :: j :: rest
        rw [ihL f j hch2 rfl
          (by simp only [List.length_cons] at hfuel ⊢; omega)]

theorem newRc_take_size (bs mid rest2 : List Nat) (rcOff : Nat)
    (h2 : SIZE_SIZE ≤ rcOff) (hlen : rcOff ≤ bs.length) :
    (bs.take rcOff ++ mid ++ rest2).take SIZE_SIZE = bs.take SIZE_SIZE := by
  have hAl : (bs.take rcOff).length = rcOff := by
    rw [List.length_take]
    omega
  rw [List.take_append_of_le_length (by
    rw [List.length_append, hAl]
    omega)]
  rw [List.take_append_of_le_length (by rw [hAl]; omega)]
  rw [List.take_take]
  congr 1
  omega

theorem newRc_next_ptr (bs mid rest2 : List Nat)
    (hlen : SIZE_SIZE + INDEX_SIZE ≤ bs.length) :
    sliceL (bs.take (SIZE_SIZE + INDEX_SIZE) ++ mid ++ rest2) SIZE_SIZE
        INDEX_SIZE =
      sliceL bs SIZE_SIZE INDEX_SIZE := by
  have hAl : (bs.take (SIZE_SIZE + INDEX_SIZE)).length =
      SIZE_SIZE + INDEX_SIZE := by
    rw [List.length_take]
    omega
  have hdl : ((bs.take (SIZE_SIZE + INDEX_SIZE)).drop SIZE_SIZE).length =
      INDEX_SIZE := by
    rw [List.length_drop, hAl]
    omega
  rw [sliceL, sliceL]
  rw [List.drop_append_of_le_length (by
    rw [List.length_append, hAl]
    omega)]
  rw [List.drop_append_of_le_length (by rw [hAl]; omega)]
  rw [List.append_assoc]
  rw [List.take_append_of_le_length (by rw [hdl])]
  rw [List.take_of_length_le (le_of_eq hdl)]
  rw [List.drop_take]
  have he : SIZE_SIZE + INDEX_SIZE - SIZE_SIZE = INDEX_SIZE := by omega
  rw [he]

theorem changeRefM_preserves (cfg : VTCfg) (s : TState) (i : Nat) (d : Int)
    (hlen : SlotLen cfg (s.slots i)) :
    (∀ j, j ≠ i → ((changeRefM cfg s i d).2).slots j = s.slots j) ∧
    ((changeRefM cfg s i d).2).filled = s.filled ∧
    ((changeRefM cfg s i d).2).lastRemoved = s.lastRemoved ∧
    isTomb (((changeRefM cfg s i d).2).slots i) = isTomb (s.slots i) ∧
    isMultiSlot cfg (((changeRefM cfg s i d).2).slots i) =
      isMultiSlot cfg (s.slots i) ∧
    (isMultiSlot cfg (s.slots i) = true →
      nextPtrOf (((changeRefM cfg s i d).2).slots i) =
        nextPtrOf (s.slots i)) ∧
    SlotLen cfg (((changeRefM cfg s i d).2).slots i) := by
  have hSI : SIZE_SIZE = 2 := rfl
  have hII : INDEX_SIZE = 8 := rfl
  simp only [changeRefM]
  split
  · exact ⟨fun j _ => rfl, rfl, rfl, rfl, rfl, fun _ => rfl, hlen⟩
  · split
    · exact ⟨fun j _ => rfl, rfl, rfl, rfl, rfl, fun _ => rfl, hlen⟩
    · rename_i c2 hupd
      set rcOff := if isMultiSlot cfg (s.slots i) = true then
        SIZE_SIZE + INDEX_SIZE else SIZE_SIZE with hrc
      have hrc2 : SIZE_SIZE ≤ rcOff := by
        rw [hrc]
        split <;> omega
      have hrclen : rcOff ≤ (s.slots i).length := by
        rw [hrc]
        split
        · rename_i hm
          exact hlen.2 hm
        · exact hlen.1
      have hsl0 : sliceL (s.slots i) 0 rcOff = (s.slots i).take rcOff := by
        rw [sliceL, List.drop_zero]
      have htake : (writeSlot s i (sliceL (s.slots i) 0 rcOff ++ le32 c2 ++
          sliceL (s.slots i) (rcOff + REFS_SIZE)
            ((if isMultiSlot cfg (s.slots i) = true then cfg.entrySize
              else SIZE_SIZE + (readSizeOf (s.slots i)).1) - rcOff -
              REFS_SIZE))).slots i =
          (s.slots i).take rcOff ++ le32 c2 ++
          sliceL (s.slots i) (rcOff + REFS_SIZE)
            ((if isMultiSlot cfg (s.slots i) = true then cfg.entrySize
              else SIZE_SIZE + (readSizeOf (s.slots i)).1) - rcOff -
              REFS_SIZE) := by
        rw [writeSlot_slots_eq, hsl0]
      refine ⟨?_, rfl, rfl, ?_, ?_, ?_, ?_⟩
      · intro j hj
        exact writeSlot_slots_ne _ _ _ _ hj
      · rw [htake]
        exact isTomb_congr _ _ (newRc_take_size _ _ _ rcOff hrc2 hrclen)
      · rw [htake]
        exact isMultiSlot_congr cfg _ _ (newRc_take_size _ _ _ rcOff hrc2 hrclen)
      · intro hm
        rw [htake, nextPtrOf, nextPtrOf]
        have hro : rcOff = SIZE_SIZE + INDEX_SIZE := by
          rw [hrc, if_pos hm]
        rw [hro]
        rw [newRc_next_ptr _ _ _ (by
          rw [← hro]
          exact hrclen)]
      · constructor
        · rw [htake]
          simp only [List.length_append, List.length_take, le32_length]
          omega
        · intro hm2
          rw [htake] at hm2 ⊢
          rw [isMultiSlot_congr cfg _ _
            (newRc_take_size _ _ _ rcOff hrc2 hrclen)] at hm2
          have hro : rcOff = SIZE_SIZE + INDEX_SIZE := by
            rw [hrc, if_pos hm2]
          simp only [List.length_append, List.length_take, le32_length]
          have hR : REFS_SIZE = 4 := rfl
          omega

theorem flatten_mem_of_mem (pool : List (List Nat)) (ch : List Nat)
    (hch : ch ∈ pool) (q : Nat) (hq : q ∈ ch) : q ∈ pool.flatten :=
  List.mem_flatten.mpr ⟨ch, hch, hq⟩

theorem flatten_nodup_each (pool : List (List Nat))
    (h : pool.flatten.Nodup) : ∀ ch ∈ pool, ch.Nodup := by
  induction pool with
  | nil => simp
  | cons a t ih =>
    intro ch hch
    rw [List.flatten_cons] at h
    rcases List.mem_cons.mp hch with rfl | hch
    · exact h.of_append_left
    · exact ih h.of_append_right ch hch

theorem flatten_nodup_disjoint (pool : List (List Nat))
    (h : pool.flatten.Nodup) :
    ∀ ch1 ∈ pool, ∀ ch2 ∈ pool, ch1 ≠ ch2 → ∀ q ∈ ch1, q ∉ ch2 := by
  induction pool with
  | nil => simp
  | cons a t ih =>
    rw [List.flatten_cons] at h
    have hdisj := List.disjoint_of_nodup_append h
    intro ch1 h1 ch2 h2 hne q hq hq2
    rcases List.mem_cons.mp h1 with h1a | h1t
    · rcases List.mem_cons.mp h2 with h2a | h2t
      · exact hne (h1a.trans h2a.symm)
      · rw [h1a] at hq
        exact hdisj hq (flatten_mem_of_mem t ch2 h2t q hq2)
    · rcases List.mem_cons.mp h2 with h2a | h2t
      · rw [h2a] at hq2
        exact hdisj hq2 (flatten_mem_of_mem t ch1 h1t q hq)
      · exact ih h.of_append_right ch1 h1t ch2 h2t hne q hq hq2

theorem flatten_filter_sublist (pool : List (List Nat))
    (p : List Nat → Bool) :
    ((pool.filter p).flatten).Sublist pool.flatten := by
  induction pool with
  | nil => simp
  | cons a t ih =>
    rw [List.flatten_cons]
    by_cases hp : p a
    · rw [List.filter_cons_of_pos hp, List.flatten_cons]
      exact ih.append_left a
    · rw [List.filter_cons_of_neg hp]
      exact ih.trans (List.sublist_append_right a _)

theorem dropChainAt_subset (pool : List (List Nat)) (i : Nat) :
    ∀ ch ∈ dropChainAt pool i, ch ∈ pool := by
  intro ch hch
  exact List.mem_of_mem_filter hch

theorem dropChainAt_head (pool : List (List Nat)) (i : Nat) :
    ∀ ch ∈ dropChainAt pool i, ch.head? ≠ some i := by
  intro ch hch
  have h2 := List.of_mem_filter hch
  simpa using h2

theorem dropChainAt_flatten_nodup (pool : List (List Nat)) (i : Nat)
    (h : pool.flatten.Nodup) : ((dropChainAt pool i).flatten).Nodup :=
  h.sublist (flatten_filter_sublist pool _)

theorem dropChainAt_flatten_subset (pool : List (List Nat)) (i : Nat) :
    ∀ q ∈ (dropChainAt pool i).flatten, q ∈ pool.flatten := by
  intro q hq
  obtain ⟨ch, hch, hq2⟩ := List.mem_flatten.mp hq
  exact flatten_mem_of_mem pool ch (dropChainAt_subset pool i ch hch) q hq2

theorem IsChain_preserve_slot (cfg : VTCfg) (s s' : TState) (i : Nat)
    (L : List Nat) (h : IsChain cfg s L)
    (hframe : ∀ q, q ≠ i → s'.slots q = s.slots q)
    (ht : isTomb (s'.slots i) = isTomb (s.slots i))
    (hm2 : isMultiSlot cfg (s'.slots i) = isMultiSlot cfg (s.slots i))
    (hn2 : isMultiSlot cfg (s.slots i) = true →
      nextPtrOf (s'.slots i) = nextPtrOf (s.slots i)) :
    IsChain cfg s' L := by
  induction h with
  | single q hq ht2 hm3 =>
    by_cases hqi : q = i
    · subst hqi
      exact IsChain.single q hq (by rw [ht]; exact ht2) (by rw [hm2]; exact hm3)
    · exact IsChain.single q hq (by rw [hframe q hqi]; exact ht2)
        (by rw [hframe q hqi]; exact hm3)
  | link q j rest hq ht2 hm3 hn3 hch ih =>
    by_cases hqi : q = i
    · subst hqi
      exact IsChain.link q j rest hq (by rw [ht]; exact ht2)
        (by rw [hm2]; exact hm3) (by rw [hn2 hm3]; exact hn3) ih
    · exact IsChain.link q j rest hq (by rw [hframe q hqi]; exact ht2)
        (by rw [hframe q hqi]; exact hm3) (by rw [hframe q hqi]; exact hn3) ih

theorem changeRefM_false_state (cfg : VTCfg) (s : TState) (i : Nat) (d : Int) :
    (changeRefM cfg s i d).1 = false → (changeRefM cfg s i d).2 = s := by
  simp only [changeRefM]
  split
  · intro _
    rfl
  · split
    · intro _
      rfl
    · intro h
      exact absurd h (by simp)

theorem wfd_changeRef (cfg : VTCfg) (s : TState) (freeL : List Nat)
    (pool : List (List Nat)) (i : Nat) (d : Int) (ch : List Nat)
    (hw : WfD cfg s freeL pool) (hch : ch ∈ pool) (hhead : i ∈ ch) :
    WfD cfg ((changeRefM cfg s i d).2) freeL pool := by
  have hsl : SlotLen cfg (s.slots i) := hw.chainsLen ch hch i hhead
  obtain ⟨hfr, hfil, hlr, hto, hmu, hnp, hsl2⟩ :=
    changeRefM_preserves cfg s i d hsl
  have hinotf : i ∉ freeL := by
    intro h
    exact List.disjoint_of_nodup_append hw.nodupAll h
      (flatten_mem_of_mem pool ch hch i hhead)
  refine ⟨by rw [hfil]; exact hw.filledPos, by rw [hfil]; exact hw.filled64,
    ?_, by rw [hfil]; exact hw.freeLt, ?_, ?_, ?_, hw.nodupAll⟩
  · rw [hlr]
    refine IsFreeList_congr s _ _ _ hw.freeOk ?_
    intro q hq
    refine hfr q ?_
    intro h
    exact hinotf (h ▸ hq)
  · intro ch2 hch2
    exact IsChain_preserve_slot cfg s _ i ch2 (hw.chainsOk ch2 hch2) hfr hto
      hmu hnp
  · intro ch2 hch2 q hq
    rw [hfil]
    exact hw.chainsLt ch2 hch2 q hq
  · intro ch2 hch2 q hq
    by_cases hqi : q = i
    · subst hqi
      exact hsl2
    · rw [hfr q hqi]
      exact hw.chainsLen ch2 hch2 q hq

theorem wfd_remove (cfg : VTCfg) (s : TState)
    (freeL : List Nat) (pool : List (List Nat)) (i : Nat) (ch : List Nat)
    (hw : WfD cfg s freeL pool) (hch : ch ∈ pool)
    (hhead : ch.head? = some i) :
    ∃ s', writeRemovePlanM cfg s i = some s' ∧
      ∃ freeL', WfD cfg s' freeL' (dropChainAt pool i) := by
  have hflat : pool.flatten.Nodup := hw.nodupAll.of_append_right
  have hdisjf := List.disjoint_of_nodup_append hw.nodupAll
  have himem : i ∈ ch := by
    cases ch with
    | nil => simp at hhead
    | cons a t =>
      rw [show a = i from by simpa using hhead]
      exact List.mem_cons_self _ _
  have hchN : ch.Nodup := flatten_nodup_each pool hflat ch hch
  have hchd : ∀ z ∈ ch, z ∉ freeL := by
    intro z hz h2
    exact hdisjf h2 (flatten_mem_of_mem pool ch hch z hz)
  have hchlt : ∀ z ∈ ch, z < s.filled := hw.chainsLt ch hch
  have hi0 : i ≠ 0 := IsChain_ne_zero cfg s ch (hw.chainsOk ch hch) i himem
  have hother : ∀ ch2 ∈ dropChainAt pool i, ∀ q ∈ ch2, q ∉ ch := by
    intro ch2 hch2 q hq
    have hne : ch2 ≠ ch := by
      intro h
      exact dropChainAt_head pool i ch2 hch2 (h ▸ hhead)
    exact flatten_nodup_disjoint pool hflat ch2
      (dropChainAt_subset pool i ch2 hch2) ch hch hne q hq
  by_cases hm : cfg.multipart
  · obtain ⟨s', heq, hfill, hfree, hframe⟩ :=
      clearChainM_spec cfg ch s (s.filled + 1) freeL i
        (hw.chainsOk ch hch) hhead hchN hchd
        (fun z hz => by
          have h2 := hchlt z hz
          have h3 := hw.filled64
          omega)
        (fun z hz => by
          have h2 := hw.freeLt z hz
          have h3 := hw.filled64
          omega)
        hw.freeOk
        (by
          have h2 := nodup_length_le ch s.filled hchN hchlt
          omega)
    refine ⟨s', by rw [writeRemovePlanM, if_pos hm]; exact heq,
      ch.reverse ++ freeL, ?_, ?_, ?_, ?_, ?_, ?_, ?_, ?_⟩
    · rw [hfill]; exact hw.filledPos
    · rw [hfill]; exact hw.filled64
    · exact hfree
    · intro q hq
      rw [hfill]
      rcases List.mem_append.mp hq with hq | hq
      · exact hchlt q (List.mem_reverse.mp hq)
      · exact hw.freeLt q hq
    · intro ch2 hch2
      refine IsChain_congr cfg s s' ch2
        (hw.chainsOk ch2 (dropChainAt_subset pool i ch2 hch2)) ?_
      intro q hq
      exact hframe q (hother ch2 hch2 q hq)
    · intro ch2 hch2 q hq
      rw [hfill]
      exact hw.chainsLt ch2 (dropChainAt_subset pool i ch2 hch2) q hq
    · intro ch2 hch2 q hq
      rw [hframe q (hother ch2 hch2 q hq)]
      exact hw.chainsLen ch2 (dropChainAt_subset pool i ch2 hch2) q hq
    · rw [List.append_assoc]
      refine List.nodup_append.mpr ⟨List.nodup_reverse.mpr hchN, ?_, ?_⟩
      · refine List.nodup_append.mpr
          ⟨hw.nodupAll.of_append_left,
           dropChainAt_flatten_nodup pool i hflat, ?_⟩
        intro q hq hq2
        exact hdisjf hq (dropChainAt_flatten_subset pool i q hq2)
      · intro q hq hq2
        have hqc : q ∈ ch := List.mem_reverse.mp hq
        rcases List.mem_append.mp hq2 with h2 | h2
        · exact hchd q hqc h2
        · obtain ⟨ch2, hch2, hq3⟩ := List.mem_flatten.mp h2
          exact hother ch2 hch2 q hq3 hqc
  · have hlrb : s.lastRemoved < 2 ^ 64 := by
      refine IsFreeList_head_lt s freeL _ hw.freeOk ?_ (by norm_num)
      intro z hz
      have h2 := hw.freeLt z hz
      have h3 := hw.filled64
      omega
    refine ⟨clearSlotM s i,
      by rw [writeRemovePlanM, if_neg hm], i :: freeL, ?_, ?_, ?_, ?_,
      ?_, ?_, ?_, ?_⟩
    · rw [clearSlotM_filled]; exact hw.filledPos
    · rw [clearSlotM_filled]; exact hw.filled64
    · exact clearSlotM_freelist s freeL i hw.freeOk hi0 (hchd i himem) hlrb
    · intro q hq
      rw [clearSlotM_filled]
      rcases List.mem_cons.mp hq with rfl | hq
      · exact hchlt q himem
      · exact hw.freeLt q hq
    · intro ch2 hch2
      refine IsChain_congr cfg s _ ch2
        (hw.chainsOk ch2 (dropChainAt_subset pool i ch2 hch2)) ?_
      intro q hq
      refine clearSlotM_slots_ne s i q ?_
      intro h
      exact hother ch2 hch2 q hq (h ▸ himem)
    · intro ch2 hch2 q hq
      rw [clearSlotM_filled]
      exact hw.chainsLt ch2 (dropChainAt_subset pool i ch2 hch2) q hq
    · intro ch2 hch2 q hq
      rw [clearSlotM_slots_ne s i q (by
        intro h
        exact hother ch2 hch2 q hq (h ▸ himem))]
      exact hw.chainsLen ch2 (dropChainAt_subset pool i ch2 hch2) q hq
    · rw [List.cons_append]
      refine List.nodup_cons.mpr ⟨?_, ?_⟩
      · intro h2
        rcases List.mem_append.mp h2 with h2 | h2
        · exact hchd i himem h2
        · obtain ⟨ch2, hch2, hq3⟩ := List.mem_flatten.mp h2
          exact hother ch2 hch2 i hq3 himem
      · refine List.nodup_append.mpr
          ⟨hw.nodupAll.of_append_left,
           dropChainAt_flatten_nodup pool i hflat, ?_⟩
        intro q hq hq2
        exact hdisjf hq (dropChainAt_flatten_subset pool i q hq2)

theorem wfd_ins (cfg : VTCfg) (hc : CfgOk cfg) (s : TState)
    (freeL : List Nat) (pool : List (List Nat)) (key : MKey) (v : List Nat)
    (c : Bool) (hw : WfD cfg s freeL pool) (hop : insOk cfg s key v) :
    ∃ (st : Nat) (s' : TState) (freeL' : List Nat),
      writeInsertPlanM cfg key v c s = some (st, s') ∧
      WfD cfg s' freeL' (chainSlots cfg s' s'.filled st :: pool) := by
  have hkbe : key.writeBytes.length = key.encodedSize := by
    cases key with
    | hashed k =>
      have hk : k.length = 32 := hop.1
      simp [MKey.writeBytes, MKey.encodedSize, partKeyBytes,
        List.length_drop, hk, PARTIAL_SIZE]
    | noHash => rfl
  have hkb : key.writeBytes.length ≤ PARTIAL_SIZE := by
    rw [hkbe]
    cases key <;> simp [MKey.encodedSize]
  have hrem0 : v.length + cfg.refSize + key.encodedSize =
      v.length + (hdrBytes cfg key.writeBytes 0).length := by
    rw [hdrBytes_zero_length, hkbe, VTCfg.refSize]
    simp only [REFS_SIZE]
    omega
  have hrs : cfg.refSize ≤ 4 := by
    rw [VTCfg.refSize]
    split <;> simp [REFS_SIZE]
  have henc : key.encodedSize ≤ 26 := by
    cases key <;> norm_num [MKey.encodedSize, PARTIAL_SIZE]
  have hbound := hop.2.2
  have hb64 : s.filled + (v.length + cfg.refSize + key.encodedSize) + 1 ≤
      2 ^ 64 := by omega
  have hmpc : cfg.entrySize - SIZE_SIZE <
      v.length + cfg.refSize + key.encodedSize → cfg.multipart = true := by
    cases hmpv : cfg.multipart with
    | true => intro _; rfl
    | false =>
      intro h2
      have h4 := hop.2.1 hmpv
      exact absurd h2 (by omega)
  have hnd : freeL.Nodup := hw.nodupAll.of_append_left
  have hflat : pool.flatten.Nodup := hw.nodupAll.of_append_right
  have hdisjf := List.disjoint_of_nodup_append hw.nodupAll
  have hflatlt : ∀ q ∈ pool.flatten, q < s.filled := by
    intro q hq
    obtain ⟨ch, hch, hq2⟩ := List.mem_flatten.mp hq
    exact hw.chainsLt ch hch q hq2
  rcases nextFreeM_cases s freeL hw.freeOk with ⟨h0, hfe, hnf⟩ |
    ⟨h0, hfe, htomb, hnext, hnf⟩
  · obtain ⟨s', zs, dropN, haux, hhead, hndz, hz, hdropN, hfill1, hfill2,
      hfl2, hzf, hframe, henc2⟩ :=
      owc_fresh cfg hc key.writeBytes v c hkb
        (v.length + cfg.refSize + key.encodedSize + s.filled + 2)
        { s with filled := s.filled + 1 } []
        (v.length + cfg.refSize + key.encodedSize) 0 0 s.filled
        (by rw [show ({ s with filled := s.filled + 1 } : TState).lastRemoved = 0
          from h0]; exact IsFreeList.nil)
        List.nodup_nil (by simp)
        (show 1 ≤ s.filled + 1 by omega)
        (show s.filled + 1 ≤ 2 ^ 64 by omega)
        (by have := hw.filledPos; omega)
        (show s.filled < s.filled + 1 by omega)
        (by simp) (by omega)
        (show s.filled + 1 + (v.length + cfg.refSize + key.encodedSize) ≤
          2 ^ 64 by omega)
        (Or.inl ⟨rfl, rfl, hrem0⟩) hmpc
    rw [if_pos rfl] at haux
    have hz0 : ∀ z ∈ zs, z ≠ 0 := fun z hz2 => (hz z hz2).1
    have hchain : IsChain cfg s' zs :=
      IsChain_of_ChainEnc cfg hc s' v key.writeBytes c zs _ _ henc2 hz0
    have hzlen : zs.length ≤ s'.filled :=
      nodup_length_le zs s'.filled hndz (fun z hz2 => (hz z hz2).2.1)
    have hweq : writeInsertPlanM cfg key v c s = some (s.filled, s') := by
      simp only [writeInsertPlanM, overwriteChain]
      rw [hnf]
      exact haux
    have hcs : chainSlots cfg s' s'.filled s.filled = zs :=
      chainSlots_of_IsChain cfg s' zs s'.filled s.filled hchain hhead hzlen
    have hsfill2 : ({ s with filled := s.filled + 1 } : TState).filled =
        s.filled + 1 := rfl
    rw [hsfill2] at hfill1 hfill2
    have hznotflat : ∀ z ∈ zs, z ∉ pool.flatten := by
      intro z hz2 h2
      have h3 := hflatlt z h2
      rcases (hz z hz2).2.2 with h4 | h4 | h4
      · omega
      · exact absurd h4 (by simp)
      · rw [hsfill2] at h4
        omega
    have hfr2 : ∀ q, q ∉ zs → s'.slots q = s.slots q := by
      intro q hq
      rw [hframe q hq]
    refine ⟨s.filled, s', [], hweq, ?_⟩
    rw [hcs]
    refine ⟨by omega, by omega, ?_, by simp, ?_, ?_, ?_, ?_⟩
    · simpa using hfl2
    · intro ch2 hch2
      rcases List.mem_cons.mp hch2 with rfl | hch2
      · exact hchain
      · refine IsChain_congr cfg s s' ch2 (hw.chainsOk ch2 hch2) ?_
        intro q hq
        refine hfr2 q ?_
        intro h2
        exact hznotflat q h2 (flatten_mem_of_mem pool ch2 hch2 q hq)
    · intro ch2 hch2 q hq
      rcases List.mem_cons.mp hch2 with rfl | hch2
      · exact (hz q hq).2.1
      · have h2 := hw.chainsLt ch2 hch2 q hq
        omega
    · intro ch2 hch2 q hq
      rcases List.mem_cons.mp hch2 with rfl | hch2
      · exact ChainEnc_slotLen cfg hc s' v key.writeBytes c ch2 _ _ henc2 q hq
      · rw [hfr2 q (fun h2 =>
          hznotflat q h2 (flatten_mem_of_mem pool ch2 hch2 q hq))]
        exact hw.chainsLen ch2 hch2 q hq
    · rw [List.nil_append, List.flatten_cons]
      refine List.nodup_append.mpr ⟨hndz, hflat, ?_⟩
      intro q hq hq2
      exact hznotflat q hq hq2
  · obtain ⟨s', zs, dropN, haux, hhead, hndz, hz, hdropN, hfill1, hfill2,
      hfl2, hzf, hframe, henc2⟩ :=
      owc_fresh cfg hc key.writeBytes v c hkb
        (v.length + cfg.refSize + key.encodedSize + s.filled + 2)
        { s with lastRemoved := nextPtrOf (s.slots s.lastRemoved) }
        freeL.tail
        (v.length + cfg.refSize + key.encodedSize) 0 0 s.lastRemoved
        (IsFreeList_congr s _ _ _ hnext (fun i _ => rfl))
        (by rw [hfe] at hnd; exact (List.nodup_cons.mp hnd).2)
        (fun i hi => hw.freeLt i (by rw [hfe]; exact List.mem_cons_of_mem _ hi))
        hw.filledPos (show s.filled ≤ 2 ^ 64 from hw.filled64) h0
        (hw.freeLt _ (by rw [hfe]; exact List.mem_cons_self _ _))
        (by rw [hfe] at hnd; exact (List.nodup_cons.mp hnd).1)
        (by omega)
        (show s.filled + (v.length + cfg.refSize + key.encodedSize) ≤ 2 ^ 64
          by omega)
        (Or.inl ⟨rfl, rfl, hrem0⟩) hmpc
    rw [if_pos rfl] at haux
    have hsfill2 : ({ s with
        lastRemoved := nextPtrOf (s.slots s.lastRemoved) } : TState).filled =
        s.filled := rfl
    rw [hsfill2] at hfill1 hfill2
    have hz0 : ∀ z ∈ zs, z ≠ 0 := fun z hz2 => (hz z hz2).1
    have hchain : IsChain cfg s' zs :=
      IsChain_of_ChainEnc cfg hc s' v key.writeBytes c zs _ _ henc2 hz0
    have hzlen : zs.length ≤ s'.filled :=
      nodup_length_le zs s'.filled hndz (fun z hz2 => (hz z hz2).2.1)
    have hweq : writeInsertPlanM cfg key v c s = some (s.lastRemoved, s') := by
      simp only [writeInsertPlanM, overwriteChain]
      rw [hnf]
      exact haux
    have hcs : chainSlots cfg s' s'.filled s.lastRemoved = zs :=
      chainSlots_of_IsChain cfg s' zs s'.filled s.lastRemoved hchain hhead
        hzlen
    have hznotflat : ∀ z ∈ zs, z ∉ pool.flatten := by
      intro z hz2 h2
      have h3 := hflatlt z h2
      rcases (hz z hz2).2.2 with h4 | h4 | h4
      · refine hdisjf ?_ h2
        rw [h4, hfe]
        exact List.mem_cons_self _ _
      · refine hdisjf ?_ h2
        have h5 : z ∈ freeL.tail := List.take_subset _ _ h4
        rw [hfe]
        exact List.mem_cons_of_mem _ h5
      · rw [hsfill2] at h4
        omega
    have hfr2 : ∀ q, q ∉ zs → s'.slots q = s.slots q := by
      intro q hq
      rw [hframe q hq]
    have hdropsub : ∀ q ∈ freeL.tail.drop dropN, q ∈ freeL := by
      intro q hq
      rw [hfe]
      exact List.mem_cons_of_mem _ (List.drop_subset _ _ hq)
    refine ⟨s.lastRemoved, s', freeL.tail.drop dropN, hweq, ?_⟩
    rw [hcs]
    refine ⟨by have h8 := hw.filledPos; omega,
      by have h8 := hw.filled64; omega, hfl2, ?_, ?_, ?_, ?_, ?_⟩
    · intro q hq
      have h2 := hw.freeLt q (hdropsub q hq)
      omega
    · intro ch2 hch2
      rcases List.mem_cons.mp hch2 with rfl | hch2
      · exact hchain
      · refine IsChain_congr cfg s s' ch2 (hw.chainsOk ch2 hch2) ?_
        intro q hq
        refine hfr2 q ?_
        intro h2
        exact hznotflat q h2 (flatten_mem_of_mem pool ch2 hch2 q hq)
    · intro ch2 hch2 q hq
      rcases List.mem_cons.mp hch2 with rfl | hch2
      · exact (hz q hq).2.1
      · have h2 := hw.chainsLt ch2 hch2 q hq
        omega
    · intro ch2 hch2 q hq
      rcases List.mem_cons.mp hch2 with rfl | hch2
      · exact ChainEnc_slotLen cfg hc s' v key.writeBytes c ch2 _ _ henc2 q hq
      · rw [hfr2 q (fun h2 =>
          hznotflat q h2 (flatten_mem_of_mem pool ch2 hch2 q hq))]
        exact hw.chainsLen ch2 hch2 q hq
    · rw [List.flatten_cons]
      refine List.nodup_append.mpr ⟨?_, ?_, ?_⟩
      · exact hnd.sublist
          ((List.drop_sublist _ _).trans (List.tail_sublist _))
      · refine List.nodup_append.mpr ⟨hndz, hflat, hznotflat⟩
      · intro q hq hq2
        rcases List.mem_append.mp hq2 with h2 | h2
        · exact hzf q h2 hq
        · exact hdisjf (hdropsub q hq) h2

theorem wfd_repl (cfg : VTCfg) (hc : CfgOk cfg) (s : TState)
    (freeL : List Nat) (pool : List (List Nat)) (i : Nat) (key : MKey)
    (v : List Nat) (c : Bool) (ch : List Nat)
    (hw : WfD cfg s freeL pool) (hch : ch ∈ pool)
    (hhead : ch.head? = some i) (hop : insOk cfg s key v) :
    ∃ (s' : TState) (freeL' : List Nat),
      writeReplacePlanM cfg i key v c s = some s' ∧
      WfD cfg s' freeL' (chainSlots cfg s' s'.filled i :: dropChainAt pool i) := by
  have hkbe : key.writeBytes.length = key.encodedSize := by
    cases key with
    | hashed k =>
      have hk : k.length = 32 := hop.1
      simp [MKey.writeBytes, MKey.encodedSize, partKeyBytes,
        List.length_drop, hk, PARTIAL_SIZE]
    | noHash => rfl
  have hkb : key.writeBytes.length ≤ PARTIAL_SIZE := by
    rw [hkbe]
    cases key <;> simp [MKey.encodedSize]
  have hrem0 : v.length + cfg.refSize + key.encodedSize =
      v.length + (hdrBytes cfg key.writeBytes 0).length := by
    rw [hdrBytes_zero_length, hkbe, VTCfg.refSize]
    simp only [REFS_SIZE]
    omega
  have hrs : cfg.refSize ≤ 4 := by
    rw [VTCfg.refSize]
    split <;> simp [REFS_SIZE]
  have henc : key.encodedSize ≤ 26 := by
    cases key <;> norm_num [MKey.encodedSize, PARTIAL_SIZE]
  have hbound := hop.2.2
  have hmpc : cfg.entrySize - SIZE_SIZE <
      v.length + cfg.refSize + key.encodedSize → cfg.multipart = true := by
    cases hmpv : cfg.multipart with
    | true => intro _; rfl
    | false =>
      intro h2
      have h4 := hop.2.1 hmpv
      exact absurd h2 (by omega)
  have hnd : freeL.Nodup := hw.nodupAll.of_append_left
  have hflat : pool.flatten.Nodup := hw.nodupAll.of_append_right
  have hdisjf := List.disjoint_of_nodup_append hw.nodupAll
  have hflatlt : ∀ q ∈ pool.flatten, q < s.filled := by
    intro q hq
    obtain ⟨ch2, hch2, hq2⟩ := List.mem_flatten.mp hq
    exact hw.chainsLt ch2 hch2 q hq2
  have hchN : ch.Nodup := flatten_nodup_each pool hflat ch hch
  have hchd : ∀ z ∈ ch, z ∉ freeL := by
    intro z hz h2
    exact hdisjf h2 (flatten_mem_of_mem pool ch hch z hz)
  have hchlt : ∀ z ∈ ch, z < s.filled := hw.chainsLt ch hch
  have hchlen : ch.length ≤ s.filled := nodup_length_le ch s.filled hchN hchlt
  have hother : ∀ ch2 ∈ dropChainAt pool i, ∀ q ∈ ch2, q ∉ ch := by
    intro ch2 hch2 q hq
    have hne : ch2 ≠ ch := by
      intro h
      exact dropChainAt_head pool i ch2 hch2 (h ▸ hhead)
    exact flatten_nodup_disjoint pool hflat ch2
      (dropChainAt_subset pool i ch2 hch2) ch hch hne q hq
  obtain ⟨s', zs, dropK, dropN, haux, hheadz, hndz, hz, hdropN, hfill1,
      hfill2, hclr, hfl2, hzf, hframe, henc2⟩ :=
    owc_follow cfg hc key.writeBytes v c hkb
      (v.length + cfg.refSize + key.encodedSize + s.filled + 2) s freeL ch
      (v.length + cfg.refSize + key.encodedSize) 0 0 i
      hw.freeOk hnd hw.freeLt hw.filledPos hw.filled64
      (hw.chainsOk ch hch) hhead hchN hchd hchlt
      (by omega) (by omega)
      (Or.inl ⟨rfl, rfl, hrem0⟩) hmpc
  rw [if_pos rfl] at haux
  have hz0 : ∀ z ∈ zs, z ≠ 0 := fun z hz2 => (hz z hz2).1
  have hchain : IsChain cfg s' zs :=
    IsChain_of_ChainEnc cfg hc s' v key.writeBytes c zs _ _ henc2 hz0
  have hzlen : zs.length ≤ s'.filled :=
    nodup_length_le zs s'.filled hndz (fun z hz2 => (hz z hz2).2.1)
  have hweq : writeReplacePlanM cfg i key v c s = some s' := by
    simp only [writeReplacePlanM, overwriteChain]
    rw [haux]
    rfl
  have hcs : chainSlots cfg s' s'.filled i = zs :=
    chainSlots_of_IsChain cfg s' zs s'.filled i hchain hheadz hzlen
  have hznotflat : ∀ z ∈ zs, z ∉ (dropChainAt pool i).flatten := by
    intro z hz2 h2
    obtain ⟨ch2, hch2, hq2⟩ := List.mem_flatten.mp h2
    have h3 := hflatlt z (flatten_mem_of_mem pool ch2
      (dropChainAt_subset pool i ch2 hch2) z hq2)
    rcases (hz z hz2).2.2 with h4 | h4 | h4
    · exact hother ch2 hch2 z hq2 h4
    · exact hdisjf (List.take_subset _ _ h4)
        (flatten_mem_of_mem pool ch2 (dropChainAt_subset pool i ch2 hch2) z hq2)
    · omega
  have hclrsub : ∀ q ∈ ch.drop dropK, q ∈ ch := fun q hq =>
    List.drop_subset _ _ hq
  refine ⟨s', (ch.drop dropK).reverse ++ freeL.drop dropN, hweq, ?_⟩
  rw [hcs]
  refine ⟨by have h8 := hw.filledPos; omega,
    by have h8 := hw.filled64; omega, hfl2, ?_, ?_, ?_, ?_, ?_⟩
  · intro q hq
    rcases List.mem_append.mp hq with hq | hq
    · have h2 := hchlt q (hclrsub q (List.mem_reverse.mp hq))
      omega
    · have h2 := hw.freeLt q (List.drop_subset _ _ hq)
      omega
  · intro ch2 hch2
    rcases List.mem_cons.mp hch2 with rfl | hch2
    · exact hchain
    · refine IsChain_congr cfg s s' ch2
        (hw.chainsOk ch2 (dropChainAt_subset pool i ch2 hch2)) ?_
      intro q hq
      refine hframe q ?_ ?_
      · intro h2
        exact hznotflat q h2 (flatten_mem_of_mem _ ch2 hch2 q hq)
      · intro h2
        exact hother ch2 hch2 q hq (hclrsub q h2)
  · intro ch2 hch2 q hq
    rcases List.mem_cons.mp hch2 with rfl | hch2
    · exact (hz q hq).2.1
    · have h2 := hw.chainsLt ch2 (dropChainAt_subset pool i ch2 hch2) q hq
      omega
  · intro ch2 hch2 q hq
    rcases List.mem_cons.mp hch2 with rfl | hch2
    · exact ChainEnc_slotLen cfg hc s' v key.writeBytes c ch2 _ _ henc2 q hq
    · rw [hframe q
        (fun h2 => hznotflat q h2 (flatten_mem_of_mem _ ch2 hch2 q hq))
        (fun h2 => hother ch2 hch2 q hq (hclrsub q h2))]
      exact hw.chainsLen ch2 (dropChainAt_subset pool i ch2 hch2) q hq
  · rw [List.flatten_cons]
    refine List.nodup_append.mpr ⟨?_, ?_, ?_⟩
    · refine List.nodup_append.mpr ⟨?_, ?_, ?_⟩
      · exact List.nodup_reverse.mpr (hchN.sublist (List.drop_sublist _ _))
      · exact hnd.sublist (List.drop_sublist _ _)
      · intro q hq hq2
        exact hchd q (hclrsub q (List.mem_reverse.mp hq))
          (List.drop_subset _ _ hq2)
    · refine List.nodup_append.mpr ⟨hndz, dropChainAt_flatten_nodup pool i hflat,
        hznotflat⟩
    · intro q hq hq2
      rcases List.mem_append.mp hq with hq | hq
      · rcases List.mem_append.mp hq2 with h2 | h2
        · exact hclr q (List.mem_reverse.mp hq) h2
        · obtain ⟨ch2, hch2, hq3⟩ := List.mem_flatten.mp h2
          exact hother ch2 hch2 q hq3 (hclrsub q (List.mem_reverse.mp hq))
      · rcases List.mem_append.mp hq2 with h2 | h2
        · exact hzf q h2 hq
        · exact hdisjf (List.drop_subset _ _ hq)
            (dropChainAt_flatten_subset pool i q h2)

theorem head_mem {i : Nat} {ch : List Nat} (h : ch.head? = some i) :
    i ∈ ch := by
  cases ch with
  | nil => simp at h
  | cons a t =>
    rw [show a = i from by simpa using h]
    exact List.mem_cons_self _ _

theorem wfd_applyOp (cfg : VTCfg) (hc : CfgOk cfg) (s : TState)
    (freeL : List Nat) (pool : List (List Nat)) (op : VOp)
    (hw : WfD cfg s freeL pool) (hop : opOk cfg s pool op) :
    ∃ s', applyOp cfg s op = some s' ∧
      ∃ freeL', WfD cfg s' freeL' (poolStep cfg s pool op) := by
  cases op with
  | ins key v c =>
    obtain ⟨st, s', freeL', hweq, hwf⟩ :=
      wfd_ins cfg hc s freeL pool key v c hw hop
    refine ⟨s', by simp [applyOp, hweq], freeL', ?_⟩
    simp only [poolStep, hweq]
    exact hwf
  | repl i key v c =>
    obtain ⟨ch, hch, hhd⟩ := hop.1
    obtain ⟨s', freeL', hweq, hwf⟩ :=
      wfd_repl cfg hc s freeL pool i key v c ch hw hch hhd hop.2
    refine ⟨s', by simp only [applyOp]; rw [hweq], freeL', ?_⟩
    simp only [poolStep, hweq]
    exact hwf
  | rem i =>
    obtain ⟨ch, hch, hhd⟩ := hop
    obtain ⟨s', hweq, freeL', hwf⟩ := wfd_remove cfg s freeL pool i ch hw hch hhd
    exact ⟨s', by simp only [applyOp]; exact hweq, freeL',
      by simpa [poolStep] using hwf⟩
  | incr i =>
    obtain ⟨ch, hch, hhd⟩ := hop
    refine ⟨writeIncRefM cfg s i, rfl, freeL, ?_⟩
    simp only [poolStep]
    exact wfd_changeRef cfg s freeL pool i 1 ch hw hch (head_mem hhd)
  | decr i =>
    obtain ⟨ch, hch, hhd⟩ := hop
    by_cases hlive : (changeRefM cfg s i (-1)).1 = true
    · refine ⟨(changeRefM cfg s i (-1)).2, ?_, freeL, ?_⟩
      · simp [applyOp, writeDecRefM, if_pos hlive]
      · simp only [poolStep, if_pos hlive]
        exact wfd_changeRef cfg s freeL pool i (-1) ch hw hch (head_mem hhd)
    · have hfalse : (changeRefM cfg s i (-1)).1 = false := by
        revert hlive
        cases (changeRefM cfg s i (-1)).1 <;> simp
      have hstate := changeRefM_false_state cfg s i (-1) hfalse
      obtain ⟨s', hweq, freeL', hwf⟩ :=
        wfd_remove cfg s freeL pool i ch hw hch hhd
      refine ⟨s', ?_, freeL', ?_⟩
      · simp [applyOp, writeDecRefM, if_neg hlive, hstate, hweq]
      · simp only [poolStep, if_neg hlive]
        exact hwf

theorem wfd_run (cfg : VTCfg) (hc : CfgOk cfg) :
    ∀ (ops : List VOp) (s : TState) (freeL : List Nat)
      (pool : List (List Nat)) (s' : TState),
      WfD cfg s freeL pool → seqOk cfg s pool ops →
      runOpsM cfg s ops = some s' →
      ∃ freeL' pool', WfD cfg s' freeL' pool' := by
  intro ops
  induction ops with
  | nil =>
    intro s freeL pool s' hw _ hrun
    simp only [runOpsM, Option.some.injEq] at hrun
    exact ⟨freeL, pool, hrun ▸ hw⟩
  | cons op rest ih =>
    intro s freeL pool s' hw hseq hrun
    obtain ⟨s1, happ, freeL1, hw1⟩ :=
      wfd_applyOp cfg hc s freeL pool op hw hseq.1
    rw [runOpsM, happ] at hrun
    have hseq2 : seqOk cfg s1 (poolStep cfg s pool op) rest := by
      have h2 := hseq.2
      rw [happ] at h2
      exact h2
    exact ih s1 freeL1 (poolStep cfg s pool op) s' hw1 hseq2 hrun

/-- C3: free-list well-formedness.  From a well-formed table state, after
any sequence of value-table operations (insert, replace, remove, inc_ref,
dec_ref, each addressed at the head of a live chain and followed by its
byte-identical enactment), the linked list obtained by starting at
last_removed and following the stored next pointers visits only tombstone
slots, contains no slot twice (hence is acyclic), and terminates at slot
0. -/
theorem c3_freelist_wf (cfg : VTCfg) (hc : CfgOk cfg) (ops : List VOp)
    (s s' : TState) (freeL : List Nat) (pool : List (List Nat))
    (hw : WfD cfg s freeL pool) (hseq : seqOk cfg s pool ops)
    (hrun : runOpsM cfg s ops = some s') :
    ∃ freeL' : List Nat,
      IsFreeList s' s'.lastRemoved freeL' ∧
      freeL'.Nodup ∧
      (∀ i ∈ freeL', isTomb (s'.slots i) = true) ∧
      (∀ i ∈ freeL', i ≠ 0) := by
  obtain ⟨freeL', pool', hw2⟩ := wfd_run cfg hc ops s freeL pool s' hw hseq hrun
  exact ⟨freeL', hw2.freeOk, hw2.nodupAll.of_append_left,
    IsFreeList_tomb s' _ _ hw2.freeOk, IsFreeList_ne_zero s' _ _ hw2.freeOk⟩

/-- Witness for C3 at a concrete input: one insert into a fresh 64-byte
table leaves a well-formed (here empty) free list. -/
theorem c3_freelist_wf_witness :
    ∃ freeL' : List Nat,
      IsFreeList c3ws c3ws.lastRemoved freeL' ∧
      freeL'.Nodup ∧
      (∀ i ∈ freeL', isTomb (c3ws.slots i) = true) ∧
      (∀ i ∈ freeL', i ≠ 0) := by
  refine c3_freelist_wf c1wcfg
    ⟨by decide, by decide, by decide, by decide⟩
    [c3wop] initTState c3ws [] []
    ⟨by decide, by decide, IsFreeList.nil, by simp, by simp, by simp,
      by simp, by simp⟩
    ?_ (by rfl)
  refine ⟨⟨by show c1wk.length = 32; decide, by decide, by decide⟩, ?_⟩
  cases happ : applyOp c1wcfg initTState c3wop with
  | none => simp only [happ]
  | some s1 => simp only [happ]; trivial

end ParityDb
